import Mathlib

/-!
# gendchain: block validator and gas-limit policy

A shallow embedding of `core/block_validator.go` (`CalcGasLimit`, `ValidateBody`,
`ValidateState`) and `core/state_processor.go` (`Process`, `ApplyTransaction`),
together with the small part of `core/types` and `params` that these functions
touch, and a model of the header verification scheduler.  Go `uint64` values are natural numbers; every `uint64` addition and
subtraction of the source is written with an explicit reduction modulo `2 ^ 64`.
-/

namespace GendChain

/-! ## Machine integers -/

/-- Number of values of a Go `uint64`. -/
def uint64Size : Nat := 2 ^ 64

/-- Go `a + b` on `uint64`: the sum wraps modulo `2 ^ 64`. -/
def addU64 (a b : Nat) : Nat := (a + b) % uint64Size

/-- Go `a - b` on `uint64`: the difference wraps modulo `2 ^ 64`. -/
def subU64 (a b : Nat) : Nat := (a % uint64Size + (uint64Size - b % uint64Size)) % uint64Size

/-- Subtraction truncated at zero, the "saturating" reading of `a - b`. -/
def subSat (a b : Nat) : Nat := a - b

/-! ## Data model (`core/types`, `params`) -/

/-- Content hashes (`common.Hash`), kept abstract as numbers. -/
abbrev Hash := Nat

/-- Logs bloom (`types.Bloom`), kept abstract as a number. -/
abbrev Bloom := Nat

/-- The two protocol constants of package `params` read by `CalcGasLimit`.  Their
declarations (`params/protocol_params.go`) are not part of the sources at hand, so
they are carried as parameters; the comments inside `CalcGasLimit` write the
divisor as 1024. -/
structure Params where
  GasLimitBoundDivisor : Nat
  MinGasLimit : Nat
deriving DecidableEq, Repr

/-- The constants are Go `uint64` values and the divisor is not zero (a zero divisor
would make `CalcGasLimit` panic on its first line). -/
def Params.wellFormed (p : Params) : Prop :=
  0 < p.GasLimitBoundDivisor ∧ p.GasLimitBoundDivisor < uint64Size ∧ p.MinGasLimit < uint64Size

instance (p : Params) : Decidable p.wellFormed := by
  unfold Params.wellFormed
  infer_instance

/-- A transaction, opaque beyond its stable hash and its nonce. -/
structure Transaction where
  Hash : Hash
  Nonce : Nat := 0
deriving DecidableEq, Repr

/-- The header fields read by the validator. `Number` is a `*big.Int`. -/
structure Header where
  ParentHash : Hash
  Root : Hash
  TxHash : Hash
  ReceiptHash : Hash
  Bloom : Bloom
  Number : Nat
  GasLimit : Nat
  GasUsed : Nat
deriving DecidableEq, Repr

/-- A block: a header, its transactions and its uncle headers. -/
structure Block where
  header : Header
  transactions : List Transaction
  uncles : List Header
deriving DecidableEq, Repr

/-- Accessor `block.GasLimit()`. -/
def Block.GasLimit (b : Block) : Nat := b.header.GasLimit

/-- Accessor `block.GasUsed()`. -/
def Block.GasUsed (b : Block) : Nat := b.header.GasUsed

/-- Accessor `block.ParentHash()`. -/
def Block.ParentHash (b : Block) : Hash := b.header.ParentHash

/-- Accessor `block.NumberU64()`: the low 64 bits of the header number. -/
def Block.NumberU64 (b : Block) : Nat := b.header.Number % uint64Size

/-- Accessor `block.Uncles()`. -/
def Block.Uncles (b : Block) : List Header := b.uncles

/-- Accessor `block.Transactions()`. -/
def Block.Transactions (b : Block) : List Transaction := b.transactions

/-- A block is well formed for its Go type when its `uint64` header fields fit. -/
def Block.fitsUint64 (b : Block) : Prop :=
  b.GasLimit < uint64Size ∧ b.GasUsed < uint64Size

instance (b : Block) : Decidable b.fitsUint64 := by
  unfold Block.fitsUint64
  infer_instance

/-- A parent block with the given gas used and gas limit and nothing else of note. -/
def parentWith (gasUsed gasLimit : Nat) : Block :=
  { header := { ParentHash := 0, Root := 0, TxHash := 0, ReceiptHash := 0, Bloom := 0,
                Number := 0, GasLimit := gasLimit, GasUsed := gasUsed },
    transactions := [], uncles := [] }

/-! ## `CalcGasLimit` -/

/-- Embedding of `CalcGasLimit` (`core/block_validator.go`), statement by statement. -/
def CalcGasLimit (params : Params) (parent : Block) (gasFloor gasCeil : Nat) : Nat :=
  -- contrib = (parentGasUsed * 3 / 2) / 1024
  let contrib := addU64 parent.GasUsed (parent.GasUsed / 2) / params.GasLimitBoundDivisor
  -- decay = parentGasLimit / 1024 -1
  let decay := subU64 (parent.GasLimit / params.GasLimitBoundDivisor) 1
  let limit := addU64 (subU64 parent.GasLimit decay) contrib
  let limit := if limit < params.MinGasLimit then params.MinGasLimit else limit
  -- If we're outside our allowed gas range, we try to hone towards them
  if limit < gasFloor then
    let limit := addU64 parent.GasLimit decay
    if limit > gasFloor then gasFloor else limit
  else if limit > gasCeil then
    let limit := subU64 parent.GasLimit decay
    if limit < gasCeil then gasCeil else limit
  else limit

/-- The same steps as `CalcGasLimit` with every subtraction truncated at zero instead of
wrapping (additions still wrap): the "saturating" evaluation of the function. -/
def CalcGasLimitSat (params : Params) (parent : Block) (gasFloor gasCeil : Nat) : Nat :=
  let contrib := addU64 parent.GasUsed (parent.GasUsed / 2) / params.GasLimitBoundDivisor
  let decay := subSat (parent.GasLimit / params.GasLimitBoundDivisor) 1
  let limit := addU64 (subSat parent.GasLimit decay) contrib
  let limit := if limit < params.MinGasLimit then params.MinGasLimit else limit
  if limit < gasFloor then
    let limit := addU64 parent.GasLimit decay
    if limit > gasFloor then gasFloor else limit
  else if limit > gasCeil then
    let limit := subSat parent.GasLimit decay
    if limit < gasCeil then gasCeil else limit
  else limit

/-- The contribution of the spec's formula, in plain integer arithmetic:
`(gasUsed + gasUsed/2) / BOUND_DIVISOR`. -/
def formulaContrib (params : Params) (parent : Block) : Nat :=
  (parent.GasUsed + parent.GasUsed / 2) / params.GasLimitBoundDivisor

/-- The decay of the spec's formula, in plain integer arithmetic:
`gasLimit / BOUND_DIVISOR - 1`. -/
def formulaDecay (params : Params) (parent : Block) : Nat :=
  parent.GasLimit / params.GasLimitBoundDivisor - 1

/-- The unclamped limit of the spec's formula: `gasLimit - decay + contribution`. -/
def formulaLimit (params : Params) (parent : Block) : Nat :=
  parent.GasLimit - formulaDecay params parent + formulaContrib params parent

/-! ## `ValidateBody` -/

/-- The errors `ValidateBody` and `ValidateState` can return.  The three sentinels are
package-level error values (`core.ErrKnownBlock`, `consensus.ErrUnknownAncestor`,
`consensus.ErrPrunedAncestor`); the others are built on the spot by `errors.New` and
`fmt.Errorf` from the two values they print, and are equal to no sentinel. -/
inductive ValidationError where
  | ErrKnownBlock
  | ErrUnknownAncestor
  | ErrPrunedAncestor
  | unclesNotAllowed
  | txRootMismatch (have_ want : Hash)
  | invalidGasUsed (remote local_ : Nat)
  | invalidBloom (remote local_ : Bloom)
  | invalidReceiptRoot (remote local_ : Hash)
  | invalidMerkleRoot (remote local_ : Hash)
deriving DecidableEq, Repr

/-- The fork predicates of `*params.ChainConfig` read by the validator and the
processor, as functions of the block number. -/
structure ChainConfig where
  IsByzantium : Nat → Bool
  IsEIP158 : Nat → Bool

/-- The chain-membership queries of `*BlockChain` used by the validator.  Their bodies
(`core/blockchain.go`) are not part of the sources at hand, so every theorem about the
validator holds for arbitrary answers. -/
structure BlockChain where
  HasBlockAndState : Hash → Nat → Bool
  HasBlock : Hash → Nat → Bool

/-- The hashing functions of package `types` used by the validator (`Block.Hash`,
`types.DeriveSha` over a transaction list), kept abstract. -/
structure Hashing where
  BlockHash : Header → Hash
  DeriveSha : List Transaction → Hash

/-- Accessor `block.Hash()`: the hash of the block's header. -/
def Block.Hash (types : Hashing) (b : Block) : Hash := types.BlockHash b.header

/-- The fields of `BlockValidator` that `ValidateBody` and `ValidateState` read: the
canonical chain and the chain configuration. -/
structure BlockValidator where
  bc : BlockChain
  config : ChainConfig := { IsByzantium := fun _ => false, IsEIP158 := fun _ => false }

/-- Embedding of `BlockValidator.ValidateBody` (`core/block_validator.go`).  The result
is the Go `error`: `none` is `nil`. -/
def ValidateBody (types : Hashing) (v : BlockValidator) (block : Block)
    (checkParent : Bool) : Option ValidationError :=
  -- the statements after the ancestor check: uncles, then the transactions root
  let afterLinkage : Option ValidationError :=
    if block.Uncles.length > 0 then
      some ValidationError.unclesNotAllowed
    else
      -- Header validity is known at this point, check the transactions
      let header := block.header
      let hash := types.DeriveSha block.Transactions
      if hash ≠ header.TxHash then
        some (ValidationError.txRootMismatch hash header.TxHash)
      else
        none
  -- Check whether the block's known, and if not, that it's linkable
  if v.bc.HasBlockAndState (block.Hash types) block.NumberU64 then
    some ValidationError.ErrKnownBlock
  else if checkParent then
    if !v.bc.HasBlockAndState block.ParentHash (subU64 block.NumberU64 1) then
      if !v.bc.HasBlock block.ParentHash (subU64 block.NumberU64 1) then
        some ValidationError.ErrUnknownAncestor
      else
        some ValidationError.ErrPrunedAncestor
    else afterLinkage
  else afterLinkage

/-! ## Receipts and `ValidateState` -/

/-- A log entry (`types.Log`), opaque beyond two of its fields. -/
structure Log where
  Address : Nat
  Data : Nat
deriving DecidableEq, Repr

/-- A receipt (`types.Receipt`).  `PostState` is the intermediate root, `none` for the
nil byte slice; `Failed` is the status. -/
structure Receipt where
  PostState : Option Hash
  Failed : Bool
  CumulativeGasUsed : Nat
  Bloom : Bloom
  Logs : List Log
  TxHash : Hash
  ContractAddress : Nat
  GasUsed : Nat
  BlockHash : Hash
  BlockNumber : Nat
  TransactionIndex : Nat
deriving DecidableEq, Repr

/-- The functions of package `types` over receipt lists used by the validator and the
processor (`types.CreateBloom`, `types.DeriveSha`), kept abstract. -/
structure ReceiptFns where
  CreateBloom : List Receipt → Bloom
  DeriveSha : List Receipt → Hash

/-- Embedding of `BlockValidator.ValidateState` (`core/block_validator.go`).  The state
database is a value of an arbitrary type `W`; `IntermediateRoot` stands for the method
`statedb.IntermediateRoot`, which returns the root and may change the database.  The
result is the Go `error` (`none` is `nil`) together with the database afterwards. -/
def ValidateState {W : Type} (rf : ReceiptFns) (IntermediateRoot : Bool → W → Hash × W)
    (v : BlockValidator) (block _parent : Block) (statedb : W) (receipts : List Receipt)
    (usedGas : Nat) : Option ValidationError × W :=
  let header := block.header
  if block.GasUsed ≠ usedGas then
    (some (ValidationError.invalidGasUsed block.GasUsed usedGas), statedb)
  else
    -- Validate the received block's bloom with the one derived from the generated receipts.
    let rbloom := rf.CreateBloom receipts
    if rbloom ≠ header.Bloom then
      (some (ValidationError.invalidBloom header.Bloom rbloom), statedb)
    else
      -- Tre receipt Trie's root (R = (Tr [[H1, R1], ... [Hn, R1]]))
      let receiptSha := rf.DeriveSha receipts
      if receiptSha ≠ header.ReceiptHash then
        (some (ValidationError.invalidReceiptRoot header.ReceiptHash receiptSha), statedb)
      else
        -- Validate the state root against the received state root
        let (root, statedb) := IntermediateRoot (v.config.IsEIP158 header.Number) statedb
        if header.Root ≠ root then
          (some (ValidationError.invalidMerkleRoot header.Root root), statedb)
        else
          (none, statedb)

/-- Modelled from the spec: the state database (`state.StateDB`, whose code is not part
of the sources at hand) is "an opaque handle to the account/storage trie at a point in
time"; here it is the list of its accounts, an address with a balance, an account being
emptied when its balance is zero. -/
structure SpecStateDB where
  accounts : List (Nat × Nat)
deriving DecidableEq, Repr

/-- Modelled from the spec: `statedb.IntermediateRoot(deleteEmptyObjects)` "recomputes
the post-execution state root", where the flag decides "whether emptied accounts are
pruned from the root calculation".  The emptied accounts are dropped from the database
when the flag is set, and the root is the hash `rootOf` of the accounts that remain. -/
def SpecStateDB.IntermediateRoot (rootOf : List (Nat × Nat) → Hash) (deleteEmptyObjects : Bool)
    (s : SpecStateDB) : Hash × SpecStateDB :=
  let kept := if deleteEmptyObjects then s.accounts.filter (fun a => a.2 ≠ 0) else s.accounts
  (rootOf kept, { accounts := kept })

/-- Two calls of `ValidateState` in a row with the same arguments: the second call sees
the state database as the first one left it.  The result holds both errors and the
database after the second call. -/
def validateStateTwice {W : Type} (rf : ReceiptFns) (IntermediateRoot : Bool → W → Hash × W)
    (v : BlockValidator) (block parent : Block) (statedb : W) (receipts : List Receipt)
    (usedGas : Nat) : Option ValidationError × Option ValidationError × W :=
  let first := ValidateState rf IntermediateRoot v block parent statedb receipts usedGas
  let second := ValidateState rf IntermediateRoot v block parent first.2 receipts usedGas
  (first.1, second.1, second.2)

/-! ## `Process` and `ApplyTransaction` -/

/-- The errors a transaction application can return: the gas pool's
`ErrGasLimitReached`, or any other error of sender recovery or message application,
told apart by a code. -/
inductive ExecError where
  | ErrGasLimitReached
  | other (code : Nat)
deriving DecidableEq, Repr

/-- A message (`types.Message`), opaque beyond the fields `ApplyTransaction` reads. -/
structure Message where
  From : Nat
  To : Option Nat
  GasPrice : Nat
deriving DecidableEq, Repr

/-- The methods of `*state.StateDB` called by `Process` and `ApplyTransaction`.  Their
code is not part of the sources at hand; they act on a world `W` that stands for the
state database together with the EVM built on it. -/
structure StateDBOps (W : Type) where
  Prepare : Hash → Hash → Nat → W → W
  Finalise : Bool → W → W
  IntermediateRoot : Bool → W → Hash × W
  GetLogs : Hash → W → List Log
  BlockHash : W → Hash
  TxIndex : W → Nat

/-- The transaction-execution capability: `tx.AsMessage(signer)` (the signer is made from
the header number), the assignments to `vmenv.Context` followed by `vmenv.Reset()`, the
run of a message on the EVM, which yields the gas used and the failed flag or an error,
and `crypto.CreateAddress`. -/
structure EVMOps (W : Type) where
  AsMessage : Nat → Transaction → Except ExecError Message
  SetTxContext : Message → W → W
  Execute : Message → W → Except ExecError (Nat × Bool) × W
  CreateAddress : Nat → Nat → Nat

/-- The consensus engine's `Finalize`, which may change the world and returns an error
or `none`. -/
structure EngineOps (W : Type) where
  Finalize : Header → List Transaction → List Receipt → W → Option ExecError × W

/-- Modelled from the spec: `ApplyMessage` and the `GasPool` (`core/state_transition.go`,
`core/gaspool.go`) are not part of the sources at hand.  The gas pool is "a single
mutable integer-like counter representing remaining gas budget for the whole block";
the transaction-execution capability "returns (gasUsed, failed, logs) or an error" and
"debits GasPool"; "GasPool never goes negative; exceeding it aborts the enclosing
transaction's application".  The result is the outcome, the pool and the world
afterwards. -/
def ApplyMessage {W : Type} (vm : EVMOps W) (msg : Message) (gp : Nat) (w : W) :
    Except ExecError (Nat × Bool) × Nat × W :=
  match vm.Execute msg w with
  | (Except.error err, w) => (Except.error err, gp, w)
  | (Except.ok (gas, failed), w) =>
    if gp < gas then (Except.error ExecError.ErrGasLimitReached, gp, w)
    else (Except.ok (gas, failed), gp - gas, w)

/-- Modelled from the spec: `types.NewReceipt(root, failed, cumulativeGasUsed)`
(`core/types/receipt.go`, not part of the sources at hand) builds a receipt holding the
intermediate root, the "success/failure status" and the "cumulative gas used"; the other
fields are left at their zero values. -/
def NewReceipt (root : Option Hash) (failed : Bool) (cumulativeGasUsed : Nat) : Receipt :=
  { PostState := root, Failed := failed, CumulativeGasUsed := cumulativeGasUsed,
    Bloom := 0, Logs := [], TxHash := 0, ContractAddress := 0, GasUsed := 0,
    BlockHash := 0, BlockNumber := 0, TransactionIndex := 0 }

/-- What `ApplyTransaction` leaves behind: its return values `(receipt, gas)` or the
error, the counter behind `usedGas`, the gas pool and the world. -/
structure TxOutcome (W : Type) where
  result : Except ExecError (Receipt × Nat)
  usedGas : Nat
  gp : Nat
  world : W

/-- Embedding of `ApplyTransaction` (`core/state_processor.go`). -/
def ApplyTransaction {W : Type} (vm : EVMOps W) (config : ChainConfig) (rf : ReceiptFns)
    (sdb : StateDBOps W) (gp : Nat) (statedb : W) (header : Header) (tx : Transaction)
    (usedGas : Nat) : TxOutcome W :=
  match vm.AsMessage header.Number tx with
  | Except.error err => { result := Except.error err, usedGas := usedGas, gp := gp, world := statedb }
  | Except.ok msg =>
    let statedb := vm.SetTxContext msg statedb
    -- Apply the transaction to the current state (included in the env)
    match ApplyMessage vm msg gp statedb with
    | (Except.error err, gp, statedb) =>
      { result := Except.error err, usedGas := usedGas, gp := gp, world := statedb }
    | (Except.ok (gas, failed), gp, statedb) =>
      -- Update the state with pending changes
      let (root, statedb) : Option Hash × W :=
        if config.IsByzantium header.Number then
          (none, sdb.Finalise true statedb)
        else
          let r := sdb.IntermediateRoot (config.IsEIP158 header.Number) statedb
          (some r.1, r.2)
      let usedGas := addU64 usedGas gas
      -- Create a new receipt for the transaction
      let receipt := NewReceipt root failed usedGas
      let receipt := { receipt with TxHash := tx.Hash, GasUsed := gas }
      -- if the transaction created a contract, store the creation address in the receipt.
      let receipt :=
        if msg.To = none then
          { receipt with ContractAddress := vm.CreateAddress msg.From tx.Nonce }
        else receipt
      -- Set the receipt logs and create a bloom for filtering
      let receipt := { receipt with Logs := sdb.GetLogs tx.Hash statedb }
      let receipt := { receipt with Bloom := rf.CreateBloom [receipt] }
      let receipt := { receipt with BlockHash := sdb.BlockHash statedb,
                                    BlockNumber := header.Number,
                                    TransactionIndex := sdb.TxIndex statedb }
      { result := Except.ok (receipt, gas), usedGas := usedGas, gp := gp, world := statedb }

/-- The calls `Process` makes that the claims speak about, in the order it makes them:
`ApplyTransaction` on the transaction at an index, and the engine's `Finalize` with a
receipt list.  The list of calls is an observation of the run, not a variable of the
source. -/
inductive Call where
  | applyTransaction (i : Nat)
  | finalize (receipts : List Receipt)
deriving DecidableEq, Repr

/-- The variables of `Process` while it loops over the transactions, with the calls
made so far. -/
structure LoopState (W : Type) where
  receipts : List Receipt
  allLogs : List Log
  usedGas : Nat
  gp : Nat
  world : W
  calls : List Call

/-- How the loop of `Process` ends: with the error of a transaction, or after the last
transaction. -/
inductive LoopResult (W : Type) where
  | failed (err : ExecError) (st : LoopState W)
  | done (st : LoopState W)

/-- The loop `for i, tx := range txs` of `Process`, from index `i` on. -/
def processLoop {W : Type} (vm : EVMOps W) (config : ChainConfig) (rf : ReceiptFns)
    (sdb : StateDBOps W) (header : Header) (blockHash : Hash) :
    List Transaction → Nat → LoopState W → LoopResult W
  | [], _, st => LoopResult.done st
  | tx :: rest, i, st =>
    let statedb := sdb.Prepare tx.Hash blockHash i st.world
    let out := ApplyTransaction vm config rf sdb st.gp statedb header tx st.usedGas
    let calls := st.calls ++ [Call.applyTransaction i]
    match out.result with
    | Except.error err =>
      LoopResult.failed err { st with usedGas := out.usedGas, gp := out.gp,
                                      world := out.world, calls := calls }
    | Except.ok (receipt, _) =>
      processLoop vm config rf sdb header blockHash rest (i + 1)
        { receipts := st.receipts ++ [receipt],
          allLogs := st.allLogs ++ receipt.Logs,
          usedGas := out.usedGas, gp := out.gp, world := out.world, calls := calls }

/-- What `Process` returns, `(receipts, allLogs, usedGas, err)` with a nil slice written
as the empty list and a nil error as `none`, together with the world it leaves behind
and the calls it made. -/
structure ProcessResult (W : Type) where
  receipts : List Receipt
  logs : List Log
  usedGas : Nat
  err : Option ExecError
  world : W
  calls : List Call

/-- The variables of `Process` before the loop: no receipt, no log, no gas used, and a
gas pool holding the block's gas limit. -/
def initialLoopState {W : Type} (block : Block) (statedb : W) : LoopState W :=
  { receipts := [], allLogs := [], usedGas := 0, gp := block.GasLimit, world := statedb,
    calls := [] }

/-- Embedding of `StateProcessor.Process` (`core/state_processor.go`).  The EVM context,
the EVM and the signer built before the loop are part of the capabilities `vm`; the
`log.Info` line is left out. -/
def Process {W : Type} (types : Hashing) (vm : EVMOps W) (config : ChainConfig)
    (rf : ReceiptFns) (sdb : StateDBOps W) (engine : EngineOps W) (block : Block)
    (statedb : W) : ProcessResult W :=
  let txs := block.Transactions
  let header := block.header
  -- Iterate over and process the individual transactions
  match processLoop vm config rf sdb header (block.Hash types) txs 0
      (initialLoopState block statedb) with
  | LoopResult.failed err st =>
    { receipts := [], logs := [], usedGas := 0, err := some err, world := st.world,
      calls := st.calls }
  | LoopResult.done st =>
    -- Finalize the block, applying any consensus engine specific extras
    let fin := engine.Finalize header block.Transactions st.receipts st.world
    { receipts := st.receipts, logs := st.allLogs, usedGas := st.usedGas, err := none,
      world := fin.2, calls := st.calls ++ [Call.finalize st.receipts] }

/-- The logs of a receipt list, receipt after receipt. -/
def logsOfReceipts : List Receipt → List Log
  | [] => []
  | r :: rs => r.Logs ++ logsOfReceipts rs

/-- The running totals of a list of gas amounts, counted from `start`. -/
def runningTotals (start : Nat) : List Nat → List Nat
  | [] => []
  | g :: gs => (start + g) :: runningTotals (start + g) gs

/-- The loop variables a loop result holds. -/
def LoopResult.state {W : Type} : LoopResult W → LoopState W
  | LoopResult.done st => st
  | LoopResult.failed _ st => st

/-! ## Header verification scheduler -/

/-- The error of a header check. -/
inductive HeaderError where
  | errFakeFail
  | other (code : Nat)
deriving DecidableEq, Repr

/-- Modelled from the spec: the engine variant that is "a deterministic always valid"
checker (the tests' `clique.NewFaker`, whose code is not part of the sources at hand). -/
def fakerVerifyHeader : Header → Option HeaderError :=
  fun _ => none

/-- Modelled from the spec: the engine variant that "fails at header N" (the tests'
`clique.NewFakeFailer`, whose code is not part of the sources at hand). -/
def fakeFailerVerifyHeader (fail : Nat) : Header → Option HeaderError :=
  fun h => if h.Number = fail then some HeaderError.errFakeFail else none

/-- Modelled from the spec: the state of the header verification scheduler (the engine's
`VerifyHeaders`, whose code is not part of the sources at hand) for one batch: how many
headers the workers have pulled "in submission order", the headers being checked, the
"out-of-order completions" buffered "until their predecessor has been emitted", and the
results written to the stream so far. -/
structure Scheduler where
  next : Nat
  inflight : List Nat
  buffer : List (Nat × Option HeaderError)
  emitted : List (Option HeaderError)
deriving DecidableEq, Repr

/-- Modelled from the spec: the scheduler right after the submission of a batch. -/
def Scheduler.init : Scheduler :=
  { next := 0, inflight := [], buffer := [], emitted := [] }

/-- Modelled from the spec: "a bounded pool of workers pulls headers in submission
order": the free workers take the next headers of the batch of `total` headers. -/
def Scheduler.dispatch (workers total : Nat) (s : Scheduler) : Scheduler :=
  let k := min (workers - s.inflight.length) (total - s.next)
  { s with next := s.next + k, inflight := s.inflight ++ List.range' s.next k }

/-- Modelled from the spec: one worker finishes its check.  "Completion order is
nondeterministic": `choice` picks which of the headers being checked it is; the outcome
of `verifyHeader` on that header goes to the buffer. -/
def Scheduler.complete (verifyHeader : Header → Option HeaderError) (headers : List Header)
    (choice : Nat) (s : Scheduler) : Scheduler :=
  match s.inflight[choice % s.inflight.length]? with
  | none => s
  | some i =>
    match headers[i]? with
    | none => s
    | some h =>
      { s with inflight := s.inflight.erase i, buffer := (i, verifyHeader h) :: s.buffer }

/-- Modelled from the spec: "a result for header i is not emitted until results for all
headers < i have been emitted": while the buffer holds the result of the header whose
turn it is, that result is written to the stream.  `fuel` bounds the number of rounds. -/
def Scheduler.flush : Nat → Scheduler → Scheduler
  | 0, s => s
  | fuel + 1, s =>
    match s.buffer.find? (fun e => e.1 == s.emitted.length) with
    | none => s
    | some e =>
      Scheduler.flush fuel { s with buffer := s.buffer.erase e, emitted := s.emitted ++ [e.2] }

/-- Modelled from the spec: one event of a run: the free workers pull headers, one
worker finishes, and every result whose turn has come is emitted. -/
def Scheduler.step (workers : Nat) (verifyHeader : Header → Option HeaderError)
    (headers : List Header) (s : Scheduler) (choice : Nat) : Scheduler :=
  let s := s.dispatch workers headers.length
  let s := s.complete verifyHeader headers choice
  s.flush (s.buffer.length + 1)

/-- Modelled from the spec: the results that `VerifyHeaders` has delivered on its result
stream after the completions of `schedule`, each entry of which picks the worker that
finishes next. -/
def VerifyHeaders (workers : Nat) (verifyHeader : Header → Option HeaderError)
    (headers : List Header) (schedule : List Nat) : List (Option HeaderError) :=
  (schedule.foldl (Scheduler.step workers verifyHeader headers) Scheduler.init).emitted

/-- A header with the given number and nothing else of note. -/
def headerNumbered (n : Nat) : Header :=
  { ParentHash := 0, Root := 0, TxHash := 0, ReceiptHash := 0, Bloom := 0, Number := n,
    GasLimit := 8000000, GasUsed := 0 }

/-- What holds of the scheduler at every moment of a run: every pulled header is emitted,
buffered or being checked; the stream is the beginning of the expected results; the
buffer holds right results; no header beyond the batch is being checked. -/
structure Scheduler.Valid (verifyHeader : Header → Option HeaderError)
    (headers : List Header) (s : Scheduler) : Prop where
  count : s.emitted.length + s.buffer.length + s.inflight.length = s.next
  bound : s.next ≤ headers.length
  stream : s.emitted = (headers.map verifyHeader).take s.emitted.length
  buffered : ∀ i r, (i, r) ∈ s.buffer → ∃ h, headers[i]? = some h ∧ r = verifyHeader h
  checking : ∀ i, i ∈ s.inflight → i < s.next
  covered : ∀ i, s.emitted.length ≤ i → i < s.next →
    i ∈ s.inflight ∨ ∃ r, (i, r) ∈ s.buffer

/-! ## Tables, the key prefixer and `WritePreimages` -/

/-- Byte strings (`[]byte`), a byte being a number below 256. -/
abbrev Bytes := List Nat

/-- Modelled from the spec: an implementation of the interface `common.Table` (none is
part of the sources at hand), the table "whose batches commit into it" of the key-value
capability: an in-memory table, the list of its entries with the newest first. -/
structure MemTable where
  entries : List (Bytes × Bytes)
deriving DecidableEq, Repr

/-- Modelled from the spec: `Get` of the table: the value stored last under the key, or
`none` for the error `common.ErrNotFound`. -/
def MemTable.Get (t : MemTable) (key : Bytes) : Option Bytes :=
  (t.entries.find? (fun e => e.1 == key)).map (fun e => e.2)

/-- Modelled from the spec: `Put` of the table. -/
def MemTable.Put (t : MemTable) (key value : Bytes) : MemTable :=
  { entries := (key, value) :: t.entries }

/-- Modelled from the spec: an implementation of `common.Batch`, "a write-only database
that commits changes to its host database when Write is called": the writes in the order
they were put. -/
structure MemBatch where
  writes : List (Bytes × Bytes)
deriving DecidableEq, Repr

/-- Modelled from the spec: `NewBatch` of the table, an empty batch. -/
def MemTable.NewBatch (_t : MemTable) : MemBatch :=
  { writes := [] }

/-- Modelled from the spec: `Put` of the batch. -/
def MemBatch.Put (b : MemBatch) (key value : Bytes) : MemBatch :=
  { writes := b.writes ++ [(key, value)] }

/-- Modelled from the spec: `Write` of the batch commits its writes, in order, to the
host table. -/
def MemBatch.Write (b : MemBatch) (host : MemTable) : MemTable :=
  b.writes.foldl (fun t kv => t.Put kv.1 kv.2) host

/-- Embedding of `common.TablePrefixer` (`common/db.go`): the key prefix; the wrapped
table is passed to each operation. -/
structure TablePrefixer where
  keyPrefix : Bytes
deriving DecidableEq, Repr

/-- Embedding of `TablePrefixer.Get`: `p.table.Get(append([]byte(p.prefix), key...))`. -/
def TablePrefixer.Get (p : TablePrefixer) (table : MemTable) (key : Bytes) : Option Bytes :=
  table.Get (p.keyPrefix ++ key)

/-- Embedding of `TablePrefixer.Put`: `p.table.Put(append([]byte(p.prefix), key...), value)`. -/
def TablePrefixer.Put (p : TablePrefixer) (table : MemTable) (key value : Bytes) : MemTable :=
  table.Put (p.keyPrefix ++ key) value

/-- Embedding of `common.TablePrefixerBatch`: the wrapped batch and the prefix. -/
structure TablePrefixerBatch where
  batch : MemBatch
  keyPrefix : Bytes
deriving DecidableEq, Repr

/-- Embedding of `TablePrefixer.NewBatch`. -/
def TablePrefixer.NewBatch (p : TablePrefixer) (table : MemTable) : TablePrefixerBatch :=
  { batch := table.NewBatch, keyPrefix := p.keyPrefix }

/-- Embedding of `TablePrefixerBatch.Put`. -/
def TablePrefixerBatch.Put (b : TablePrefixerBatch) (key value : Bytes) : TablePrefixerBatch :=
  { b with batch := b.batch.Put (b.keyPrefix ++ key) value }

/-- Embedding of `rawdb.PreimageTablePrefixer` (`core/rawdb/accessors_metadata.go`); the
constant `preimagePrefix` is declared outside the sources at hand and is a parameter. -/
def PreimageTablePrefixer (preimagePrefix : Bytes) : TablePrefixer :=
  { keyPrefix := preimagePrefix }

/-- The loop of `WritePreimages` over the map entries, in the order the map yields them:
the batch and the hit count. -/
def writePreimagesLoop (p : TablePrefixer) (tbl : MemTable) :
    List (Bytes × Bytes) → MemBatch × Nat → MemBatch × Nat
  | [], acc => acc
  | (hash, preimage) :: rest, (batch, hitCount) =>
    match p.Get tbl hash with
    | none => writePreimagesLoop p tbl rest (batch.Put hash preimage, hitCount + 1)
    | some _ => writePreimagesLoop p tbl rest (batch, hitCount)

/-- Embedding of `rawdb.WritePreimages` (`core/rawdb/accessors_metadata.go`): the table
afterwards and the hit count.  The map is the list of its entries in iteration order; the
metrics counters and the debug strings are left out. -/
def WritePreimages (preimagePrefix : Bytes) (tbl : MemTable) (preimages : List (Bytes × Bytes)) :
    MemTable × Nat :=
  let p := PreimageTablePrefixer preimagePrefix
  let batch := tbl.NewBatch
  let (batch, hitCount) := writePreimagesLoop p tbl preimages (batch, 0)
  if hitCount > 0 then (batch.Write tbl, hitCount) else (tbl, hitCount)

/-! ## RLP encoder (`rlp/encode.go`) -/

/-- Go `byte(x)`: the low eight bits. -/
def byte (x : Nat) : Nat := x % 256

/-- Embedding of `intsize`: the loop `for size = 1; ; size++ { if i >>= 8; i == 0 ...`,
with `fuel` rounds left. -/
def intsizeLoop : Nat → Nat → Nat → Nat
  | 0, size, _ => size
  | fuel + 1, size, i => if i >>> 8 = 0 then size else intsizeLoop fuel (size + 1) (i >>> 8)

/-- Embedding of `intsize`, "the minimum number of bytes required to store i".  The loop
ends within `i` rounds, which is the fuel given. -/
def intsize (i : Nat) : Nat := intsizeLoop i 1 i

/-- The bytes that `putint` writes to the beginning of its buffer: `i` in big endian byte
order, by the eight cases of its `switch`. -/
def putintBytes (i : Nat) : Bytes :=
  if i < 1 <<< 8 then [byte i]
  else if i < 1 <<< 16 then [byte (i >>> 8), byte i]
  else if i < 1 <<< 24 then [byte (i >>> 16), byte (i >>> 8), byte i]
  else if i < 1 <<< 32 then [byte (i >>> 24), byte (i >>> 16), byte (i >>> 8), byte i]
  else if i < 1 <<< 40 then
    [byte (i >>> 32), byte (i >>> 24), byte (i >>> 16), byte (i >>> 8), byte i]
  else if i < 1 <<< 48 then
    [byte (i >>> 40), byte (i >>> 32), byte (i >>> 24), byte (i >>> 16), byte (i >>> 8), byte i]
  else if i < 1 <<< 56 then
    [byte (i >>> 48), byte (i >>> 40), byte (i >>> 32), byte (i >>> 24), byte (i >>> 16),
      byte (i >>> 8), byte i]
  else
    [byte (i >>> 56), byte (i >>> 48), byte (i >>> 40), byte (i >>> 32), byte (i >>> 24),
      byte (i >>> 16), byte (i >>> 8), byte i]

/-- Embedding of `putint`: writes `i` to the beginning of `b` and returns the buffer with
the number of bytes written; `none` is the panic of an index out of range, when `b` is
too short. -/
def putint (b : Bytes) (i : Nat) : Option (Bytes × Nat) :=
  if (putintBytes i).length ≤ b.length then
    some (putintBytes i ++ b.drop (putintBytes i).length, (putintBytes i).length)
  else none

/-- Embedding of `puthead`: writes a list or string header to `buf` and returns the
buffer with the size of the header; `none` is the panic when `buf` is too short. -/
def puthead (buf : Bytes) (smalltag largetag : Nat) (size : Nat) : Option (Bytes × Nat) :=
  if size < 56 then
    match buf with
    | [] => none
    | _ :: rest => some (byte (smalltag + byte size) :: rest, 1)
  else
    match buf with
    | [] => none
    | _ :: rest =>
      match putint rest size with
      | none => none
      | some (rest, sizesize) => some (byte (largetag + byte sizesize) :: rest, sizesize + 1)

/-- Embedding of `headsize`. -/
def headsize (size : Nat) : Nat :=
  if size < 56 then 1 else 1 + intsize size

/-- Embedding of `listhead`: the index of the header in the string data and the size of
the encoded data. -/
structure listhead where
  offset : Nat
  size : Nat
deriving DecidableEq, Repr

/-- Embedding of `encbuf`.  `lheads` holds the list headers themselves, a `*listhead`
being the position of the header in it; the nine-byte scratch buffer `sizebuf` is always
written before it is read and is a fresh buffer where it is used. -/
structure encbuf where
  str : Bytes
  lheads : List listhead
  lhsize : Nat
deriving DecidableEq, Repr

/-- A fresh `encbuf`, as `reset` leaves it. -/
def encbuf.fresh : encbuf :=
  { str := [], lheads := [], lhsize := 0 }

/-- Embedding of `encbuf.Write`. -/
def encbuf.Write (w : encbuf) (b : Bytes) : encbuf :=
  { w with str := w.str ++ b }

/-- Embedding of `encbuf.size`. -/
def encbuf.size (w : encbuf) : Nat :=
  w.str.length + w.lhsize

/-- Embedding of `encbuf.list`: the buffer with the new header and the position of that
header. -/
def encbuf.list (w : encbuf) : encbuf × Nat :=
  ({ w with lheads := w.lheads ++ [{ offset := w.str.length, size := w.lhsize }] },
    w.lheads.length)

/-- Embedding of `encbuf.listEnd`.  The difference `w.size() - lh.offset - lh.size` is
never negative on a buffer built by `Write`, `list` and `listEnd`. -/
def encbuf.listEnd (w : encbuf) (lh : Nat) : encbuf :=
  match w.lheads[lh]? with
  | none => w
  | some head =>
    let size := w.size - head.offset - head.size
    let w := { w with lheads := w.lheads.set lh { head with size := size } }
    if size < 56 then
      { w with lhsize := w.lhsize + 1 } -- length encoded into kind tag
    else
      { w with lhsize := w.lhsize + (1 + intsize size) }

/-- Go `copy(dst[pos:], src)` on the buffer `dst`: as many bytes of `src` as fit are
written from `pos` on. -/
def copyAt (dst : Bytes) (pos : Nat) (src : Bytes) : Bytes :=
  dst.take pos ++ src.take (dst.length - pos) ++ dst.drop (pos + src.length)

/-- The loop of `toBytes` over the list headers: the output buffer, `pos` and `strpos`
after it; `none` is a panic (slice bounds or index out of range). -/
def toBytesLoop (str : Bytes) : List listhead → Bytes → Nat → Nat → Option (Bytes × Nat × Nat)
  | [], out, pos, strpos => some (out, pos, strpos)
  | head :: rest, out, pos, strpos =>
    if strpos ≤ head.offset ∧ head.offset ≤ str.length ∧ pos ≤ out.length then
      -- write string data before header
      let src := (str.drop strpos).take (head.offset - strpos)
      let n := min (out.length - pos) src.length
      let out := copyAt out pos src
      let pos := pos + n
      let strpos := strpos + n
      -- write the header
      match puthead (out.drop pos) 0xC0 0xF7 head.size with
      | none => none
      | some (buf, len) => toBytesLoop str rest (out.take pos ++ buf) (pos + len) strpos
    else none

/-- Embedding of `encbuf.toBytes`; `none` is a panic. -/
def encbuf.toBytes (w : encbuf) : Option Bytes :=
  let out := List.replicate w.size 0
  match toBytesLoop w.str w.lheads out 0 0 with
  | none => none
  | some (out, pos, strpos) =>
    if pos ≤ out.length ∧ strpos ≤ w.str.length then
      -- copy string data after the last list header
      some (copyAt out pos (w.str.drop strpos))
    else none

/-- Embedding of `writeUint` (the value is `val.Uint()`). -/
def writeUint (i : Nat) (w : encbuf) : encbuf :=
  if i = 0 then
    { w with str := w.str ++ [0x80] }
  else if i < 128 then
    -- fits single byte
    { w with str := w.str ++ [byte i] }
  else
    match putint (List.replicate 8 0) i with
    | none => w
    | some (buf, s) => { w with str := w.str ++ (byte (0x80 + byte s) :: buf).take (s + 1) }

/-- Embedding of `WriteUint64To`: the bytes handed to `w.Write`; `none` is a panic. -/
def WriteUint64To (v : Nat) : Option Bytes :=
  if v = 0 then
    some [0x80]
  else if v < 128 then
    -- fits single byte
    some [byte v]
  else
    -- Encode value to bytes.
    match putint (List.replicate 8 0) v with
    | none => none
    | some (buf, sz) => some ((byte (0x80 + byte sz) :: buf).take (sz + 1))

/-- A Go byte slice: the bytes up to its length and its capacity. -/
structure Slice where
  data : Bytes
  cap : Nat
deriving DecidableEq, Repr

/-- Go `buf := b[len(b):][:n]` followed by the assignment of the `n` bytes `bytes` to
`buf` and `return b[:len(b)+n]`; `none` is the panic when `n` exceeds the spare
capacity of `b`. -/
def Slice.extend (b : Slice) (bytes : Bytes) : Option Slice :=
  if bytes.length ≤ b.cap - b.data.length then some { b with data := b.data ++ bytes }
  else none

/-- Embedding of `AppendHead`, by the cases of its `switch`; `pfx` is its argument
`prefix`. -/
def AppendHead (b : Slice) (pfx : Nat) (v : Nat) : Option Slice :=
  if v < 1 <<< 8 then b.extend [byte (pfx + 1), byte v]
  else if v < 1 <<< 16 then b.extend [byte (pfx + 2), byte (v >>> 8), byte v]
  else if v < 1 <<< 24 then b.extend [byte (pfx + 3), byte (v >>> 16), byte (v >>> 8), byte v]
  else if v < 1 <<< 32 then
    b.extend [byte (pfx + 4), byte (v >>> 24), byte (v >>> 16), byte (v >>> 8), byte v]
  else if v < 1 <<< 40 then
    b.extend [byte (pfx + 5), byte (v >>> 32), byte (v >>> 24), byte (v >>> 16),
      byte (v >>> 8), byte v]
  else if v < 1 <<< 48 then
    b.extend [byte (pfx + 6), byte (v >>> 40), byte (v >>> 32), byte (v >>> 24),
      byte (v >>> 16), byte (v >>> 8), byte v]
  else if v < 1 <<< 56 then
    b.extend [byte (pfx + 7), byte (v >>> 48), byte (v >>> 40), byte (v >>> 32),
      byte (v >>> 24), byte (v >>> 16), byte (v >>> 8), byte v]
  else
    b.extend [byte (pfx + 8), byte (v >>> 56), byte (v >>> 48), byte (v >>> 40),
      byte (v >>> 32), byte (v >>> 24), byte (v >>> 16), byte (v >>> 8), byte v]

/-- Embedding of `AppendUint64`; `none` is a panic. -/
def AppendUint64 (b : Slice) (v : Nat) : Option Slice :=
  if v = 0 then b.extend [0x80]
  else if v < 128 then b.extend [byte v]
  else AppendHead b 0x80 v

/-- Embedding of `Uint64Size`. -/
def Uint64Size (v : Nat) : Nat :=
  if v < 128 then 1 else intsize v + 1

/-- The encoding of an unsigned integer in the words of the claim: the byte `0x80` for
zero, the byte `v` below 128, and otherwise `0x80 + n` followed by the `n` bytes of `v`
in big endian order without a leading zero byte (the base-256 digits of `v`). -/
def uintEncoding (v : Nat) : Bytes :=
  if v = 0 then [0x80]
  else if v < 128 then [v]
  else (0x80 + (Nat.digits 256 v).length) :: (Nat.digits 256 v).reverse

/-- Embedding of `writeBool` (the value is `val.Bool()`). -/
def writeBool (b : Bool) (w : encbuf) : encbuf :=
  if b then { w with str := w.str ++ [0x01] } else { w with str := w.str ++ [0x80] }

/-- Embedding of `reflect.Kind`, in the order of its constants. -/
inductive Kind where
  | Invalid | Bool | Int | Int8 | Int16 | Int32 | Int64
  | Uint | Uint8 | Uint16 | Uint32 | Uint64 | Uintptr
  | Float32 | Float64 | Complex64 | Complex128
  | Array | Chan | Func | Interface | Map | Ptr | Slice | String | Struct | UnsafePointer
deriving DecidableEq, Repr

/-- Embedding of `isUint` (`rlp/typecache.go`): `k >= reflect.Uint && k <= reflect.Uintptr`. -/
def isUint (k : Kind) : Bool :=
  match k with
  | Kind.Uint | Kind.Uint8 | Kind.Uint16 | Kind.Uint32 | Kind.Uint64 | Kind.Uintptr => true
  | _ => false

/-- What `makeWriter` asks of a `reflect.Type`: its kind and the answers to the
questions of the `switch`. -/
structure GoType where
  kind : Kind
  isRawValue : Bool := false
  implementsEncoder : Bool := false
  implementsSliceEncoder : Bool := false
  ptrImplementsEncoder : Bool := false
  assignableToBigIntPtr : Bool := false
  assignableToBigInt : Bool := false
  elemIsByte : Bool := false
deriving DecidableEq, Repr

/-- The writer functions `makeWriter` can return, by name. -/
inductive Writer where
  | writeRawValue | writeEncoder | writeSliceEncoder | writeEncoderNoPtr | writeInterface
  | writeBigIntPtr | writeBigIntNoPtr | writeUint | writeBool | writeString | writeBytes
  | writeByteArray | sliceWriter | structWriter | ptrWriter
deriving DecidableEq, Repr

/-- The errors of the encoder. -/
inductive EncodeError where
  | notSerializable (kind : Kind)
  | other (code : Nat)
deriving DecidableEq, Repr

/-- Embedding of `makeWriter`.  The three makers that look into the element types
(`makeSliceWriter`, `makeStructWriter`, `makePtrWriter`) are the parameter `compound`. -/
def makeWriter (compound : GoType → Except EncodeError Writer) (typ : GoType) :
    Except EncodeError Writer :=
  let kind := typ.kind
  if typ.isRawValue then Except.ok Writer.writeRawValue
  else if typ.implementsEncoder then Except.ok Writer.writeEncoder
  else if typ.implementsSliceEncoder then Except.ok Writer.writeSliceEncoder
  else if kind ≠ Kind.Ptr ∧ typ.ptrImplementsEncoder then Except.ok Writer.writeEncoderNoPtr
  else if kind = Kind.Interface then Except.ok Writer.writeInterface
  else if typ.assignableToBigIntPtr then Except.ok Writer.writeBigIntPtr
  else if typ.assignableToBigInt then Except.ok Writer.writeBigIntNoPtr
  else if isUint kind then Except.ok Writer.writeUint
  else if kind = Kind.Bool then Except.ok Writer.writeBool
  else if kind = Kind.String then Except.ok Writer.writeString
  else if kind = Kind.Slice ∧ typ.elemIsByte then Except.ok Writer.writeBytes
  else if kind = Kind.Array ∧ typ.elemIsByte then Except.ok Writer.writeByteArray
  else if kind = Kind.Slice ∨ kind = Kind.Array then compound typ
  else if kind = Kind.Struct then compound typ
  else if kind = Kind.Ptr then compound typ
  else Except.error (EncodeError.notSerializable kind)

/-- Embedding of `genTypeInfo` (`rlp/typecache.go`) as far as the writer goes:
`makeDecoder` (`rlp/decode.go`, not part of the sources at hand) is asked first and is
a parameter that returns its error or `none`. -/
def genTypeInfo (makeDecoder : GoType → Option EncodeError)
    (compound : GoType → Except EncodeError Writer) (typ : GoType) :
    Except EncodeError Writer :=
  match makeDecoder typ with
  | some err => Except.error err
  | none => makeWriter compound typ

/-- The Go values of the plain types the claims speak about. -/
inductive GoValue where
  | bool (b : Bool)
  | uint64 (v : Nat)
  | int (v : Int)
  | float64 (bits : Nat)
  | mapValue
  | chanValue
  | funcValue
deriving DecidableEq, Repr

/-- The type of a plain value: its kind, with `no` to every other question. -/
def GoValue.type : GoValue → GoType
  | GoValue.bool _ => { kind := Kind.Bool }
  | GoValue.uint64 _ => { kind := Kind.Uint64 }
  | GoValue.int _ => { kind := Kind.Int }
  | GoValue.float64 _ => { kind := Kind.Float64 }
  | GoValue.mapValue => { kind := Kind.Map }
  | GoValue.chanValue => { kind := Kind.Chan }
  | GoValue.funcValue => { kind := Kind.Func }

/-- The call `ti.writer(rval, w)` for the writers of plain values; the other writers are
not embedded and are never chosen for a plain value. -/
def Writer.run (wr : Writer) (val : GoValue) (w : encbuf) : Except EncodeError encbuf :=
  match wr, val with
  | Writer.writeUint, GoValue.uint64 v => Except.ok (GendChain.writeUint v w)
  | Writer.writeBool, GoValue.bool b => Except.ok (GendChain.writeBool b w)
  | _, _ => Except.error (EncodeError.other 0)

/-- Embedding of `encbuf.encode`: the writer of the value's type, applied to the value. -/
def encbuf.encode (makeDecoder : GoType → Option EncodeError)
    (compound : GoType → Except EncodeError Writer) (w : encbuf) (val : GoValue) :
    Except EncodeError encbuf :=
  match genTypeInfo makeDecoder compound val.type with
  | Except.error err => Except.error err
  | Except.ok writer => writer.run val w

/-- Embedding of `EncodeToBytes`: the bytes or the error; a panic of `toBytes` is the
error `other 1`. -/
def EncodeToBytes (makeDecoder : GoType → Option EncodeError)
    (compound : GoType → Except EncodeError Writer) (val : GoValue) :
    Except EncodeError Bytes :=
  match encbuf.fresh.encode makeDecoder compound val with
  | Except.error err => Except.error err
  | Except.ok eb =>
    match eb.toBytes with
    | some out => Except.ok out
    | none => Except.error (EncodeError.other 1)

/-! ## HD derivation paths (`accounts/hd.go`)

Go strings are modelled as lists of Unicode code points; the library functions
`strings.Split`, `strings.TrimSpace`, `strings.HasSuffix`, `strings.TrimSuffix`,
`big.Int.SetString` and the `%d` verb of `fmt` are written out after their Go
definitions. -/

/-- A Go string, as its sequence of code points. -/
abbrev Str := List Char

/-- A `DerivationPath` is a slice of `uint32`; the `nil` slice is the empty list (the
function below only ever builds its result by appending to `nil`). -/
abbrev DerivationPath := List Nat

/-- The size of the `uint32` range. -/
def uint32Size : Nat := 2 ^ 32

/-- The root path `m/44'/6060'/0'/0`. -/
def DefaultRootDerivationPath : DerivationPath :=
  [0x80000000 + 44, 0x80000000 + 6060, 0x80000000 + 0, 0]

/-- The apostrophe that marks a hardened component. -/
def apostrophe : Char := Char.ofNat 39

/-- Go's `unicode.IsSpace`: the white space code points. -/
def isSpace (c : Char) : Bool :=
  let r := c.toNat
  r = 0x09 || r = 0x0A || r = 0x0B || r = 0x0C || r = 0x0D || r = 0x20 || r = 0x85
    || r = 0xA0 || r = 0x1680 || (0x2000 ≤ r && r ≤ 0x200A) || r = 0x2028 || r = 0x2029
    || r = 0x202F || r = 0x205F || r = 0x3000

/-- Go's `strings.TrimSpace`: leading and trailing white space removed. -/
def TrimSpace (s : Str) : Str :=
  ((s.dropWhile isSpace).reverse.dropWhile isSpace).reverse

/-- Go's `strings.Split(s, "/")`. -/
def Split (s : Str) : List Str := s.splitOn '/'

/-- Go's `strings.HasSuffix(s, "'")`. -/
def HasSuffix (s : Str) : Bool := s.getLast? == some apostrophe

/-- Go's `strings.TrimSuffix(s, "'")`. -/
def TrimSuffix (s : Str) : Str := if HasSuffix s then s.dropLast else s

/-- The digit value `nat.scan` gives a character (`MaxBase + 1 = 37` for a character
that is no digit in any base). -/
def digitVal (ch : Char) : Nat :=
  if 48 ≤ ch.toNat ∧ ch.toNat ≤ 57 then ch.toNat - 48
  else if 97 ≤ ch.toNat ∧ ch.toNat ≤ 122 then ch.toNat - 97 + 10
  else if 65 ≤ ch.toNat ∧ ch.toNat ≤ 90 then ch.toNat - 65 + 10
  else 37

/-- The digit loop of `nat.scan`: digits of base `b` are consumed while there are any;
the result is the value, the number of digits read and the unread rest. -/
def scanDigits (b : Nat) : Str → Nat → Nat → Nat × Nat × Str
  | [], z, count => (z, count, [])
  | ch :: rest, z, count =>
    if digitVal ch ≥ b then (z, count, ch :: rest)
    else scanDigits b rest (z * b + digitVal ch) (count + 1)

/-- The digits after a `0x` or `0b` prefix: at least one digit must follow. -/
def scanPrefixed (b : Nat) (s : Str) : Option (Nat × Str) :=
  match s with
  | [] => none
  | _ =>
    match scanDigits b s 0 0 with
    | (z, count, unread) => if count = 0 then none else some (z, unread)

/-- Go's `nat.scan` with base 0 (go1.10): a `0x`/`0X` prefix selects base 16, `0b`/`0B`
base 2, another leading `0` base 8, and anything else base 10. The result is the value
and the unread rest of the input, `none` for a syntax error.  From go1.13 on the library
also accepts `_` between digits and the prefix `0o`; both grammars agree on the numerals
made of a sign, a prefix `0x`, `0b` or `0` and digits, and on every input that holds
white space. -/
def natScan (s : Str) : Option (Nat × Str) :=
  match s with
  | [] => none
  | ch :: rest =>
    if ch = '0' then
      match rest with
      | [] => some (0, [])
      | ch2 :: rest2 =>
        if ch2 = 'x' ∨ ch2 = 'X' then scanPrefixed 16 rest2
        else if ch2 = 'b' ∨ ch2 = 'B' then scanPrefixed 2 rest2
        else
          match scanDigits 8 (ch2 :: rest2) 0 0 with
          | (z, count, unread) => if count = 0 then some (0, unread) else some (z, unread)
    else
      match scanDigits 10 (ch :: rest) 0 0 with
      | (z, count, unread) => if count = 0 then none else some (z, unread)

/-- Go's `scanSign`: an optional `+` or `-`; the end of the input is an error. -/
def scanSign (s : Str) : Option (Bool × Str) :=
  match s with
  | [] => none
  | ch :: rest =>
    if ch = '-' then some (true, rest)
    else if ch = '+' then some (false, rest)
    else some (false, ch :: rest)

/-- Go's `new(big.Int).SetString(s, 0)`: the sign, then the number, and the whole input
must have been consumed; `none` stands for `ok = false`. -/
def SetString (s : Str) : Option Int :=
  match scanSign s with
  | none => none
  | some (neg, r) =>
    match natScan r with
    | none => none
    | some (abs, unread) =>
      if unread ≠ [] then none
      else some (if neg ∧ 0 < abs then -(abs : Int) else (abs : Int))

/-- The errors of `ParseDerivationPath`. -/
inductive PathError where
  | emptyPath
  | ambiguousPath
  | invalidComponent (component : Str)
  | outOfRange (bigval : Int) (max : Nat)
  | outOfHardenedRange (bigval : Int) (max : Nat)
  deriving DecidableEq, Repr

/-- The body of the loop of `ParseDerivationPath`: one component to its `uint32`. -/
def parseComponent (component : Str) : Except PathError Nat :=
  let component := TrimSpace component
  let hardened := HasSuffix component
  let value := if hardened then 0x80000000 else 0
  let component := if hardened then TrimSpace (TrimSuffix component) else component
  match SetString component with
  | none => .error (.invalidComponent component)
  | some bigval =>
    let max := (0xFFFFFFFF - value) % uint32Size
    if bigval < 0 ∨ bigval > (max : Int) then
      if value = 0 then .error (.outOfRange bigval max)
      else .error (.outOfHardenedRange bigval max)
    else .ok ((value + (bigval.natAbs % uint64Size) % uint32Size) % uint32Size)

/-- The loop of `ParseDerivationPath` over the remaining components; an error returns
the `nil` path. -/
def parseComponents : List Str → DerivationPath → DerivationPath × Option PathError
  | [], result => (result, none)
  | component :: rest, result =>
    match parseComponent component with
    | .error err => ([], some err)
    | .ok value => parseComponents rest (result ++ [value])

/-- `ParseDerivationPath`: the path and the error that the Go function returns. -/
def ParseDerivationPath (path : Str) : DerivationPath × Option PathError :=
  match Split path with
  | [] => ([], some .emptyPath)
  | first :: rest =>
    if TrimSpace first = [] then ([], some .ambiguousPath)
    else
      match (if TrimSpace first = ['m'] then (([] : DerivationPath), rest)
             else (DefaultRootDerivationPath, first :: rest)) with
      | (result, components) =>
        if components.length = 0 then ([], some .emptyPath)
        else parseComponents components result

/-- The body of the loop of `ParseDerivationPath` with `new(big.Int).SetString(·, 0)`
as a parameter: what the loop body does with whatever number the library reads from the
component, in any version of its grammar. -/
def parseComponentWith (setString : Str → Option Int) (component : Str) :
    Except PathError Nat :=
  let component := TrimSpace component
  let hardened := HasSuffix component
  let value := if hardened then 0x80000000 else 0
  let component := if hardened then TrimSpace (TrimSuffix component) else component
  match setString component with
  | none => .error (.invalidComponent component)
  | some bigval =>
    let max := (0xFFFFFFFF - value) % uint32Size
    if bigval < 0 ∨ bigval > (max : Int) then
      if value = 0 then .error (.outOfRange bigval max)
      else .error (.outOfHardenedRange bigval max)
    else .ok ((value + (bigval.natAbs % uint64Size) % uint32Size) % uint32Size)

/-- The loop of `ParseDerivationPath` with `SetString` as a parameter. -/
def parseComponentsWith (setString : Str → Option Int) :
    List Str → DerivationPath → DerivationPath × Option PathError
  | [], result => (result, none)
  | component :: rest, result =>
    match parseComponentWith setString component with
    | .error err => ([], some err)
    | .ok value => parseComponentsWith setString rest (result ++ [value])

/-- `ParseDerivationPath` with `SetString` as a parameter. -/
def ParseDerivationPathWith (setString : Str → Option Int) (path : Str) :
    DerivationPath × Option PathError :=
  match Split path with
  | [] => ([], some .emptyPath)
  | first :: rest =>
    if TrimSpace first = [] then ([], some .ambiguousPath)
    else
      match (if TrimSpace first = ['m'] then (([] : DerivationPath), rest)
             else (DefaultRootDerivationPath, first :: rest)) with
      | (result, components) =>
        if components.length = 0 then ([], some .emptyPath)
        else parseComponentsWith setString components result

/-- The digit loop of `fmt` for `%d`: the digits of `u` are written from the right,
`byte('0' + u - next*10)` while `u >= 10`, then `byte('0' + u)`. -/
def fmtDecimalLoop : Nat → Nat → Str → Str
  | 0, u, buf => Char.ofNat (48 + u) :: buf
  | fuel + 1, u, buf =>
    if u ≥ 10 then fmtDecimalLoop fuel (u / 10) (Char.ofNat (48 + (u - u / 10 * 10)) :: buf)
    else Char.ofNat (48 + u) :: buf

/-- The `%d` verb of `fmt` on an unsigned integer. -/
def fmtDecimal (u : Nat) : Str := fmtDecimalLoop u u []

/-- `DerivationPath.String`: the canonical text of a path. -/
def DerivationPath.String (path : DerivationPath) : Str :=
  path.foldl
    (fun result component =>
      let hardened := decide (component ≥ 0x80000000)
      let component := if hardened then component - 0x80000000 else component
      let result := result ++ ['/'] ++ fmtDecimal component
      if hardened then result ++ [apostrophe] else result)
    ['m']

/-- `DerivationPath.MarshalJSON`, over the `json.Marshal` of strings. -/
def DerivationPath.MarshalJSON (jsonMarshal : Str → Bytes) (path : DerivationPath) : Bytes :=
  jsonMarshal path.String

/-- The errors of `UnmarshalJSON`: the error of `json.Unmarshal` or the error of
`ParseDerivationPath`. -/
inductive UnmarshalError where
  | json
  | path (err : PathError)
  deriving DecidableEq, Repr

/-- `DerivationPath.UnmarshalJSON`, over the `json.Unmarshal` into a string: the new
value of the receiver and the error. -/
def DerivationPath.UnmarshalJSON (jsonUnmarshal : Bytes → Option Str) (path : DerivationPath)
    (b : Bytes) : DerivationPath × Option UnmarshalError :=
  match jsonUnmarshal b with
  | none => (path, some .json)
  | some dp =>
    match ParseDerivationPath dp with
    | (parsed, err) => (parsed, err.map .path)

/-- The number that a string of digits denotes in base `b`. -/
def numeralValue (b : Nat) (ds : Str) : Nat := ds.foldl (fun z ch => z * b + digitVal ch) 0

/-- A string without white space, hardened mark or `/`. -/
def plainChars (s : Str) : Prop := ∀ c ∈ s, isSpace c = false ∧ c ≠ apostrophe ∧ c ≠ '/'

/-- The text that `String` writes for one component, after the `/`. -/
def componentText (component : Nat) : Str :=
  if component ≥ 0x80000000 then fmtDecimal (component - 0x80000000) ++ [apostrophe]
  else fmtDecimal component

/-! ## Well-bracketed calls on an `encbuf` -/

/-- A well-bracketed sequence of calls on an `encbuf`: nothing, a `Write` followed by
more calls, or `list()`, the calls inside the list, the matching `listEnd()` and more
calls. -/
inductive Calls where
  | done : Calls
  | write (b : Bytes) (rest : Calls) : Calls
  | list (inner : Calls) (rest : Calls) : Calls
  deriving Repr

/-- The calls of a sequence, made on the buffer `w`. -/
def Calls.run : Calls → encbuf → encbuf
  | .done, w => w
  | .write b rest, w => rest.run (w.Write b)
  | .list inner rest, w =>
    match w.list with
    | (w, lh) => rest.run ((inner.run w).listEnd lh)

/-- The header of a list whose content has `len` bytes, in the words of the
specification: `0xC0 + len` when `len < 56`, else `0xF7 +` the byte count of `len`
followed by `len` in big endian order. -/
def listHeader (len : Nat) : Bytes :=
  if len < 56 then [0xC0 + len]
  else (0xF7 + (Nat.digits 256 len).length) :: (Nat.digits 256 len).reverse

/-- The encoding that a sequence of calls stands for, in the words of the
specification: written bytes as they are, and every list as its header, which carries
the length of the encoded content, followed by that content. -/
def Calls.encoding : Calls → Bytes
  | .done => []
  | .write b rest => b ++ rest.encoding
  | .list inner rest => listHeader inner.encoding.length ++ inner.encoding ++ rest.encoding

/-- The string data of a sequence of calls: all written bytes in order. -/
def Calls.strData : Calls → Bytes
  | .done => []
  | .write b rest => b ++ rest.strData
  | .list inner rest => inner.strData ++ rest.strData

/-- The sum of the sizes of the headers of all lists of a sequence of calls. -/
def Calls.headerSize : Calls → Nat
  | .done => 0
  | .write _ rest => rest.headerSize
  | .list inner rest => headsize inner.encoding.length + inner.headerSize + rest.headerSize

/-- The list headers of a sequence of calls that starts at the offset `offset` of the
string data, in the order of the `list()` calls. -/
def Calls.heads : Calls → Nat → List listhead
  | .done, _ => []
  | .write b rest, offset => rest.heads (offset + b.length)
  | .list inner rest, offset =>
    { offset := offset, size := inner.encoding.length }
      :: (inner.heads offset ++ rest.heads (offset + inner.strData.length))

/-- The string data from `strpos` on with the headers put in at their offsets. -/
def renderHeads (str : Bytes) : List listhead → Nat → Bytes
  | [], strpos => str.drop strpos
  | head :: rest, strpos =>
    (str.drop strpos).take (head.offset - strpos) ++ listHeader head.size
      ++ renderHeads str rest head.offset

/-! ## A small concrete chain, used to instantiate the theorems -/

/-- A toy hashing: a header hashes to its number plus 1000, a transaction list to its
length. -/
def sampleHashing : Hashing :=
  { BlockHash := fun h => h.Number + 1000, DeriveSha := fun txs => txs.length }

/-- Block number 5 (hash 1005, parent hash 1004) with one transaction, one uncle and a
header transactions root (99) that is not the derived one (1). -/
def sampleBlock : Block :=
  { header := { ParentHash := 1004, Root := 0, TxHash := 99, ReceiptHash := 0, Bloom := 0,
                Number := 5, GasLimit := 8000000, GasUsed := 0 },
    transactions := [{ Hash := 17 }],
    uncles := [{ ParentHash := 1003, Root := 0, TxHash := 0, ReceiptHash := 0, Bloom := 0,
                 Number := 5, GasLimit := 8000000, GasUsed := 0 }] }

/-- A chain that holds block 1005 at height 5 with its state, and nothing else. -/
def chainWithBlock5 : BlockValidator :=
  { bc := { HasBlockAndState := fun h n => h == 1005 && n == 5,
            HasBlock := fun h n => h == 1005 && n == 5 } }

/-- A chain that holds block 1004 at height 4 without its state (pruned). -/
def chainWithPrunedBlock4 : BlockValidator :=
  { bc := { HasBlockAndState := fun _ _ => false,
            HasBlock := fun h n => h == 1004 && n == 4 } }

/-- The sample block with a header transactions root that matches its transaction list;
it still carries one uncle. -/
def sampleBlockWithUncle : Block :=
  { sampleBlock with header := { sampleBlock.header with TxHash := 1 } }

/-- The sample block without its uncle; the header transactions root (99) is still not
the derived one (1). -/
def sampleBlockBadRoot : Block :=
  { sampleBlock with uncles := [] }

/-- The sample block without its uncle and with a matching transactions root. -/
def sampleBlockGood : Block :=
  { sampleBlockWithUncle with uncles := [] }

/-- A chain that holds block 1004 at height 4 with its state, and nothing else. -/
def chainWithBlock4 : BlockValidator :=
  { bc := { HasBlockAndState := fun h n => h == 1004 && n == 4,
            HasBlock := fun h n => h == 1004 && n == 4 } }

/-- A toy receipt hashing: the bloom of a receipt list is the number of its logs, its
root the sum of the cumulative gas of its receipts. -/
def sampleReceiptFns : ReceiptFns :=
  { CreateBloom := fun rs => (rs.map (fun r => r.Logs.length)).sum,
    DeriveSha := fun rs => (rs.map (fun r => r.CumulativeGasUsed)).sum }

/-- A state database that counts the calls of `IntermediateRoot` and always yields the
root 7. -/
def countingRoot : Bool → Nat → Hash × Nat := fun _ calls => (7, calls + 1)

/-- A toy EVM on a world that counts the messages run: every transaction has a sender,
and running the message of sender `a` uses `21000 + a` gas. -/
def sampleVM : EVMOps Nat :=
  { AsMessage := fun _ tx => Except.ok { From := tx.Hash, To := some 1, GasPrice := 1 },
    SetTxContext := fun _ w => w,
    Execute := fun msg w => (Except.ok (21000 + msg.From, false), w + 1),
    CreateAddress := fun a n => a + n }

/-- A toy state database on the same world: the root is the number of messages run, and
every transaction has one log. -/
def sampleStateDB : StateDBOps Nat :=
  { Prepare := fun _ _ _ w => w,
    Finalise := fun _ w => w,
    IntermediateRoot := fun _ w => (w, w),
    GetLogs := fun h _ => [{ Address := h, Data := 0 }],
    BlockHash := fun _ => 1005,
    TxIndex := fun w => w }

/-- An engine whose `Finalize` returns nil. -/
def sampleEngine : EngineOps Nat :=
  { Finalize := fun _ _ _ w => (none, w) }

/-- An engine whose `Finalize` returns an error. -/
def failingEngine : EngineOps Nat :=
  { Finalize := fun _ _ _ w => (some (ExecError.other 9), w) }

/-- An engine whose `Finalize` changes the world, adding 1000 and the number of receipts
it is given, and returns an error. -/
def rewardingEngine : EngineOps Nat :=
  { Finalize := fun _ _ receipts w => (some (ExecError.other 9), w + 1000 + receipts.length) }

/-- A configuration with both forks active from the start. -/
def sampleConfig : ChainConfig :=
  { IsByzantium := fun _ => true, IsEIP158 := fun _ => true }

/-- Block number 5 with two transactions (senders 17 and 18, so 21,017 and 21,018 gas) and
gas limit 100,000; its header states the gas used, the bloom, the receipts root and the
state root that the toy execution produces. -/
def twoTxBlock : Block :=
  { header := { ParentHash := 1004, Root := 2, TxHash := 2, ReceiptHash := 63052, Bloom := 2,
                Number := 5, GasLimit := 100000, GasUsed := 42035 },
    transactions := [{ Hash := 17 }, { Hash := 18 }],
    uncles := [] }

/-- The same two transactions in a block whose gas limit, 30,000, is used up by the
first. -/
def tightBlock : Block :=
  { twoTxBlock with header := { twoTxBlock.header with GasLimit := 30000 } }

/-- A validator with the sample configuration on an empty chain. -/
def sampleValidator : BlockValidator :=
  { bc := { HasBlockAndState := fun _ _ => false, HasBlock := fun _ _ => false },
    config := sampleConfig }

/-- A state database of the spec's model with one funded and one emptied account. -/
def sampleSpecState : SpecStateDB :=
  { accounts := [(1, 5), (2, 0)] }

/-- A toy root of an account list: the number of accounts plus their balances. -/
def sampleRootOf : List (Nat × Nat) → Hash :=
  fun accounts => accounts.length + (accounts.map (fun a => a.2)).sum

/-- The two-transaction block with the state root of the pruned sample state (6: one
account, balance 5). -/
def specStateBlock : Block :=
  { twoTxBlock with header := { twoTxBlock.header with Root := 6 } }

/-- The receipts of the toy execution of the two-transaction block. -/
def sampleReceipts : List Receipt :=
  (Process sampleHashing sampleVM sampleConfig sampleReceiptFns sampleStateDB sampleEngine
    twoTxBlock 0).receipts

/-- The bytes of the string "secure-key-", a prefix for the preimage keys. -/
def samplePreimagePrefix : Bytes :=
  [115, 101, 99, 117, 114, 101, 45, 107, 101, 121, 45]

/-- A stand-in for the 32 bytes of a hash. -/
def sampleHashBytes : Bytes :=
  List.replicate 32 7

/-- A decoder maker that accepts every type. -/
def acceptingDecoder : GoType → Option EncodeError :=
  fun _ => none

/-- A stand-in for the makers of composite writers, which the plain values never reach. -/
def noCompound : GoType → Except EncodeError Writer :=
  fun _ => Except.error (EncodeError.other 2)

/-- A model of `json.Marshal` on strings without characters to escape: the code points
between two quotes. -/
def sampleJsonMarshal (s : Str) : Bytes := 34 :: (s.map Char.toNat ++ [34])

/-- The matching model of `json.Unmarshal` into a string. -/
def sampleJsonUnmarshal (b : Bytes) : Option Str :=
  match b with
  | 34 :: rest => if rest.getLast? = some 34 then some (rest.dropLast.map Char.ofNat) else none
  | _ => none


/-- A list of sixty bytes `7` followed by the nested list of the bytes `1, 2, 3`, and
after the list the byte `9`. -/
def sampleCalls : Calls :=
  .list (.write (List.replicate 60 7) (.list (.write [1, 2, 3] .done) .done)) (.write [9] .done)

/-! ## Arithmetic helpers -/

theorem subU64_one_of_pos {q : Nat} (h0 : 0 < q) (hq : q < uint64Size) : subU64 q 1 = q - 1 := by
  unfold subU64 uint64Size at *
  omega

theorem subU64_of_le {a b : Nat} (hba : b ≤ a) (ha : a < uint64Size) : subU64 a b = a - b := by
  unfold subU64 uint64Size at *
  omega

theorem addU64_le (a b : Nat) : addU64 a b ≤ a + b := by
  unfold addU64
  exact Nat.mod_le _ _

/-- With usage at most the limit, twice the contribution is at most three times
`gasLimit / divisor` plus two. -/
theorem contrib_bound (D U L : Nat) (hD : 0 < D) (hUL : U ≤ L) :
    2 * (addU64 U (U / 2) / D) ≤ 3 * (L / D) + 2 := by
  have hX : addU64 U (U / 2) ≤ U + U / 2 := addU64_le _ _
  have hc : D * (addU64 U (U / 2) / D) ≤ addU64 U (U / 2) := Nat.mul_div_le _ _
  have hL : L = D * (L / D) + L % D := (Nat.div_add_mod L D).symm
  have hr : L % D < D := Nat.mod_lt _ hD
  generalize addU64 U (U / 2) / D = c at *
  generalize addU64 U (U / 2) = X at *
  generalize L / D = q at *
  generalize L % D = r at *
  by_contra hcon
  have h1 : D * (3 * q + 3) ≤ D * (2 * c) := Nat.mul_le_mul_left _ (by omega)
  have e1 : D * (3 * q + 3) = 3 * (D * q) + 3 * D := by ring
  have e2 : D * (2 * c) = 2 * (D * c) := by ring
  rw [e1, e2] at h1
  omega

/-! ## Claims about `CalcGasLimit` -/

/-- C1 (evaluation at the failing input): with divisor 1024, a parent at exactly two
thirds usage (gas used 2,000,000 of limit 3,000,000) and the limit inside
`[gasFloor, gasCeil] = [3,000,000, 4,000,000]`, `CalcGasLimit` does not return the
parent's limit for any value of `MinGasLimit`; with `MinGasLimit = 5000` it returns
3,000,001. -/
theorem C1_two_thirds_usage_raises_limit :
    3 * (parentWith 2000000 3000000).GasUsed = 2 * (parentWith 2000000 3000000).GasLimit ∧
    (∀ m : Nat, CalcGasLimit ⟨1024, m⟩ (parentWith 2000000 3000000) 3000000 4000000
        ≠ (parentWith 2000000 3000000).GasLimit) ∧
    CalcGasLimit ⟨1024, 5000⟩ (parentWith 2000000 3000000) 3000000 4000000 = 3000001 := by
  refine ⟨by decide, ?_, by decide⟩
  intro m
  simp only [CalcGasLimit, parentWith, Block.GasLimit, Block.GasUsed, addU64, subU64,
    uint64Size]
  norm_num
  split_ifs <;> omega

/-- C2 (counterexample): a full parent block with gas limit 100 (below the divisor 1024)
and `gasCeil = 100` gets the limit 101, above the ceiling, for every `MinGasLimit`. -/
theorem C2_counterexample :
    (parentWith 100 100).GasUsed = (parentWith 100 100).GasLimit ∧ (0 : Nat) ≤ 100 ∧
    (parentWith 100 100).GasLimit ≤ 100 ∧
    CalcGasLimit ⟨1024, 5000⟩ (parentWith 100 100) 0 100 = 101 ∧
    (∀ m : Nat, ¬ CalcGasLimit ⟨1024, m⟩ (parentWith 100 100) 0 100 ≤ 100) := by
  refine ⟨by decide, by decide, by decide, by decide, ?_⟩
  intro m
  simp only [CalcGasLimit, parentWith, Block.GasLimit, Block.GasUsed, addU64, subU64,
    uint64Size]
  norm_num
  split_ifs <;> omega

/-- C2 (amended): for a full parent block (`gasUsed = gasLimit`) whose gas limit is at
least the bound divisor, and `gasFloor ≤ gasCeil`, `gasLimit ≤ gasCeil`, the result of
`CalcGasLimit` is at most `gasCeil`. -/
theorem C2_full_blocks_stay_under_ceil (params : Params) (parent : Block)
    (gasFloor gasCeil : Nat) (hp : params.wellFormed) (hfit : parent.fitsUint64)
    (hdiv : params.GasLimitBoundDivisor ≤ parent.GasLimit)
    (hfull : parent.GasUsed = parent.GasLimit) (hfc : gasFloor ≤ gasCeil)
    (hceil : parent.GasLimit ≤ gasCeil) :
    CalcGasLimit params parent gasFloor gasCeil ≤ gasCeil := by
  obtain ⟨hD0, -, -⟩ := hp
  obtain ⟨hL, -⟩ := hfit
  have hq1 := Nat.div_pos hdiv hD0
  have hqL := Nat.div_le_self parent.GasLimit params.GasLimitBoundDivisor
  unfold CalcGasLimit
  generalize addU64 parent.GasUsed (parent.GasUsed / 2) / params.GasLimitBoundDivisor = c
  generalize parent.GasLimit / params.GasLimitBoundDivisor = q at *
  generalize parent.GasLimit = L at *
  simp only [addU64, subU64, uint64Size] at *
  split_ifs <;> omega

/-- Witness for C2 (amended): a full parent at limit 8,000,000 with ceiling 8,000,000. -/
theorem C2_full_blocks_stay_under_ceil_witness :
    CalcGasLimit ⟨1024, 5000⟩ (parentWith 8000000 8000000) 4000000 8000000 ≤ 8000000 :=
  C2_full_blocks_stay_under_ceil ⟨1024, 5000⟩ (parentWith 8000000 8000000) 4000000 8000000
    (by decide) (by decide) (by decide) (by decide) (by decide) (by decide)

/-- C3 (counterexample): an empty parent block with gas limit `2 ^ 64 - 1` and
`gasFloor = gasCeil = 2 ^ 64 - 1`: the sum `gasLimit + decay` overflows `uint64` and
the result, `2 ^ 54 - 3`, is below the floor. -/
theorem C3_counterexample :
    (parentWith 0 18446744073709551615).GasUsed = 0 ∧
    (18446744073709551615 : Nat) ≤ 18446744073709551615 ∧
    18446744073709551615 ≤ (parentWith 0 18446744073709551615).GasLimit ∧
    (parentWith 0 18446744073709551615).fitsUint64 ∧
    CalcGasLimit ⟨1024, 5000⟩ (parentWith 0 18446744073709551615)
      18446744073709551615 18446744073709551615 = 18014398509481981 ∧
    ¬ CalcGasLimit ⟨1024, 5000⟩ (parentWith 0 18446744073709551615)
      18446744073709551615 18446744073709551615 ≥ 18446744073709551615 := by
  decide

/-- C3 (amended): for an empty parent block (`gasUsed = 0`) with
`gasFloor ≤ gasCeil`, `gasFloor ≤ gasLimit` and `gasLimit + gasLimit / divisor < 2 ^ 64`
(the sum `gasLimit + decay` does not overflow), the result of `CalcGasLimit` is at
least `gasFloor`. -/
theorem C3_empty_blocks_stay_above_floor (params : Params) (parent : Block)
    (gasFloor gasCeil : Nat) (hp : params.wellFormed) (hfit : parent.fitsUint64)
    (hempty : parent.GasUsed = 0) (hfc : gasFloor ≤ gasCeil)
    (hfloor : gasFloor ≤ parent.GasLimit)
    (hsum : parent.GasLimit + parent.GasLimit / params.GasLimitBoundDivisor < uint64Size) :
    gasFloor ≤ CalcGasLimit params parent gasFloor gasCeil := by
  obtain ⟨hD0, hDW, -⟩ := hp
  obtain ⟨hL, -⟩ := hfit
  have hc : addU64 parent.GasUsed (parent.GasUsed / 2) / params.GasLimitBoundDivisor = 0 := by
    rw [hempty]
    simp [addU64]
  have hqL := Nat.div_le_self parent.GasLimit params.GasLimitBoundDivisor
  have hq : params.GasLimitBoundDivisor ≤ parent.GasLimit ∨
      parent.GasLimit / params.GasLimitBoundDivisor = 0 := by
    rcases Nat.lt_or_ge parent.GasLimit params.GasLimitBoundDivisor with h | h
    · exact Or.inr (Nat.div_eq_of_lt h)
    · exact Or.inl h
  have hq1 : params.GasLimitBoundDivisor ≤ parent.GasLimit →
      0 < parent.GasLimit / params.GasLimitBoundDivisor := fun h => Nat.div_pos h hD0
  unfold CalcGasLimit
  rw [hc]
  generalize parent.GasLimit / params.GasLimitBoundDivisor = q at *
  generalize parent.GasLimit = L at *
  generalize params.GasLimitBoundDivisor = D at *
  simp only [addU64, subU64, uint64Size] at *
  split_ifs <;> omega

/-- Witness for C3 (amended): an empty parent at limit 8,000,000 with floor 8,000,000. -/
theorem C3_empty_blocks_stay_above_floor_witness :
    8000000 ≤ CalcGasLimit ⟨1024, 5000⟩ (parentWith 0 8000000) 8000000 9000000 :=
  C3_empty_blocks_stay_above_floor ⟨1024, 5000⟩ (parentWith 0 8000000) 8000000 9000000
    (by decide) (by decide) (by decide) (by decide) (by decide) (by decide)

/-- C4 (counterexample): with divisor 1024 and `MinGasLimit = 5000`, a full parent block
with `gasUsed = gasLimit = 12297829382473034411` (just above two thirds of `2 ^ 64`),
`gasFloor = 0` and `gasCeil = 2 ^ 64 - 1`: the formula's value `v` lies in
`[max MinGasLimit gasFloor, gasCeil]`, yet `CalcGasLimit` returns another number, because
the `uint64` sum `gasUsed + gasUsed/2` wraps to 0. -/
theorem C4_counterexample :
    (1024 : Nat) ≤ (parentWith 12297829382473034411 12297829382473034411).GasLimit ∧
    (parentWith 12297829382473034411 12297829382473034411).fitsUint64 ∧
    formulaLimit ⟨1024, 5000⟩ (parentWith 12297829382473034411 12297829382473034411)
      = 12303834181976195074 ∧
    max 5000 0 ≤
      formulaLimit ⟨1024, 5000⟩ (parentWith 12297829382473034411 12297829382473034411) ∧
    formulaLimit ⟨1024, 5000⟩ (parentWith 12297829382473034411 12297829382473034411)
      ≤ 18446744073709551615 ∧
    addU64 12297829382473034411 (12297829382473034411 / 2) = 0 ∧
    CalcGasLimit ⟨1024, 5000⟩ (parentWith 12297829382473034411 12297829382473034411) 0
      18446744073709551615 = 12285819783466713090 ∧
    CalcGasLimit ⟨1024, 5000⟩ (parentWith 12297829382473034411 12297829382473034411) 0
      18446744073709551615
      ≠ formulaLimit ⟨1024, 5000⟩ (parentWith 12297829382473034411 12297829382473034411) := by
  decide

/-- C4 (amended): for a parent with `gasLimit ≥ BOUND_DIVISOR` whose
`gasUsed + gasUsed/2` fits a `uint64`, if the formula's value
`v = gasLimit - decay + contrib` satisfies `max MinGasLimit gasFloor ≤ v ≤ gasCeil`
then `CalcGasLimit` returns exactly `v`. -/
theorem C4_exact_formula (params : Params) (parent : Block) (gasFloor gasCeil : Nat)
    (hp : params.wellFormed) (hfit : parent.fitsUint64) (hceilfit : gasCeil < uint64Size)
    (hdiv : params.GasLimitBoundDivisor ≤ parent.GasLimit)
    (hsum : parent.GasUsed + parent.GasUsed / 2 < uint64Size)
    (hlow : max params.MinGasLimit gasFloor ≤ formulaLimit params parent)
    (hhigh : formulaLimit params parent ≤ gasCeil) :
    CalcGasLimit params parent gasFloor gasCeil = formulaLimit params parent := by
  obtain ⟨hD0, -, -⟩ := hp
  obtain ⟨hL, -⟩ := hfit
  have hq1 := Nat.div_pos hdiv hD0
  have hqL := Nat.div_le_self parent.GasLimit params.GasLimitBoundDivisor
  have hadd : addU64 parent.GasUsed (parent.GasUsed / 2)
      = parent.GasUsed + parent.GasUsed / 2 := Nat.mod_eq_of_lt hsum
  have hmax := le_max_left params.MinGasLimit gasFloor
  have hmax2 := le_max_right params.MinGasLimit gasFloor
  unfold CalcGasLimit
  unfold formulaLimit formulaDecay formulaContrib at *
  rw [hadd]
  generalize (parent.GasUsed + parent.GasUsed / 2) / params.GasLimitBoundDivisor = c at *
  generalize parent.GasLimit / params.GasLimitBoundDivisor = q at *
  generalize parent.GasLimit = L at *
  generalize max params.MinGasLimit gasFloor = mx at *
  simp only [addU64, subU64, uint64Size] at *
  split_ifs <;> omega

/-- Witness for C4 (amended), the spec's concrete scenario: with divisor 1024, parent
gas limit 8,000,000 and gas used 6,000,000 the contribution is 8789, the decay 7811 and
the result 8,000,978. -/
theorem C4_exact_formula_witness :
    formulaContrib ⟨1024, 5000⟩ (parentWith 6000000 8000000) = 8789 ∧
    formulaDecay ⟨1024, 5000⟩ (parentWith 6000000 8000000) = 7811 ∧
    formulaLimit ⟨1024, 5000⟩ (parentWith 6000000 8000000) = 8000978 ∧
    CalcGasLimit ⟨1024, 5000⟩ (parentWith 6000000 8000000) 4000000 10000000
      = formulaLimit ⟨1024, 5000⟩ (parentWith 6000000 8000000) :=
  ⟨by decide, by decide, by decide,
    C4_exact_formula ⟨1024, 5000⟩ (parentWith 6000000 8000000) 4000000 10000000
      (by decide) (by decide) (by decide) (by decide) (by decide) (by decide) (by decide)⟩

/-- C5 (counterexample): for a parent with gas limit 100 (below the divisor 1024), no gas
used and `gasFloor = gasCeil = 0`, `decay = 100/1024 - 1` wraps to `2 ^ 64 - 1`; the
`uint64` computation returns 101 and the evaluation with truncated subtraction 100, for
every `MinGasLimit`. -/
theorem C5_counterexample :
    (parentWith 0 100).fitsUint64 ∧
    subU64 ((parentWith 0 100).GasLimit / 1024) 1 = 18446744073709551615 ∧
    CalcGasLimit ⟨1024, 5000⟩ (parentWith 0 100) 0 0 = 101 ∧
    CalcGasLimitSat ⟨1024, 5000⟩ (parentWith 0 100) 0 0 = 100 ∧
    (∀ m : Nat, CalcGasLimit ⟨1024, m⟩ (parentWith 0 100) 0 0
      ≠ CalcGasLimitSat ⟨1024, m⟩ (parentWith 0 100) 0 0) := by
  refine ⟨by decide, by decide, by decide, by decide, ?_⟩
  intro m
  simp only [CalcGasLimit, CalcGasLimitSat, parentWith, Block.GasLimit, Block.GasUsed,
    addU64, subU64, subSat, uint64Size]
  norm_num
  split_ifs <;> omega

/-- C5 (amended): for every `uint64` parent gas used and gas limit with
`gasLimit ≥ BOUND_DIVISOR`, and every `gasFloor`, `gasCeil`, no subtraction of
`CalcGasLimit` wraps (`1 ≤ gasLimit / divisor` and `decay ≤ gasLimit`), and the `uint64`
computation returns the value of the same steps with subtraction truncated at zero. -/
theorem C5_no_underflow_above_divisor (params : Params) (parent : Block)
    (gasFloor gasCeil : Nat) (hp : params.wellFormed) (hfit : parent.fitsUint64)
    (hdiv : params.GasLimitBoundDivisor ≤ parent.GasLimit) :
    1 ≤ parent.GasLimit / params.GasLimitBoundDivisor ∧
    subU64 (parent.GasLimit / params.GasLimitBoundDivisor) 1 ≤ parent.GasLimit ∧
    CalcGasLimit params parent gasFloor gasCeil
      = CalcGasLimitSat params parent gasFloor gasCeil := by
  obtain ⟨hD0, -, -⟩ := hp
  obtain ⟨hL, -⟩ := hfit
  have hq1 := Nat.div_pos hdiv hD0
  have hqL := Nat.div_le_self parent.GasLimit params.GasLimitBoundDivisor
  have hdecay : subU64 (parent.GasLimit / params.GasLimitBoundDivisor) 1
      = parent.GasLimit / params.GasLimitBoundDivisor - 1 :=
    subU64_one_of_pos hq1 (lt_of_le_of_lt hqL hL)
  have hsub : subU64 parent.GasLimit (parent.GasLimit / params.GasLimitBoundDivisor - 1)
      = parent.GasLimit - (parent.GasLimit / params.GasLimitBoundDivisor - 1) :=
    subU64_of_le (by omega) hL
  refine ⟨hq1, by rw [hdecay]; omega, ?_⟩
  unfold CalcGasLimit CalcGasLimitSat
  simp only [hdecay, hsub, subSat]

/-- Witness for C5 (amended): the parent of the spec's scenario. -/
theorem C5_no_underflow_above_divisor_witness :
    1 ≤ (parentWith 6000000 8000000).GasLimit / 1024 ∧
    subU64 ((parentWith 6000000 8000000).GasLimit / 1024) 1
      ≤ (parentWith 6000000 8000000).GasLimit ∧
    CalcGasLimit ⟨1024, 5000⟩ (parentWith 6000000 8000000) 4000000 10000000
      = CalcGasLimitSat ⟨1024, 5000⟩ (parentWith 6000000 8000000) 4000000 10000000 :=
  C5_no_underflow_above_divisor ⟨1024, 5000⟩ (parentWith 6000000 8000000) 4000000 10000000
    (by decide) (by decide) (by decide)

/-- C6: for a parent with `gasUsed ≤ gasLimit`, `gasLimit ≥ MinGasLimit`,
`gasLimit ≥ 4 * BOUND_DIVISOR` and `gasLimit + gasLimit / BOUND_DIVISOR < 2 ^ 64` (which
keeps every `uint64` sum that reaches the result from wrapping), and every `gasFloor`
and `gasCeil` (so in particular those with `gasFloor ≤ gasCeil`), the result of
`CalcGasLimit` differs from the parent's gas limit by at most `gasLimit / BOUND_DIVISOR`,
in either direction. -/
theorem C6_bounded_rate (params : Params) (parent : Block) (gasFloor gasCeil : Nat)
    (hp : params.wellFormed) (hfit : parent.fitsUint64)
    (hused : parent.GasUsed ≤ parent.GasLimit)
    (hmin : params.MinGasLimit ≤ parent.GasLimit)
    (hdiv : 4 * params.GasLimitBoundDivisor ≤ parent.GasLimit)
    (hsum : parent.GasLimit + parent.GasLimit / params.GasLimitBoundDivisor < uint64Size) :
    parent.GasLimit - parent.GasLimit / params.GasLimitBoundDivisor
        ≤ CalcGasLimit params parent gasFloor gasCeil ∧
    CalcGasLimit params parent gasFloor gasCeil
        ≤ parent.GasLimit + parent.GasLimit / params.GasLimitBoundDivisor := by
  obtain ⟨hD0, -, -⟩ := hp
  obtain ⟨hL, -⟩ := hfit
  have hq4 : 4 ≤ parent.GasLimit / params.GasLimitBoundDivisor :=
    (Nat.le_div_iff_mul_le hD0).2 hdiv
  have hqL := Nat.div_le_self parent.GasLimit params.GasLimitBoundDivisor
  have hc := contrib_bound params.GasLimitBoundDivisor parent.GasUsed parent.GasLimit hD0 hused
  unfold CalcGasLimit
  generalize addU64 parent.GasUsed (parent.GasUsed / 2) / params.GasLimitBoundDivisor = c at *
  generalize parent.GasLimit / params.GasLimitBoundDivisor = q at *
  generalize parent.GasLimit = L at *
  simp only [addU64, subU64, uint64Size] at *
  split_ifs <;> omega

/-- Witness for C6: a full parent at limit 8,000,000 moves by at most 7812. -/
theorem C6_bounded_rate_witness :
    (parentWith 8000000 8000000).GasLimit - (parentWith 8000000 8000000).GasLimit / 1024
        ≤ CalcGasLimit ⟨1024, 5000⟩ (parentWith 8000000 8000000) 4000000 10000000 ∧
    CalcGasLimit ⟨1024, 5000⟩ (parentWith 8000000 8000000) 4000000 10000000
        ≤ (parentWith 8000000 8000000).GasLimit
            + (parentWith 8000000 8000000).GasLimit / 1024 :=
  C6_bounded_rate ⟨1024, 5000⟩ (parentWith 8000000 8000000) 4000000 10000000
    (by decide) (by decide) (by decide) (by decide) (by decide) (by decide)

/-- C7 (counterexample): with divisor 1024 and `MinGasLimit = 5000`, an empty parent with
gas limit 2048 and `gasFloor = gasCeil = 6000` gets the limit 2049, below the minimum;
and for every `MinGasLimit = m` with `0 < m < 2 ^ 64 - 2`, a parent with gas limit 1 and
`gasFloor = gasCeil = m + 2` gets the limit 0. -/
theorem C7_counterexample :
    (6000 : Nat) ≤ 6000 ∧ (5000 : Nat) ≤ 6000 ∧ (parentWith 0 2048).fitsUint64 ∧
    CalcGasLimit ⟨1024, 5000⟩ (parentWith 0 2048) 6000 6000 = 2049 ∧
    ¬ (5000 ≤ CalcGasLimit ⟨1024, 5000⟩ (parentWith 0 2048) 6000 6000) ∧
    (∀ m : Nat, 0 < m → m + 2 < uint64Size →
      CalcGasLimit ⟨1024, m⟩ (parentWith 0 1) (m + 2) (m + 2) = 0) := by
  refine ⟨by decide, by decide, by decide, by decide, by decide, ?_⟩
  intro m hm hmW
  simp only [CalcGasLimit, parentWith, Block.GasLimit, Block.GasUsed, addU64, subU64,
    uint64Size] at *
  norm_num
  split_ifs <;> omega

/-- C7 (amended): with `MinGasLimit ≤ gasCeil` (and any `gasFloor`, so in particular
`gasFloor ≤ gasCeil`), the result of `CalcGasLimit` is at least `MinGasLimit` whenever
`gasFloor ≤ MinGasLimit`, or the parent's own gas limit is at least `MinGasLimit` and at
least `BOUND_DIVISOR` and `gasLimit + gasLimit / BOUND_DIVISOR < 2 ^ 64`. -/
theorem C7_protocol_minimum (params : Params) (parent : Block) (gasFloor gasCeil : Nat)
    (hp : params.wellFormed) (hfit : parent.fitsUint64)
    (hmc : params.MinGasLimit ≤ gasCeil)
    (hcase : gasFloor ≤ params.MinGasLimit ∨
      (params.MinGasLimit ≤ parent.GasLimit ∧
        params.GasLimitBoundDivisor ≤ parent.GasLimit ∧
        parent.GasLimit + parent.GasLimit / params.GasLimitBoundDivisor < uint64Size)) :
    params.MinGasLimit ≤ CalcGasLimit params parent gasFloor gasCeil := by
  obtain ⟨hD0, -, -⟩ := hp
  obtain ⟨hL, -⟩ := hfit
  have hqL := Nat.div_le_self parent.GasLimit params.GasLimitBoundDivisor
  have hq1 : params.GasLimitBoundDivisor ≤ parent.GasLimit →
      0 < parent.GasLimit / params.GasLimitBoundDivisor := fun h => Nat.div_pos h hD0
  unfold CalcGasLimit
  generalize addU64 parent.GasUsed (parent.GasUsed / 2) / params.GasLimitBoundDivisor = c at *
  generalize parent.GasLimit / params.GasLimitBoundDivisor = q at *
  generalize parent.GasLimit = L at *
  generalize params.GasLimitBoundDivisor = D at *
  simp only [addU64, subU64, uint64Size] at *
  rcases hcase with h | ⟨h1, h2, h3⟩
  · split_ifs <;> omega
  · have := hq1 h2
    split_ifs <;> omega

/-- Witness for C7 (amended): the parent of the spec's scenario, floor above the minimum. -/
theorem C7_protocol_minimum_witness :
    5000 ≤ CalcGasLimit ⟨1024, 5000⟩ (parentWith 6000000 8000000) 4000000 10000000 :=
  C7_protocol_minimum ⟨1024, 5000⟩ (parentWith 6000000 8000000) 4000000 10000000
    (by decide) (by decide) (by decide) (Or.inr (by decide))

/-- C8 (evaluation at the failing input): with divisor 1024, a parent with gas limit 1500
above `gasCeil = 1000` (`gasFloor = 0`, no gas used) keeps the limit 1500 for every
`MinGasLimit`: `decay = 1500/1024 - 1 = 0`, so the limit does not decrease. -/
theorem C8_limit_above_ceil_not_decreased :
    (0 : Nat) ≤ 1000 ∧ 1000 < (parentWith 0 1500).GasLimit ∧
    subU64 ((parentWith 0 1500).GasLimit / 1024) 1 = 0 ∧
    CalcGasLimit ⟨1024, 5000⟩ (parentWith 0 1500) 0 1000 = 1500 ∧
    (∀ m : Nat, CalcGasLimit ⟨1024, m⟩ (parentWith 0 1500) 0 1000
      = (parentWith 0 1500).GasLimit) := by
  refine ⟨by decide, by decide, by decide, by decide, ?_⟩
  intro m
  simp only [CalcGasLimit, parentWith, Block.GasLimit, Block.GasUsed, addU64, subU64,
    uint64Size]
  norm_num
  split_ifs <;> omega

/-! ## Claims about `ValidateBody` -/

/-- C9: when the chain reports `HasBlockAndState(block.Hash(), block.NumberU64())`,
`ValidateBody` returns `ErrKnownBlock`, for both values of `checkParent` and whatever the
chain says about the parent, whatever the uncle list and the transactions root. -/
theorem C9_known_block_short_circuit (types : Hashing) (v : BlockValidator) (block : Block)
    (checkParent : Bool)
    (hknown : v.bc.HasBlockAndState (block.Hash types) block.NumberU64 = true) :
    ValidateBody types v block checkParent = some ValidationError.ErrKnownBlock := by
  unfold ValidateBody
  simp only [hknown, if_true]

/-- Witness for C9: the sample block is known to the chain, its parent is not, it carries
an uncle and a wrong transactions root; both calls return `ErrKnownBlock`. -/
theorem C9_known_block_short_circuit_witness :
    chainWithBlock5.bc.HasBlockAndState sampleBlock.ParentHash
        (subU64 sampleBlock.NumberU64 1) = false ∧
    sampleBlock.Uncles.length = 1 ∧
    sampleHashing.DeriveSha sampleBlock.Transactions ≠ sampleBlock.header.TxHash ∧
    ValidateBody sampleHashing chainWithBlock5 sampleBlock true
      = some ValidationError.ErrKnownBlock ∧
    ValidateBody sampleHashing chainWithBlock5 sampleBlock false
      = some ValidationError.ErrKnownBlock :=
  ⟨by decide, by decide, by decide,
    C9_known_block_short_circuit sampleHashing chainWithBlock5 sampleBlock true (by decide),
    C9_known_block_short_circuit sampleHashing chainWithBlock5 sampleBlock false (by decide)⟩

/-- C10: for a block that is not already known, with `checkParent = true` and no
block+state of the parent at `(ParentHash, NumberU64 - 1)`, `ValidateBody` returns
`ErrPrunedAncestor` if `HasBlock(ParentHash, NumberU64 - 1)` and `ErrUnknownAncestor` if
not; with `checkParent = false` it returns neither ancestor error.  The height queried is
the `uint64` difference, which is `NumberU64 - 1` for every block above height 0. -/
theorem C10_ancestor_linkage (types : Hashing) (v : BlockValidator) (block : Block)
    (hnew : v.bc.HasBlockAndState (block.Hash types) block.NumberU64 = false) :
    (0 < block.NumberU64 → subU64 block.NumberU64 1 = block.NumberU64 - 1) ∧
    (v.bc.HasBlockAndState block.ParentHash (subU64 block.NumberU64 1) = false →
      v.bc.HasBlock block.ParentHash (subU64 block.NumberU64 1) = true →
      ValidateBody types v block true = some ValidationError.ErrPrunedAncestor) ∧
    (v.bc.HasBlockAndState block.ParentHash (subU64 block.NumberU64 1) = false →
      v.bc.HasBlock block.ParentHash (subU64 block.NumberU64 1) = false →
      ValidateBody types v block true = some ValidationError.ErrUnknownAncestor) ∧
    ValidateBody types v block false ≠ some ValidationError.ErrPrunedAncestor ∧
    ValidateBody types v block false ≠ some ValidationError.ErrUnknownAncestor := by
  refine ⟨?_, ?_, ?_, ?_, ?_⟩
  · intro hpos
    have hlt : block.NumberU64 < uint64Size := Nat.mod_lt _ (by decide)
    exact subU64_one_of_pos hpos hlt
  · intro hstate hblock
    simp [ValidateBody, hnew, hstate, hblock]
  · intro hstate hblock
    simp [ValidateBody, hnew, hstate, hblock]
  · simp only [ValidateBody, hnew]
    simp only [Bool.false_eq_true, if_false]
    split_ifs <;> simp
  · simp only [ValidateBody, hnew]
    simp only [Bool.false_eq_true, if_false]
    split_ifs <;> simp

/-- Witness for C10: the sample block (height 5) on a chain that has the header of its
parent at height 4 but not the parent's state. -/
theorem C10_ancestor_linkage_witness :
    subU64 sampleBlock.NumberU64 1 = 4 ∧
    ValidateBody sampleHashing chainWithPrunedBlock4 sampleBlock true
      = some ValidationError.ErrPrunedAncestor ∧
    ValidateBody sampleHashing chainWithPrunedBlock4 sampleBlock false
      ≠ some ValidationError.ErrPrunedAncestor :=
  ⟨by decide,
    (C10_ancestor_linkage sampleHashing chainWithPrunedBlock4 sampleBlock (by decide)).2.1
      (by decide) (by decide),
    (C10_ancestor_linkage sampleHashing chainWithPrunedBlock4 sampleBlock (by decide)).2.2.2.1⟩

/-- C11: a block that carries at least one uncle header gets a non-nil error from
`ValidateBody`, for every chain, both values of `checkParent` and every header, also
one with a correct transactions root; when the block is not known and its parent is
linkable (or not checked), the error is the uncles error. -/
theorem C11_uncles_always_invalid (types : Hashing) (v : BlockValidator) (block : Block)
    (checkParent : Bool) (huncles : 0 < block.Uncles.length) :
    ValidateBody types v block checkParent ≠ none ∧
    (v.bc.HasBlockAndState (block.Hash types) block.NumberU64 = false →
      (checkParent = false ∨
        v.bc.HasBlockAndState block.ParentHash (subU64 block.NumberU64 1) = true) →
      ValidateBody types v block checkParent = some ValidationError.unclesNotAllowed) := by
  constructor
  · unfold ValidateBody
    simp only [gt_iff_lt, huncles, if_true]
    split_ifs <;> simp
  · intro hnew hlink
    unfold ValidateBody
    simp only [gt_iff_lt, huncles, if_true, hnew]
    rcases hlink with h | h
    · simp [h]
    · simp [h]

/-- Witness for C11: the sample block with one uncle and a correct transactions root, on
a chain that holds its parent. -/
theorem C11_uncles_always_invalid_witness :
    sampleHashing.DeriveSha sampleBlockWithUncle.Transactions
      = sampleBlockWithUncle.header.TxHash ∧
    ValidateBody sampleHashing chainWithBlock4 sampleBlockWithUncle true ≠ none ∧
    ValidateBody sampleHashing chainWithBlock4 sampleBlockWithUncle true
      = some ValidationError.unclesNotAllowed :=
  ⟨by decide,
    (C11_uncles_always_invalid sampleHashing chainWithBlock4 sampleBlockWithUncle true
      (by decide)).1,
    (C11_uncles_always_invalid sampleHashing chainWithBlock4 sampleBlockWithUncle true
      (by decide)).2 (by decide) (Or.inr (by decide))⟩

/-- C12: for a block that is not already known, whose parent block and state are
available (or `checkParent` is false) and whose uncle list is empty, `ValidateBody`
returns nil exactly when `DeriveSha(block.Transactions())` equals `header.TxHash`, and
otherwise the transaction-root-mismatch error built from the two hashes. -/
theorem C12_transactions_root_check (types : Hashing) (v : BlockValidator) (block : Block)
    (checkParent : Bool)
    (hnew : v.bc.HasBlockAndState (block.Hash types) block.NumberU64 = false)
    (hlink : checkParent = false ∨
      v.bc.HasBlockAndState block.ParentHash (subU64 block.NumberU64 1) = true)
    (huncles : block.Uncles = []) :
    (ValidateBody types v block checkParent = none ↔
      types.DeriveSha block.Transactions = block.header.TxHash) ∧
    (types.DeriveSha block.Transactions ≠ block.header.TxHash →
      ValidateBody types v block checkParent
        = some (ValidationError.txRootMismatch (types.DeriveSha block.Transactions)
            block.header.TxHash)) := by
  have hbody : ValidateBody types v block checkParent =
      if types.DeriveSha block.Transactions ≠ block.header.TxHash then
        some (ValidationError.txRootMismatch (types.DeriveSha block.Transactions)
          block.header.TxHash)
      else none := by
    unfold ValidateBody
    rcases hlink with h | h
    · simp [hnew, huncles, h]
    · simp [hnew, huncles, h]
  rw [hbody]
  constructor
  · split_ifs with h
    · simp [h]
    · simp only [ne_eq, not_not] at h
      simp [h]
  · intro h
    simp [h]

/-- Witness for C12: on a chain that holds the parent, the uncle-free sample block is
rejected with the mismatch error while its root is wrong, and accepted once it is right. -/
theorem C12_transactions_root_check_witness :
    ValidateBody sampleHashing chainWithBlock4 sampleBlockBadRoot true
      = some (ValidationError.txRootMismatch 1 99) ∧
    ValidateBody sampleHashing chainWithBlock4 sampleBlockGood true = none :=
  ⟨(C12_transactions_root_check sampleHashing chainWithBlock4 sampleBlockBadRoot true
      (by decide) (Or.inr (by decide)) (by decide)).2 (by decide),
    (C12_transactions_root_check sampleHashing chainWithBlock4 sampleBlockGood true
      (by decide) (Or.inr (by decide)) (by decide)).1.2 (by decide)⟩

/-! ## Claims about `ValidateState` -/

/-- The four comparisons of `ValidateState` decide its error. -/
theorem ValidateState_none_iff {W : Type} (rf : ReceiptFns)
    (IntermediateRoot : Bool → W → Hash × W) (v : BlockValidator) (block parent : Block)
    (statedb : W) (receipts : List Receipt) (usedGas : Nat) :
    (ValidateState rf IntermediateRoot v block parent statedb receipts usedGas).1 = none ↔
      (block.GasUsed = usedGas ∧ rf.CreateBloom receipts = block.header.Bloom ∧
        rf.DeriveSha receipts = block.header.ReceiptHash ∧
        (IntermediateRoot (v.config.IsEIP158 block.header.Number) statedb).1
          = block.header.Root) := by
  by_cases h1 : block.GasUsed = usedGas
  · by_cases h2 : rf.CreateBloom receipts = block.header.Bloom
    · by_cases h3 : rf.DeriveSha receipts = block.header.ReceiptHash
      · by_cases h4 : block.header.Root
            = (IntermediateRoot (v.config.IsEIP158 block.header.Number) statedb).1
        · simp [ValidateState, h1, h2, h3, ← h4]
        · have h4s := Ne.symm h4
          simp [ValidateState, h1, h2, h3, h4, h4s]
      · simp [ValidateState, h1, h2, h3]
    · simp [ValidateState, h1, h2]
  · simp [ValidateState, h1]

/-- C13: `ValidateState` returns nil if and only if `block.GasUsed() = usedGas`,
`CreateBloom(receipts) = header.Bloom`, `DeriveSha(receipts) = header.ReceiptHash` and
`statedb.IntermediateRoot(IsEIP158(header.Number)) = header.Root`; in particular it
returns nil on the receipts, the gas and the state that a successful `Process` of the
block leaves, when the header's gas used, bloom, receipts root and state root are the
ones of that execution. -/
theorem C13_validate_state_accepts_consistent {W : Type} (rf : ReceiptFns)
    (sdb : StateDBOps W) (v : BlockValidator) (block parent : Block) :
    (∀ (statedb : W) (receipts : List Receipt) (usedGas : Nat),
      (ValidateState rf sdb.IntermediateRoot v block parent statedb receipts usedGas).1
          = none ↔
        (block.GasUsed = usedGas ∧ rf.CreateBloom receipts = block.header.Bloom ∧
          rf.DeriveSha receipts = block.header.ReceiptHash ∧
          (sdb.IntermediateRoot (v.config.IsEIP158 block.header.Number) statedb).1
            = block.header.Root)) ∧
    (∀ (types : Hashing) (vm : EVMOps W) (engine : EngineOps W) (before : W),
      (Process types vm v.config rf sdb engine block before).err = none →
      block.GasUsed = (Process types vm v.config rf sdb engine block before).usedGas →
      block.header.Bloom
        = rf.CreateBloom (Process types vm v.config rf sdb engine block before).receipts →
      block.header.ReceiptHash
        = rf.DeriveSha (Process types vm v.config rf sdb engine block before).receipts →
      block.header.Root
        = (sdb.IntermediateRoot (v.config.IsEIP158 block.header.Number)
            (Process types vm v.config rf sdb engine block before).world).1 →
      (ValidateState rf sdb.IntermediateRoot v block parent
        (Process types vm v.config rf sdb engine block before).world
        (Process types vm v.config rf sdb engine block before).receipts
        (Process types vm v.config rf sdb engine block before).usedGas).1 = none) := by
  constructor
  · intro statedb receipts usedGas
    exact ValidateState_none_iff rf sdb.IntermediateRoot v block parent statedb receipts usedGas
  · intro types vm engine before _ hgas hbloom hreceipts hroot
    exact (ValidateState_none_iff rf sdb.IntermediateRoot v block parent _ _ _).2
      ⟨hgas, hbloom.symm, hreceipts.symm, hroot.symm⟩

/-- Witness for C13: the sample block's header states what the toy execution produces
(gas 42,035, bloom 2, receipts root 63,052, state root 2), and `ValidateState` accepts the
output of `Process`; with another gas figure it does not. -/
theorem C13_validate_state_accepts_consistent_witness :
    (ValidateState sampleReceiptFns sampleStateDB.IntermediateRoot sampleValidator twoTxBlock
      sampleBlock
      (Process sampleHashing sampleVM sampleValidator.config sampleReceiptFns sampleStateDB
        sampleEngine twoTxBlock 0).world
      (Process sampleHashing sampleVM sampleValidator.config sampleReceiptFns sampleStateDB
        sampleEngine twoTxBlock 0).receipts
      (Process sampleHashing sampleVM sampleValidator.config sampleReceiptFns sampleStateDB
        sampleEngine twoTxBlock 0).usedGas).1 = none ∧
    (ValidateState sampleReceiptFns sampleStateDB.IntermediateRoot sampleValidator twoTxBlock
      sampleBlock 2 sampleReceipts 42036).1
      = some (ValidationError.invalidGasUsed 42035 42036) :=
  ⟨(C13_validate_state_accepts_consistent sampleReceiptFns sampleStateDB sampleValidator
      twoTxBlock sampleBlock).2 sampleHashing sampleVM sampleEngine 0
      (by decide) (by decide) (by decide) (by decide) (by decide),
    by decide⟩

/-- C14: the error of `ValidateState` is the one of the first failing comparison in the
order gas used, logs bloom, receipts root, state root.  A gas mismatch gives the gas-used
error whatever the other three are; while one of the first three comparisons fails the
state database comes back as it was given (`IntermediateRoot` is not called), and only
when all three pass is the state root computed and compared. -/
theorem C14_first_failing_check_wins {W : Type} (rf : ReceiptFns)
    (IntermediateRoot : Bool → W → Hash × W) (v : BlockValidator) (block parent : Block)
    (statedb : W) (receipts : List Receipt) (usedGas : Nat) :
    (block.GasUsed ≠ usedGas →
      ValidateState rf IntermediateRoot v block parent statedb receipts usedGas
        = (some (ValidationError.invalidGasUsed block.GasUsed usedGas), statedb)) ∧
    (block.GasUsed = usedGas → rf.CreateBloom receipts ≠ block.header.Bloom →
      ValidateState rf IntermediateRoot v block parent statedb receipts usedGas
        = (some (ValidationError.invalidBloom block.header.Bloom (rf.CreateBloom receipts)),
            statedb)) ∧
    (block.GasUsed = usedGas → rf.CreateBloom receipts = block.header.Bloom →
      rf.DeriveSha receipts ≠ block.header.ReceiptHash →
      ValidateState rf IntermediateRoot v block parent statedb receipts usedGas
        = (some (ValidationError.invalidReceiptRoot block.header.ReceiptHash
              (rf.DeriveSha receipts)), statedb)) ∧
    (block.GasUsed = usedGas → rf.CreateBloom receipts = block.header.Bloom →
      rf.DeriveSha receipts = block.header.ReceiptHash →
      block.header.Root
        ≠ (IntermediateRoot (v.config.IsEIP158 block.header.Number) statedb).1 →
      ValidateState rf IntermediateRoot v block parent statedb receipts usedGas
        = (some (ValidationError.invalidMerkleRoot block.header.Root
              (IntermediateRoot (v.config.IsEIP158 block.header.Number) statedb).1),
            (IntermediateRoot (v.config.IsEIP158 block.header.Number) statedb).2)) ∧
    (block.GasUsed = usedGas → rf.CreateBloom receipts = block.header.Bloom →
      rf.DeriveSha receipts = block.header.ReceiptHash →
      block.header.Root
        = (IntermediateRoot (v.config.IsEIP158 block.header.Number) statedb).1 →
      ValidateState rf IntermediateRoot v block parent statedb receipts usedGas
        = (none, (IntermediateRoot (v.config.IsEIP158 block.header.Number) statedb).2)) := by
  unfold ValidateState
  refine ⟨?_, ?_, ?_, ?_, ?_⟩
  · intro h1
    simp [h1]
  · intro h1 h2
    simp [h1, h2]
  · intro h1 h2 h3
    simp [h1, h2, h3]
  · intro h1 h2 h3 h4
    simp [h1, h2, h3, h4]
  · intro h1 h2 h3 h4
    simp [h1, h2, h3, ← h4]

/-- Witness for C14: with a wrong gas figure, and a bloom, a receipts root and a state
root that are wrong as well, the gas-used error is returned and the counting state
database has seen no call of `IntermediateRoot`; with the first three right, one call. -/
theorem C14_first_failing_check_wins_witness :
    sampleReceiptFns.CreateBloom [] ≠ twoTxBlock.header.Bloom ∧
    sampleReceiptFns.DeriveSha [] ≠ twoTxBlock.header.ReceiptHash ∧
    ValidateState sampleReceiptFns countingRoot sampleValidator twoTxBlock sampleBlock 0 [] 1
      = (some (ValidationError.invalidGasUsed 42035 1), 0) ∧
    ValidateState sampleReceiptFns countingRoot sampleValidator twoTxBlock sampleBlock 0
        sampleReceipts 42035
      = (some (ValidationError.invalidMerkleRoot 2 7), 1) :=
  ⟨by decide, by decide,
    (C14_first_failing_check_wins sampleReceiptFns countingRoot sampleValidator twoTxBlock
      sampleBlock 0 [] 1).1 (by decide),
    (C14_first_failing_check_wins sampleReceiptFns countingRoot sampleValidator twoTxBlock
      sampleBlock 0 sampleReceipts 42035).2.2.2.1 (by decide) (by decide) (by decide)
      (by decide)⟩

/-- Stability of the spec's root computation: computing the root again on the database
that `IntermediateRoot` left gives the same root and the same database. -/
theorem SpecStateDB.IntermediateRoot_stable (rootOf : List (Nat × Nat) → Hash) (b : Bool)
    (s : SpecStateDB) :
    SpecStateDB.IntermediateRoot rootOf b (SpecStateDB.IntermediateRoot rootOf b s).2
      = SpecStateDB.IntermediateRoot rootOf b s := by
  unfold SpecStateDB.IntermediateRoot
  cases b <;> simp [List.filter_filter]

/-- Two calls of `ValidateState` in a row agree as soon as the root computation is stable
on the database the first call left. -/
theorem validateStateTwice_agree {W : Type} (rf : ReceiptFns)
    (IntermediateRoot : Bool → W → Hash × W) (v : BlockValidator) (block parent : Block)
    (statedb : W) (receipts : List Receipt) (usedGas : Nat)
    (hstable : ∀ b s, IntermediateRoot b (IntermediateRoot b s).2 = IntermediateRoot b s) :
    ValidateState rf IntermediateRoot v block parent
        (ValidateState rf IntermediateRoot v block parent statedb receipts usedGas).2
        receipts usedGas
      = ValidateState rf IntermediateRoot v block parent statedb receipts usedGas := by
  by_cases h1 : block.GasUsed = usedGas
  · by_cases h2 : rf.CreateBloom receipts = block.header.Bloom
    · by_cases h3 : rf.DeriveSha receipts = block.header.ReceiptHash
      · by_cases h4 : block.header.Root
            = (IntermediateRoot (v.config.IsEIP158 block.header.Number) statedb).1
        · simp [ValidateState, h1, h2, h3, ← h4, hstable]
        · simp [ValidateState, h1, h2, h3, h4, hstable]
      · simp [ValidateState, h1, h2, h3]
    · simp [ValidateState, h1, h2]
  · simp [ValidateState, h1]

/-- C15: on the state database modelled from the spec, two calls of `ValidateState` in a
row with the same block, receipts and gas return the same result (nil both times or the
same error both times), the root computed on the database the first call left is the root
computed on the database it was given, and the second call leaves the database as the
first one left it. -/
theorem C15_validate_state_idempotent (rf : ReceiptFns) (rootOf : List (Nat × Nat) → Hash)
    (v : BlockValidator) (block parent : Block) (statedb : SpecStateDB)
    (receipts : List Receipt) (usedGas : Nat) :
    (validateStateTwice rf (SpecStateDB.IntermediateRoot rootOf) v block parent statedb
        receipts usedGas).2.1
      = (validateStateTwice rf (SpecStateDB.IntermediateRoot rootOf) v block parent statedb
        receipts usedGas).1 ∧
    (SpecStateDB.IntermediateRoot rootOf (v.config.IsEIP158 block.header.Number)
        (ValidateState rf (SpecStateDB.IntermediateRoot rootOf) v block parent statedb
          receipts usedGas).2).1
      = (SpecStateDB.IntermediateRoot rootOf (v.config.IsEIP158 block.header.Number)
          statedb).1 ∧
    (validateStateTwice rf (SpecStateDB.IntermediateRoot rootOf) v block parent statedb
        receipts usedGas).2.2
      = (ValidateState rf (SpecStateDB.IntermediateRoot rootOf) v block parent statedb
          receipts usedGas).2 := by
  have hstable := SpecStateDB.IntermediateRoot_stable rootOf
  have hagree := validateStateTwice_agree rf (SpecStateDB.IntermediateRoot rootOf) v block
    parent statedb receipts usedGas hstable
  refine ⟨?_, ?_, ?_⟩
  · simp only [validateStateTwice]
    rw [hagree]
  · by_cases h1 : block.GasUsed = usedGas
    · by_cases h2 : rf.CreateBloom receipts = block.header.Bloom
      · by_cases h3 : rf.DeriveSha receipts = block.header.ReceiptHash
        · by_cases h4 : block.header.Root
              = (SpecStateDB.IntermediateRoot rootOf
                  (v.config.IsEIP158 block.header.Number) statedb).1
          · simp [ValidateState, h1, h2, h3, ← h4, hstable]
          · simp [ValidateState, h1, h2, h3, h4, hstable]
        · simp [ValidateState, h1, h2, h3]
      · simp [ValidateState, h1, h2]
    · simp [ValidateState, h1]
  · simp only [validateStateTwice]
    rw [hagree]

/-- Witness for C15: on the sample state, whose emptied account the first call prunes,
both calls accept the block whose header has the pruned state's root, and both calls
return the same state-root error for the block with another root. -/
theorem C15_validate_state_idempotent_witness :
    validateStateTwice sampleReceiptFns (SpecStateDB.IntermediateRoot sampleRootOf)
        sampleValidator specStateBlock sampleBlock sampleSpecState sampleReceipts 42035
      = (none, none, { accounts := [(1, 5)] }) ∧
    (validateStateTwice sampleReceiptFns (SpecStateDB.IntermediateRoot sampleRootOf)
        sampleValidator twoTxBlock sampleBlock sampleSpecState sampleReceipts 42035).1
      = some (ValidationError.invalidMerkleRoot 2 6) ∧
    (validateStateTwice sampleReceiptFns (SpecStateDB.IntermediateRoot sampleRootOf)
        sampleValidator twoTxBlock sampleBlock sampleSpecState sampleReceipts 42035).2.1
      = (validateStateTwice sampleReceiptFns (SpecStateDB.IntermediateRoot sampleRootOf)
        sampleValidator twoTxBlock sampleBlock sampleSpecState sampleReceipts 42035).1 :=
  ⟨by decide, by decide,
    (C15_validate_state_idempotent sampleReceiptFns sampleRootOf sampleValidator twoTxBlock
      sampleBlock sampleSpecState sampleReceipts 42035).1⟩

/-! ## Lemmas about `ApplyTransaction` and the loop of `Process` -/

/-- What a successful `ApplyTransaction` returns and leaves behind. -/
theorem ApplyTransaction_ok {W : Type} (vm : EVMOps W) (config : ChainConfig)
    (rf : ReceiptFns) (sdb : StateDBOps W) (gp : Nat) (statedb : W) (header : Header)
    (tx : Transaction) (usedGas : Nat) (receipt : Receipt) (gas : Nat)
    (h : (ApplyTransaction vm config rf sdb gp statedb header tx usedGas).result
      = Except.ok (receipt, gas)) :
    receipt.TxHash = tx.Hash ∧ receipt.GasUsed = gas ∧
    receipt.CumulativeGasUsed = addU64 usedGas gas ∧
    (ApplyTransaction vm config rf sdb gp statedb header tx usedGas).usedGas
      = addU64 usedGas gas ∧
    gas ≤ gp ∧
    (ApplyTransaction vm config rf sdb gp statedb header tx usedGas).gp = gp - gas := by
  unfold ApplyTransaction at h ⊢
  cases hmsg : vm.AsMessage header.Number tx with
  | error e => simp [hmsg] at h
  | ok msg =>
    simp only [hmsg] at h ⊢
    unfold ApplyMessage at h ⊢
    rcases hex : vm.Execute msg (vm.SetTxContext msg statedb) with ⟨r, w⟩
    cases r with
    | error e => simp [hex] at h
    | ok gf =>
      obtain ⟨g, failed⟩ := gf
      simp only [hex] at h ⊢
      by_cases hgp : gp < g
      · simp [hgp] at h
      · simp only [hgp, if_false] at h ⊢
        simp only [Except.ok.injEq, Prod.mk.injEq] at h
        obtain ⟨hr, hg⟩ := h
        subst hg
        subst hr
        refine ⟨?_, ?_, ?_, ?_, ?_, ?_⟩
        · split_ifs <;> rfl
        · split_ifs <;> rfl
        · split_ifs <;> simp [NewReceipt]
        · rfl
        · omega
        · rfl

/-- One round of the loop whose transaction applies. -/
theorem processLoop_cons_ok {W : Type} (vm : EVMOps W) (config : ChainConfig)
    (rf : ReceiptFns) (sdb : StateDBOps W) (header : Header) (blockHash : Hash)
    (tx : Transaction) (rest : List Transaction) (i : Nat) (st : LoopState W)
    (receipt : Receipt) (gas : Nat)
    (h : (ApplyTransaction vm config rf sdb st.gp (sdb.Prepare tx.Hash blockHash i st.world)
        header tx st.usedGas).result = Except.ok (receipt, gas)) :
    processLoop vm config rf sdb header blockHash (tx :: rest) i st
      = processLoop vm config rf sdb header blockHash rest (i + 1)
          { receipts := st.receipts ++ [receipt],
            allLogs := st.allLogs ++ receipt.Logs,
            usedGas := (ApplyTransaction vm config rf sdb st.gp
              (sdb.Prepare tx.Hash blockHash i st.world) header tx st.usedGas).usedGas,
            gp := (ApplyTransaction vm config rf sdb st.gp
              (sdb.Prepare tx.Hash blockHash i st.world) header tx st.usedGas).gp,
            world := (ApplyTransaction vm config rf sdb st.gp
              (sdb.Prepare tx.Hash blockHash i st.world) header tx st.usedGas).world,
            calls := st.calls ++ [Call.applyTransaction i] } := by
  rw [processLoop]
  simp only [h]

/-- One round of the loop whose transaction fails: the loop stops there. -/
theorem processLoop_cons_error {W : Type} (vm : EVMOps W) (config : ChainConfig)
    (rf : ReceiptFns) (sdb : StateDBOps W) (header : Header) (blockHash : Hash)
    (tx : Transaction) (rest : List Transaction) (i : Nat) (st : LoopState W)
    (err : ExecError)
    (h : (ApplyTransaction vm config rf sdb st.gp (sdb.Prepare tx.Hash blockHash i st.world)
        header tx st.usedGas).result = Except.error err) :
    processLoop vm config rf sdb header blockHash (tx :: rest) i st
      = LoopResult.failed err
          { st with
            usedGas := (ApplyTransaction vm config rf sdb st.gp
              (sdb.Prepare tx.Hash blockHash i st.world) header tx st.usedGas).usedGas,
            gp := (ApplyTransaction vm config rf sdb st.gp
              (sdb.Prepare tx.Hash blockHash i st.world) header tx st.usedGas).gp,
            world := (ApplyTransaction vm config rf sdb st.gp
              (sdb.Prepare tx.Hash blockHash i st.world) header tx st.usedGas).world,
            calls := st.calls ++ [Call.applyTransaction i] } := by
  rw [processLoop]
  simp only [h]

/-- What the loop has done when it reaches the end of the transaction list. -/
theorem processLoop_done_spec {W : Type} (vm : EVMOps W) (config : ChainConfig)
    (rf : ReceiptFns) (sdb : StateDBOps W) (header : Header) (blockHash : Hash) :
    ∀ (txs : List Transaction) (i : Nat) (st st' : LoopState W),
      processLoop vm config rf sdb header blockHash txs i st = LoopResult.done st' →
      ∃ rs : List Receipt,
        st'.receipts = st.receipts ++ rs ∧
        rs.map Receipt.TxHash = txs.map Transaction.Hash ∧
        st'.allLogs = st.allLogs ++ logsOfReceipts rs ∧
        st'.calls = st.calls ++ (List.range' i txs.length).map Call.applyTransaction ∧
        (st.usedGas + st.gp < uint64Size →
          st'.usedGas + st'.gp = st.usedGas + st.gp ∧
          st'.usedGas = st.usedGas + (rs.map Receipt.GasUsed).sum ∧
          rs.map Receipt.CumulativeGasUsed
            = runningTotals st.usedGas (rs.map Receipt.GasUsed)) := by
  intro txs
  induction txs with
  | nil =>
    intro i st st' h
    rw [processLoop] at h
    cases h
    exact ⟨[], by simp, rfl, by simp [logsOfReceipts], by simp, fun _ => by simp [runningTotals]⟩
  | cons tx rest ih =>
    intro i st st' h
    cases hres : (ApplyTransaction vm config rf sdb st.gp
        (sdb.Prepare tx.Hash blockHash i st.world) header tx st.usedGas).result with
    | error err =>
      rw [processLoop_cons_error vm config rf sdb header blockHash tx rest i st err hres] at h
      cases h
    | ok rg =>
      obtain ⟨receipt, gas⟩ := rg
      rw [processLoop_cons_ok vm config rf sdb header blockHash tx rest i st receipt gas hres] at h
      obtain ⟨hhash, hgas, hcum, hused, hle, hgp⟩ :=
        ApplyTransaction_ok vm config rf sdb st.gp _ header tx st.usedGas receipt gas hres
      obtain ⟨rs, hrs, hmap, hlogs, hcalls, hgasinv⟩ := ih (i + 1) _ st' h
      refine ⟨receipt :: rs, ?_, ?_, ?_, ?_, ?_⟩
      · simpa using hrs
      · simp [hhash, hmap]
      · simpa [logsOfReceipts, List.append_assoc] using hlogs
      · simp only [hcalls, List.length_cons, List.range'_succ, List.map_cons,
          List.append_assoc, List.singleton_append]
      · intro hsum
        have hadd : addU64 st.usedGas gas = st.usedGas + gas := by
          unfold addU64
          apply Nat.mod_eq_of_lt
          omega
        simp only [hused, hgp, hadd] at hgasinv
        obtain ⟨h1, h2, h3⟩ := hgasinv (by omega)
        refine ⟨by omega, ?_, ?_⟩
        · simp only [List.map_cons, List.sum_cons, hgas]
          omega
        · simp only [List.map_cons, runningTotals, hgas, hcum, hadd, h3]

/-- The loop over a list continues over the rest from where the first part stopped. -/
theorem processLoop_append {W : Type} (vm : EVMOps W) (config : ChainConfig)
    (rf : ReceiptFns) (sdb : StateDBOps W) (header : Header) (blockHash : Hash) :
    ∀ (pre rest : List Transaction) (i : Nat) (st st' : LoopState W),
      processLoop vm config rf sdb header blockHash pre i st = LoopResult.done st' →
      processLoop vm config rf sdb header blockHash (pre ++ rest) i st
        = processLoop vm config rf sdb header blockHash rest (i + pre.length) st' := by
  intro pre
  induction pre with
  | nil =>
    intro rest i st st' h
    rw [processLoop] at h
    cases h
    simp
  | cons tx pre ih =>
    intro rest i st st' h
    cases hres : (ApplyTransaction vm config rf sdb st.gp
        (sdb.Prepare tx.Hash blockHash i st.world) header tx st.usedGas).result with
    | error err =>
      rw [processLoop_cons_error vm config rf sdb header blockHash tx pre i st err hres] at h
      cases h
    | ok rg =>
      obtain ⟨receipt, gas⟩ := rg
      rw [processLoop_cons_ok vm config rf sdb header blockHash tx pre i st receipt gas hres] at h
      rw [List.cons_append,
        processLoop_cons_ok vm config rf sdb header blockHash tx (pre ++ rest) i st receipt gas
          hres,
        ih rest (i + 1) _ st' h]
      congr 1
      simp only [List.length_cons]
      omega

/-- The running totals are as many as the amounts. -/
theorem runningTotals_length (gs : List Nat) : ∀ start : Nat,
    (runningTotals start gs).length = gs.length := by
  induction gs with
  | nil => intro start; rfl
  | cons g gs ih => intro start; simp [runningTotals, ih]

/-- The total at index `k` is the start plus the sum of the first `k + 1` amounts. -/
theorem runningTotals_getElem? (gs : List Nat) : ∀ (start k : Nat), k < gs.length →
    (runningTotals start gs)[k]? = some (start + (gs.take (k + 1)).sum) := by
  induction gs with
  | nil => intro start k hk; simp at hk
  | cons g gs ih =>
    intro start k hk
    cases k with
    | zero => simp [runningTotals]
    | succ k =>
      simp only [List.length_cons, Nat.add_lt_add_iff_right] at hk
      simp only [runningTotals, List.getElem?_cons_succ, ih (start + g) k hk, List.take_succ_cons,
        List.sum_cons]
      congr 1
      omega

/-- Every running total is at least the start. -/
theorem runningTotals_ge (gs : List Nat) : ∀ (start x : Nat), x ∈ runningTotals start gs →
    start ≤ x := by
  induction gs with
  | nil => intro start x hx; simp [runningTotals] at hx
  | cons g gs ih =>
    intro start x hx
    simp only [runningTotals, List.mem_cons] at hx
    rcases hx with h | h
    · omega
    · have := ih (start + g) x h
      omega

/-- The running totals never decrease. -/
theorem runningTotals_pairwise (gs : List Nat) : ∀ start : Nat,
    (runningTotals start gs).Pairwise (fun a b => a ≤ b) := by
  induction gs with
  | nil => intro start; simp [runningTotals]
  | cons g gs ih =>
    intro start
    simp only [runningTotals, List.pairwise_cons]
    exact ⟨fun x hx => runningTotals_ge gs (start + g) x hx, ih (start + g)⟩

/-- The last running total is the start plus the sum of all amounts. -/
theorem runningTotals_getLast? (gs : List Nat) : ∀ start : Nat, gs ≠ [] →
    (runningTotals start gs).getLast? = some (start + gs.sum) := by
  induction gs with
  | nil => intro start h; exact absurd rfl h
  | cons g gs ih =>
    intro start _
    cases gs with
    | nil => simp [runningTotals]
    | cons g2 gs2 =>
      have h := ih (start + g) (by simp)
      simp only [runningTotals, List.getLast?_cons_cons, List.sum_cons] at h ⊢
      rw [h]
      congr 1
      omega

/-- A `Process` without error went through the whole loop and called `Finalize`. -/
theorem Process_ok {W : Type} (types : Hashing) (vm : EVMOps W) (config : ChainConfig)
    (rf : ReceiptFns) (sdb : StateDBOps W) (engine : EngineOps W) (block : Block)
    (statedb : W)
    (hok : (Process types vm config rf sdb engine block statedb).err = none) :
    ∃ st : LoopState W,
      processLoop vm config rf sdb block.header (block.Hash types) block.Transactions 0
        (initialLoopState block statedb) = LoopResult.done st ∧
      (Process types vm config rf sdb engine block statedb).receipts = st.receipts ∧
      (Process types vm config rf sdb engine block statedb).logs = st.allLogs ∧
      (Process types vm config rf sdb engine block statedb).usedGas = st.usedGas ∧
      (Process types vm config rf sdb engine block statedb).calls
        = st.calls ++ [Call.finalize st.receipts] := by
  unfold Process at hok ⊢
  cases hloop : processLoop vm config rf sdb block.header (block.Hash types)
      block.Transactions 0 (initialLoopState block statedb) with
  | failed err st => simp [hloop] at hok
  | done st => exact ⟨st, rfl, by simp [hloop], by simp [hloop], by simp [hloop], by simp [hloop]⟩

/-! ## Claims about `Process` -/

/-- C16: whenever `Process` succeeds on a block with transactions `t_0 .. t_{n-1}` it
returns exactly `n` receipts, `receipts[i].TxHash = t_i.Hash()` for every `i`, and the
returned logs are the logs of the receipts in order, `receipts[0].Logs ++ ... ++
receipts[n-1].Logs`; for a block without transactions there is no receipt and no log. -/
theorem C16_process_preserves_order {W : Type} (types : Hashing) (vm : EVMOps W)
    (config : ChainConfig) (rf : ReceiptFns) (sdb : StateDBOps W) (engine : EngineOps W)
    (block : Block) (statedb : W)
    (hok : (Process types vm config rf sdb engine block statedb).err = none) :
    (Process types vm config rf sdb engine block statedb).receipts.length
      = block.Transactions.length ∧
    (Process types vm config rf sdb engine block statedb).receipts.map Receipt.TxHash
      = block.Transactions.map Transaction.Hash ∧
    (∀ (i : Nat) (r : Receipt) (t : Transaction),
      (Process types vm config rf sdb engine block statedb).receipts[i]? = some r →
      block.Transactions[i]? = some t → r.TxHash = t.Hash) ∧
    (Process types vm config rf sdb engine block statedb).logs
      = logsOfReceipts (Process types vm config rf sdb engine block statedb).receipts ∧
    (block.Transactions = [] →
      (Process types vm config rf sdb engine block statedb).receipts = [] ∧
      (Process types vm config rf sdb engine block statedb).logs = []) := by
  obtain ⟨st, hloop, hrec, hlogs, -, -⟩ :=
    Process_ok types vm config rf sdb engine block statedb hok
  obtain ⟨rs, hrs, hmap, hall, -, -⟩ :=
    processLoop_done_spec vm config rf sdb block.header (block.Hash types)
      block.Transactions 0 _ st hloop
  simp only [initialLoopState, List.nil_append] at hrs hall
  rw [hrec, hlogs, hrs, hall]
  have hlen : rs.length = block.Transactions.length := by
    have := congrArg List.length hmap
    simpa using this
  refine ⟨hlen, hmap, ?_, rfl, ?_⟩
  · intro i r t hr ht
    have h := congrArg (fun l => l[i]?) hmap
    simp only [List.getElem?_map, hr, ht, Option.map_some'] at h
    exact Option.some.inj h
  · intro hnil
    rw [hnil] at hlen
    have : rs = [] := List.length_eq_zero.mp (by simpa using hlen)
    simp [this, logsOfReceipts]

/-- Witness for C16: the two transactions of the sample block, in order. -/
theorem C16_process_preserves_order_witness :
    (Process sampleHashing sampleVM sampleConfig sampleReceiptFns sampleStateDB sampleEngine
        twoTxBlock 0).receipts.map Receipt.TxHash = [17, 18] ∧
    (Process sampleHashing sampleVM sampleConfig sampleReceiptFns sampleStateDB sampleEngine
        twoTxBlock 0).logs = [{ Address := 17, Data := 0 }, { Address := 18, Data := 0 }] ∧
    (Process sampleHashing sampleVM sampleConfig sampleReceiptFns sampleStateDB sampleEngine
        twoTxBlock 0).receipts.map Receipt.TxHash
      = twoTxBlock.Transactions.map Transaction.Hash :=
  ⟨by decide, by decide,
    (C16_process_preserves_order sampleHashing sampleVM sampleConfig sampleReceiptFns
      sampleStateDB sampleEngine twoTxBlock 0 (by decide)).2.1⟩

/-- What `Process` returns and leaves behind when the transactions `pre` apply and the
next transaction fails: the error, nil receipts, nil logs, gas used 0, and the world as
the failed `ApplyTransaction` left it. -/
theorem Process_failed {W : Type} (types : Hashing) (vm : EVMOps W) (config : ChainConfig)
    (rf : ReceiptFns) (sdb : StateDBOps W) (engine : EngineOps W) (block : Block)
    (statedb : W) (pre post : List Transaction) (tx : Transaction) (st : LoopState W)
    (err : ExecError)
    (hsplit : block.Transactions = pre ++ tx :: post)
    (hpre : processLoop vm config rf sdb block.header (block.Hash types) pre 0
      (initialLoopState block statedb) = LoopResult.done st)
    (hfail : (ApplyTransaction vm config rf sdb st.gp
      (sdb.Prepare tx.Hash (block.Hash types) pre.length st.world) block.header tx
      st.usedGas).result = Except.error err) :
    Process types vm config rf sdb engine block statedb
      = { receipts := [], logs := [], usedGas := 0, err := some err,
          world := (ApplyTransaction vm config rf sdb st.gp
            (sdb.Prepare tx.Hash (block.Hash types) pre.length st.world) block.header tx
            st.usedGas).world,
          calls := st.calls ++ [Call.applyTransaction pre.length] } := by
  have hloop : processLoop vm config rf sdb block.header (block.Hash types)
      block.Transactions 0 (initialLoopState block statedb)
      = LoopResult.failed err
          { st with
            usedGas := (ApplyTransaction vm config rf sdb st.gp
              (sdb.Prepare tx.Hash (block.Hash types) pre.length st.world) block.header tx
              st.usedGas).usedGas,
            gp := (ApplyTransaction vm config rf sdb st.gp
              (sdb.Prepare tx.Hash (block.Hash types) pre.length st.world) block.header tx
              st.usedGas).gp,
            world := (ApplyTransaction vm config rf sdb st.gp
              (sdb.Prepare tx.Hash (block.Hash types) pre.length st.world) block.header tx
              st.usedGas).world,
            calls := st.calls ++ [Call.applyTransaction pre.length] } := by
    rw [hsplit, processLoop_append vm config rf sdb block.header (block.Hash types) pre
      (tx :: post) 0 _ st hpre]
    simp only [Nat.zero_add]
    exact processLoop_cons_error vm config rf sdb block.header (block.Hash types) tx post
      pre.length st err hfail
  simp only [Process, hloop]

/-- C17: when the transactions before index `i` apply (the loop over them reaches the
state `st`) and `ApplyTransaction` on transaction `i` returns the error `err`, `Process`
returns that error with nil receipts, nil logs and gas used 0, and it leaves the state
database exactly as the failed `ApplyTransaction` on transaction `i` left it: nothing is
run on it afterwards, whatever the EVM and the engine do to a state database.  The whole
outcome, state database included, is the same for every engine (`Finalize` is not
called) and for every list of transactions after `i` (none of them is applied).  The
calls made are `ApplyTransaction` on the transactions `0 .. i` and nothing else. -/
theorem C17_failing_transaction_is_fatal {W : Type} (types : Hashing) (vm : EVMOps W)
    (config : ChainConfig) (rf : ReceiptFns) (sdb : StateDBOps W) (engine : EngineOps W)
    (block : Block) (statedb : W) (pre post : List Transaction) (tx : Transaction)
    (st : LoopState W) (err : ExecError)
    (hsplit : block.Transactions = pre ++ tx :: post)
    (hpre : processLoop vm config rf sdb block.header (block.Hash types) pre 0
      (initialLoopState block statedb) = LoopResult.done st)
    (hfail : (ApplyTransaction vm config rf sdb st.gp
      (sdb.Prepare tx.Hash (block.Hash types) pre.length st.world) block.header tx
      st.usedGas).result = Except.error err) :
    (Process types vm config rf sdb engine block statedb).err = some err ∧
    (Process types vm config rf sdb engine block statedb).receipts = [] ∧
    (Process types vm config rf sdb engine block statedb).logs = [] ∧
    (Process types vm config rf sdb engine block statedb).usedGas = 0 ∧
    (Process types vm config rf sdb engine block statedb).calls
      = (List.range (pre.length + 1)).map Call.applyTransaction ∧
    (∀ j : Nat, pre.length < j →
      Call.applyTransaction j ∉ (Process types vm config rf sdb engine block statedb).calls) ∧
    (∀ receipts : List Receipt,
      Call.finalize receipts ∉ (Process types vm config rf sdb engine block statedb).calls) ∧
    (Process types vm config rf sdb engine block statedb).world
      = (ApplyTransaction vm config rf sdb st.gp
          (sdb.Prepare tx.Hash (block.Hash types) pre.length st.world) block.header tx
          st.usedGas).world ∧
    (∀ other : EngineOps W,
      Process types vm config rf sdb other block statedb
        = Process types vm config rf sdb engine block statedb) ∧
    (∀ later : List Transaction,
      Process types vm config rf sdb engine
          { block with transactions := pre ++ tx :: later } statedb
        = Process types vm config rf sdb engine block statedb) := by
  obtain ⟨rs, -, -, -, hcalls, -⟩ :=
    processLoop_done_spec vm config rf sdb block.header (block.Hash types) pre 0 _ st hpre
  have hP := Process_failed types vm config rf sdb engine block statedb pre post tx st err
    hsplit hpre hfail
  have hcalls2 : (Process types vm config rf sdb engine block statedb).calls
      = (List.range (pre.length + 1)).map Call.applyTransaction := by
    rw [hP]
    simp only
    rw [hcalls, List.range_succ, List.map_append, List.range_eq_range']
    simp [initialLoopState]
  refine ⟨by rw [hP], by rw [hP], by rw [hP], by rw [hP], hcalls2, ?_, ?_, by rw [hP], ?_, ?_⟩
  · intro j hj hmem
    rw [hcalls2] at hmem
    simp only [List.mem_map, List.mem_range, Call.applyTransaction.injEq] at hmem
    obtain ⟨k, hk, rfl⟩ := hmem
    omega
  · intro receipts hmem
    rw [hcalls2] at hmem
    simp at hmem
  · intro other
    rw [hP, Process_failed types vm config rf sdb other block statedb pre post tx st err
      hsplit hpre hfail]
  · intro later
    rw [hP, Process_failed types vm config rf sdb engine
      { block with transactions := pre ++ tx :: later } statedb pre later tx st err rfl hpre
      hfail]
    rfl

/-- Witness for C17: in the block with gas limit 30,000 the first transaction applies and
the second exceeds the gas pool; with an engine whose `Finalize` would add at least 1000
to the world, the world is left at 2, the two messages run. -/
theorem C17_failing_transaction_is_fatal_witness :
    (Process sampleHashing sampleVM sampleConfig sampleReceiptFns sampleStateDB
        rewardingEngine tightBlock 0).err = some ExecError.ErrGasLimitReached ∧
    (Process sampleHashing sampleVM sampleConfig sampleReceiptFns sampleStateDB
        rewardingEngine tightBlock 0).receipts = [] ∧
    (Process sampleHashing sampleVM sampleConfig sampleReceiptFns sampleStateDB
        rewardingEngine tightBlock 0).calls
      = [Call.applyTransaction 0, Call.applyTransaction 1] ∧
    (Process sampleHashing sampleVM sampleConfig sampleReceiptFns sampleStateDB
        rewardingEngine tightBlock 0).world = 2 ∧
    Process sampleHashing sampleVM sampleConfig sampleReceiptFns sampleStateDB
        sampleEngine tightBlock 0
      = Process sampleHashing sampleVM sampleConfig sampleReceiptFns sampleStateDB
          rewardingEngine tightBlock 0 := by
  have h := C17_failing_transaction_is_fatal sampleHashing sampleVM sampleConfig
    sampleReceiptFns sampleStateDB rewardingEngine tightBlock 0 [{ Hash := 17 }] []
    { Hash := 18 }
    (processLoop sampleVM sampleConfig sampleReceiptFns sampleStateDB tightBlock.header
        (tightBlock.Hash sampleHashing) [{ Hash := 17 }] 0 (initialLoopState tightBlock 0)).state
    ExecError.ErrGasLimitReached rfl rfl rfl
  exact ⟨h.1, h.2.1, h.2.2.2.2.1, h.2.2.2.2.2.2.2.1.trans rfl, h.2.2.2.2.2.2.2.2.1 sampleEngine⟩

/-- C18: whenever `Process` succeeds on a block whose gas limit is a `uint64`, every
receipt's `CumulativeGasUsed` is the sum of the `GasUsed` of the receipts up to and
including it, the cumulative gas never decreases along the receipt list, and the gas used
that `Process` returns is the last receipt's `CumulativeGasUsed`, or 0 for a block
without transactions. -/
theorem C18_cumulative_gas {W : Type} (types : Hashing) (vm : EVMOps W)
    (config : ChainConfig) (rf : ReceiptFns) (sdb : StateDBOps W) (engine : EngineOps W)
    (block : Block) (statedb : W) (hfit : block.GasLimit < uint64Size)
    (hok : (Process types vm config rf sdb engine block statedb).err = none) :
    (∀ (i : Nat) (r : Receipt),
      (Process types vm config rf sdb engine block statedb).receipts[i]? = some r →
      r.CumulativeGasUsed
        = ((((Process types vm config rf sdb engine block statedb).receipts).take
            (i + 1)).map Receipt.GasUsed).sum) ∧
    ((Process types vm config rf sdb engine block statedb).receipts.map
      Receipt.CumulativeGasUsed).Pairwise (fun a b => a ≤ b) ∧
    (Process types vm config rf sdb engine block statedb).usedGas
      = (((Process types vm config rf sdb engine block statedb).receipts.getLast?).map
          Receipt.CumulativeGasUsed).getD 0 ∧
    (block.Transactions = [] →
      (Process types vm config rf sdb engine block statedb).usedGas = 0) := by
  obtain ⟨st, hloop, hrec, -, hused, -⟩ :=
    Process_ok types vm config rf sdb engine block statedb hok
  obtain ⟨rs, hrs, hmap, -, -, hgas⟩ :=
    processLoop_done_spec vm config rf sdb block.header (block.Hash types)
      block.Transactions 0 _ st hloop
  simp only [initialLoopState, List.nil_append, Nat.zero_add] at hrs hgas
  obtain ⟨-, hsum, hcum⟩ := hgas hfit
  rw [hrec, hused, hrs, hsum]
  refine ⟨?_, ?_, ?_, ?_⟩
  · intro i r hr
    have hi : i < (rs.map Receipt.GasUsed).length := by
      rw [List.length_map]
      exact (List.getElem?_eq_some_iff.mp hr).1
    have h1 := runningTotals_getElem? (rs.map Receipt.GasUsed) 0 i hi
    rw [← hcum, List.getElem?_map, hr] at h1
    simp only [Option.map_some', Option.some.injEq, Nat.zero_add] at h1
    rw [h1, List.map_take]
  · rw [hcum]
    exact runningTotals_pairwise _ 0
  · cases hrs0 : rs with
    | nil => simp
    | cons r rest =>
      have hne : rs.map Receipt.GasUsed ≠ [] := by simp [hrs0]
      have h1 := runningTotals_getLast? (rs.map Receipt.GasUsed) 0 hne
      rw [← hcum, List.getLast?_map] at h1
      rw [← hrs0, h1]
      simp
  · intro hnil
    have hlen : rs.length = 0 := by
      have := congrArg List.length hmap
      simpa [hnil] using this
    have : rs = [] := List.length_eq_zero.mp hlen
    simp [this]

/-- Witness for C18: the sample block uses 21,017 and 21,018 gas. -/
theorem C18_cumulative_gas_witness :
    (Process sampleHashing sampleVM sampleConfig sampleReceiptFns sampleStateDB sampleEngine
        twoTxBlock 0).receipts.map Receipt.GasUsed = [21017, 21018] ∧
    (Process sampleHashing sampleVM sampleConfig sampleReceiptFns sampleStateDB sampleEngine
        twoTxBlock 0).receipts.map Receipt.CumulativeGasUsed = [21017, 42035] ∧
    (Process sampleHashing sampleVM sampleConfig sampleReceiptFns sampleStateDB sampleEngine
        twoTxBlock 0).usedGas = 42035 ∧
    (Process sampleHashing sampleVM sampleConfig sampleReceiptFns sampleStateDB sampleEngine
        twoTxBlock 0).usedGas
      = (((Process sampleHashing sampleVM sampleConfig sampleReceiptFns sampleStateDB
            sampleEngine twoTxBlock 0).receipts.getLast?).map
          Receipt.CumulativeGasUsed).getD 0 :=
  ⟨by decide, by decide, by decide,
    (C18_cumulative_gas sampleHashing sampleVM sampleConfig sampleReceiptFns sampleStateDB
      sampleEngine twoTxBlock 0 (by decide) (by decide)).2.2.1⟩

/-- The scheduler is valid right after the submission. -/
theorem Scheduler.init_valid (verifyHeader : Header → Option HeaderError)
    (headers : List Header) : Scheduler.init.Valid verifyHeader headers := by
  refine ⟨rfl, Nat.zero_le _, by simp [Scheduler.init], ?_, ?_, ?_⟩
  · intro i r h
    simp [Scheduler.init] at h
  · intro i h
    simp [Scheduler.init] at h
  · intro i _ h
    simp [Scheduler.init] at h

/-- Pulling headers keeps the scheduler valid. -/
theorem Scheduler.dispatch_valid (verifyHeader : Header → Option HeaderError)
    (headers : List Header) (workers : Nat) (s : Scheduler)
    (hs : s.Valid verifyHeader headers) :
    (s.dispatch workers headers.length).Valid verifyHeader headers := by
  obtain ⟨hcount, hbound, hstream, hbuf, hchk, hcov⟩ := hs
  refine ⟨?_, ?_, hstream, hbuf, ?_, ?_⟩
  · simp only [Scheduler.dispatch, List.length_append, List.length_range']
    omega
  · simp only [Scheduler.dispatch]
    omega
  · intro i hi
    simp only [Scheduler.dispatch, List.mem_append, List.mem_range'_1] at hi ⊢
    rcases hi with h | h
    · have := hchk i h
      omega
    · omega
  · intro i hlo hhi
    simp only [Scheduler.dispatch, List.mem_append, List.mem_range'_1] at hhi ⊢
    by_cases h : i < s.next
    · rcases hcov i hlo h with h1 | h1
      · exact Or.inl (Or.inl h1)
      · exact Or.inr h1
    · exact Or.inl (Or.inr ⟨by omega, hhi⟩)

/-- The end of a check keeps the scheduler valid. -/
theorem Scheduler.complete_valid (verifyHeader : Header → Option HeaderError)
    (headers : List Header) (choice : Nat) (s : Scheduler)
    (hs : s.Valid verifyHeader headers) :
    (s.complete verifyHeader headers choice).Valid verifyHeader headers := by
  cases h1 : s.inflight[choice % s.inflight.length]? with
  | none =>
    simp only [Scheduler.complete, h1]
    exact hs
  | some i =>
    cases h2 : headers[i]? with
    | none =>
      simp only [Scheduler.complete, h1, h2]
      exact hs
    | some h =>
      simp only [Scheduler.complete, h1, h2]
      obtain ⟨hcount, hbound, hstream, hbuf, hchk, hcov⟩ := hs
      have himem : i ∈ s.inflight := List.getElem?_mem h1
      have hpos : 0 < s.inflight.length := List.length_pos_of_mem himem
      refine ⟨?_, hbound, hstream, ?_, ?_, ?_⟩
      · simp only [List.length_cons, List.length_erase_of_mem himem]
        omega
      · intro j r hj
        simp only [List.mem_cons, Prod.mk.injEq] at hj
        rcases hj with ⟨rfl, rfl⟩ | hj
        · exact ⟨h, h2, rfl⟩
        · exact hbuf j r hj
      · intro j hj
        exact hchk j (List.mem_of_mem_erase hj)
      · intro j hlo hhi
        by_cases hji : j = i
        · subst hji
          exact Or.inr ⟨verifyHeader h, by simp⟩
        · rcases hcov j hlo hhi with h3 | ⟨r, h3⟩
          · exact Or.inl ((List.mem_erase_of_ne hji).2 h3)
          · exact Or.inr ⟨r, List.mem_cons_of_mem _ h3⟩

/-- Emitting the results whose turn has come keeps the scheduler valid. -/
theorem Scheduler.flush_valid (verifyHeader : Header → Option HeaderError)
    (headers : List Header) : ∀ (fuel : Nat) (s : Scheduler),
    s.Valid verifyHeader headers → (Scheduler.flush fuel s).Valid verifyHeader headers := by
  intro fuel
  induction fuel with
  | zero => intro s hs; exact hs
  | succ fuel ih =>
    intro s hs
    rw [Scheduler.flush]
    cases hfind : s.buffer.find? (fun e => e.1 == s.emitted.length) with
    | none => exact hs
    | some e =>
      apply ih
      obtain ⟨hcount, hbound, hstream, hbuf, hchk, hcov⟩ := hs
      have hmem : e ∈ s.buffer := List.mem_of_find?_eq_some hfind
      have hidx : e.1 = s.emitted.length := by
        have := List.find?_some hfind
        simpa using this
      obtain ⟨h, hh, hr⟩ := hbuf e.1 e.2 hmem
      have hpos : 0 < s.buffer.length := List.length_pos_of_mem hmem
      refine ⟨?_, hbound, ?_, ?_, hchk, ?_⟩
      · simp only [List.length_append, List.length_singleton, List.length_erase_of_mem hmem]
        omega
      · simp only [List.length_append, List.length_singleton]
        rw [List.take_succ, ← hstream, List.getElem?_map, ← hidx, hh, hr]
        rfl
      · intro j r hj
        exact hbuf j r (List.mem_of_mem_erase hj)
      · intro j hlo hhi
        simp only [List.length_append, List.length_singleton] at hlo
        rcases hcov j (by omega) hhi with h3 | ⟨r, h3⟩
        · exact Or.inl h3
        · refine Or.inr ⟨r, (List.mem_erase_of_ne ?_).2 h3⟩
          intro heq
          have : j = e.1 := by rw [← heq]
          omega

/-- After a flush with enough fuel the buffer does not hold the result whose turn it is. -/
theorem Scheduler.flush_drained : ∀ (fuel : Nat) (s : Scheduler), s.buffer.length < fuel →
    ∀ r, ((Scheduler.flush fuel s).emitted.length, r) ∉ (Scheduler.flush fuel s).buffer := by
  intro fuel
  induction fuel with
  | zero => intro s h; omega
  | succ fuel ih =>
    intro s hlen r
    rw [Scheduler.flush]
    cases hfind : s.buffer.find? (fun e => e.1 == s.emitted.length) with
    | none =>
      intro hmem
      have := List.find?_eq_none.mp hfind _ hmem
      simp at this
    | some e =>
      have hmem : e ∈ s.buffer := List.mem_of_find?_eq_some hfind
      have hpos : 0 < s.buffer.length := List.length_pos_of_mem hmem
      apply ih
      simp only [List.length_erase_of_mem hmem]
      omega

/-- A flush moves results from the buffer to the stream and touches nothing else. -/
theorem Scheduler.flush_keeps : ∀ (fuel : Nat) (s : Scheduler),
    (Scheduler.flush fuel s).emitted.length + (Scheduler.flush fuel s).buffer.length
      = s.emitted.length + s.buffer.length := by
  intro fuel
  induction fuel with
  | zero => intro s; rfl
  | succ fuel ih =>
    intro s
    rw [Scheduler.flush]
    cases hfind : s.buffer.find? (fun e => e.1 == s.emitted.length) with
    | none => rfl
    | some e =>
      have hmem : e ∈ s.buffer := List.mem_of_find?_eq_some hfind
      have hpos : 0 < s.buffer.length := List.length_pos_of_mem hmem
      simp only [ih, List.length_append, List.length_singleton, List.length_erase_of_mem hmem]
      omega

/-- An event keeps the scheduler valid. -/
theorem Scheduler.step_valid (workers : Nat) (verifyHeader : Header → Option HeaderError)
    (headers : List Header) (s : Scheduler) (choice : Nat)
    (hs : s.Valid verifyHeader headers) :
    (s.step workers verifyHeader headers choice).Valid verifyHeader headers := by
  unfold Scheduler.step
  exact Scheduler.flush_valid verifyHeader headers _ _
    (Scheduler.complete_valid verifyHeader headers choice _
      (Scheduler.dispatch_valid verifyHeader headers workers s hs))

/-- After an event the buffer does not hold the result whose turn it is. -/
theorem Scheduler.step_drained (workers : Nat) (verifyHeader : Header → Option HeaderError)
    (headers : List Header) (s : Scheduler) (choice : Nat) (r : Option HeaderError) :
    ((s.step workers verifyHeader headers choice).emitted.length, r)
      ∉ (s.step workers verifyHeader headers choice).buffer := by
  unfold Scheduler.step
  exact Scheduler.flush_drained _ _ (Nat.lt_succ_self _) r

/-- The number of finished checks never exceeds the size of the batch. -/
theorem Scheduler.Valid.finished_le {verifyHeader : Header → Option HeaderError}
    {headers : List Header} {s : Scheduler} (hs : s.Valid verifyHeader headers) :
    s.emitted.length + s.buffer.length ≤ headers.length := by
  have h1 := hs.count
  have h2 := hs.bound
  omega

/-- While checks remain and there is a worker, an event finishes exactly one check. -/
theorem Scheduler.step_finishes_one (workers : Nat)
    (verifyHeader : Header → Option HeaderError) (headers : List Header) (s : Scheduler)
    (choice : Nat) (hw : 0 < workers) (hs : s.Valid verifyHeader headers)
    (hleft : s.emitted.length + s.buffer.length < headers.length) :
    (s.step workers verifyHeader headers choice).emitted.length
        + (s.step workers verifyHeader headers choice).buffer.length
      = s.emitted.length + s.buffer.length + 1 := by
  have hd := Scheduler.dispatch_valid verifyHeader headers workers s hs
  have hne : 0 < (s.dispatch workers headers.length).inflight.length := by
    have hcount := hs.count
    simp only [Scheduler.dispatch, List.length_append, List.length_range']
    omega
  have hlt : choice % (s.dispatch workers headers.length).inflight.length
      < (s.dispatch workers headers.length).inflight.length := Nat.mod_lt _ hne
  obtain ⟨i, hi⟩ : ∃ i, (s.dispatch workers headers.length).inflight[
      choice % (s.dispatch workers headers.length).inflight.length]? = some i :=
    ⟨_, List.getElem?_eq_getElem hlt⟩
  have himem := List.getElem?_mem hi
  have hilt : i < headers.length := lt_of_lt_of_le (hd.checking i himem) hd.bound
  obtain ⟨h, hh⟩ : ∃ h, headers[i]? = some h := ⟨_, List.getElem?_eq_getElem hilt⟩
  unfold Scheduler.step
  rw [Scheduler.flush_keeps]
  simp only [Scheduler.complete, hi, hh, List.length_cons]
  simp only [Scheduler.dispatch]
  omega

/-- An event never undoes a finished check. -/
theorem Scheduler.step_finished_mono (workers : Nat)
    (verifyHeader : Header → Option HeaderError) (headers : List Header) (s : Scheduler)
    (choice : Nat) :
    s.emitted.length + s.buffer.length
      ≤ (s.step workers verifyHeader headers choice).emitted.length
        + (s.step workers verifyHeader headers choice).buffer.length := by
  unfold Scheduler.step
  rw [Scheduler.flush_keeps]
  cases h1 : (s.dispatch workers headers.length).inflight[
      choice % (s.dispatch workers headers.length).inflight.length]? with
  | none =>
    simp only [Scheduler.complete, h1]
    simp only [Scheduler.dispatch]
    omega
  | some i =>
    cases h2 : headers[i]? with
    | none =>
      simp only [Scheduler.complete, h1, h2]
      simp only [Scheduler.dispatch]
      omega
    | some h =>
      simp only [Scheduler.complete, h1, h2, List.length_cons]
      simp only [Scheduler.dispatch]
      omega

/-- A run keeps the scheduler valid and drained, and after enough events every check of
the batch is finished. -/
theorem Scheduler.run_spec (workers : Nat) (verifyHeader : Header → Option HeaderError)
    (headers : List Header) (hw : 0 < workers) :
    ∀ (schedule : List Nat) (s : Scheduler), s.Valid verifyHeader headers →
      (∀ r, (s.emitted.length, r) ∉ s.buffer) →
      (schedule.foldl (Scheduler.step workers verifyHeader headers) s).Valid
          verifyHeader headers ∧
      (∀ r, ((schedule.foldl (Scheduler.step workers verifyHeader headers) s).emitted.length,
          r) ∉ (schedule.foldl (Scheduler.step workers verifyHeader headers) s).buffer) ∧
      (headers.length ≤ s.emitted.length + s.buffer.length + schedule.length →
        (schedule.foldl (Scheduler.step workers verifyHeader headers) s).emitted.length
          + (schedule.foldl (Scheduler.step workers verifyHeader headers) s).buffer.length
          = headers.length) := by
  intro schedule
  induction schedule with
  | nil =>
    intro s hs hdr
    refine ⟨hs, hdr, ?_⟩
    intro h
    have := hs.finished_le
    simp only [List.length_nil, Nat.add_zero] at h
    simp only [List.foldl_nil]
    omega
  | cons c cs ih =>
    intro s hs _
    have hs' := Scheduler.step_valid workers verifyHeader headers s c hs
    have hdr' := Scheduler.step_drained workers verifyHeader headers s c
    obtain ⟨h1, h2, h3⟩ := ih (s.step workers verifyHeader headers c) hs' hdr'
    refine ⟨h1, h2, ?_⟩
    intro h
    apply h3
    simp only [List.length_cons] at h
    by_cases hleft : s.emitted.length + s.buffer.length < headers.length
    · rw [Scheduler.step_finishes_one workers verifyHeader headers s c hw hs hleft]
      omega
    · have := Scheduler.step_finished_mono workers verifyHeader headers s c
      omega

/-- A valid, drained scheduler whose checks are all finished has emitted every result. -/
theorem Scheduler.Valid.all_emitted {verifyHeader : Header → Option HeaderError}
    {headers : List Header} {s : Scheduler} (hs : s.Valid verifyHeader headers)
    (hdr : ∀ r, (s.emitted.length, r) ∉ s.buffer)
    (hall : s.emitted.length + s.buffer.length = headers.length) :
    s.emitted = headers.map verifyHeader := by
  have hcount := hs.count
  have hbound := hs.bound
  have hnext : s.next = headers.length := by omega
  have hin : s.inflight = [] := List.length_eq_zero.mp (by omega)
  have hlen : s.emitted.length = headers.length := by
    by_contra hne
    have hlt : s.emitted.length < s.next := by omega
    rcases hs.covered s.emitted.length (Nat.le_refl _) hlt with h | ⟨r, h⟩
    · rw [hin] at h
      simp at h
    · exact hdr r h
  have hstream := hs.stream
  rw [hlen] at hstream
  rw [hstream]
  apply List.take_of_length_le
  simp

/-- C20: on the scheduler modelled from the spec, with at least one worker and whatever
the order in which the workers finish (the schedule), the results delivered so far are
always the outcomes of the first headers of the batch, in submission order; once as many
checks have finished as the batch has headers, exactly `N` results have been delivered,
the `i`-th being the outcome of the `i`-th header, and further events deliver nothing
more.  With the always-valid engine all `N` results are nil; with the engine that fails
header number `fail`, the result at the position of the first such header is an error
and all earlier results are nil. -/
theorem C20_ordered_header_verification (workers : Nat) (headers : List Header)
    (schedule : List Nat) (hw : 0 < workers) :
    (∀ verifyHeader : Header → Option HeaderError,
      VerifyHeaders workers verifyHeader headers schedule <+: headers.map verifyHeader ∧
      (headers.length ≤ schedule.length →
        VerifyHeaders workers verifyHeader headers schedule = headers.map verifyHeader ∧
        (VerifyHeaders workers verifyHeader headers schedule).length = headers.length ∧
        (∀ (i : Nat) (h : Header), headers[i]? = some h →
          (VerifyHeaders workers verifyHeader headers schedule)[i]?
            = some (verifyHeader h)))) ∧
    (headers.length ≤ schedule.length →
      VerifyHeaders workers fakerVerifyHeader headers schedule
        = List.replicate headers.length none) ∧
    (headers.length ≤ schedule.length →
      ∀ (fail p : Nat) (h : Header), headers[p]? = some h → h.Number = fail →
        (∀ (j : Nat) (hj : Header), j < p → headers[j]? = some hj → hj.Number ≠ fail) →
        (VerifyHeaders workers (fakeFailerVerifyHeader fail) headers schedule)[p]?
            = some (some HeaderError.errFakeFail) ∧
        (∀ j : Nat, j < p →
          (VerifyHeaders workers (fakeFailerVerifyHeader fail) headers schedule)[j]?
            = some none)) := by
  have hrun : ∀ verifyHeader : Header → Option HeaderError,
      VerifyHeaders workers verifyHeader headers schedule <+: headers.map verifyHeader ∧
      (headers.length ≤ schedule.length →
        VerifyHeaders workers verifyHeader headers schedule = headers.map verifyHeader) := by
    intro verifyHeader
    obtain ⟨hvalid, hdrained, hdone⟩ :=
      Scheduler.run_spec workers verifyHeader headers hw schedule Scheduler.init
        (Scheduler.init_valid verifyHeader headers) (by simp [Scheduler.init])
    constructor
    · unfold VerifyHeaders
      rw [hvalid.stream]
      exact List.take_prefix _ _
    · intro hlen
      unfold VerifyHeaders
      exact hvalid.all_emitted hdrained (hdone (by simp [Scheduler.init]; omega))
  refine ⟨?_, ?_, ?_⟩
  · intro verifyHeader
    refine ⟨(hrun verifyHeader).1, ?_⟩
    intro hlen
    have heq := (hrun verifyHeader).2 hlen
    refine ⟨heq, by rw [heq, List.length_map], ?_⟩
    intro i h hh
    rw [heq, List.getElem?_map, hh]
    rfl
  · intro hlen
    rw [(hrun fakerVerifyHeader).2 hlen]
    apply List.ext_getElem?
    intro i
    by_cases hi : i < headers.length
    · simp [List.getElem?_replicate, hi, fakerVerifyHeader, List.getElem?_eq_getElem hi]
    · simp [List.getElem?_replicate, hi, List.getElem?_eq_none (Nat.le_of_not_lt hi)]
  · intro hlen fail p h hh hnum hearlier
    rw [(hrun (fakeFailerVerifyHeader fail)).2 hlen]
    constructor
    · rw [List.getElem?_map, hh]
      simp [fakeFailerVerifyHeader, hnum]
    · intro j hj
      have hplt : p < headers.length := (List.getElem?_eq_some_iff.mp hh).1
      have hjlt : j < headers.length := by omega
      rw [List.getElem?_map, List.getElem?_eq_getElem hjlt]
      have := hearlier j headers[j] hj (List.getElem?_eq_getElem hjlt)
      simp [fakeFailerVerifyHeader, this]

/-- Witness for C20: two workers on four headers, the third of which fails.  The second
header's check finishes first and its result is held back; after four completions, in
the order 2nd, 3rd, 4th, 1st, the stream holds the four results in submission order. -/
theorem C20_ordered_header_verification_witness :
    VerifyHeaders 2 (fakeFailerVerifyHeader 3)
        [headerNumbered 1, headerNumbered 2, headerNumbered 3, headerNumbered 4] [1] = [] ∧
    VerifyHeaders 2 (fakeFailerVerifyHeader 3)
        [headerNumbered 1, headerNumbered 2, headerNumbered 3, headerNumbered 4] [1, 1, 1, 0]
      = [none, none, some HeaderError.errFakeFail, none] ∧
    VerifyHeaders 2 (fakeFailerVerifyHeader 3)
        [headerNumbered 1, headerNumbered 2, headerNumbered 3, headerNumbered 4] [1, 1, 1, 0]
      = [headerNumbered 1, headerNumbered 2, headerNumbered 3, headerNumbered 4].map
          (fakeFailerVerifyHeader 3) :=
  ⟨by decide, by decide,
    (((C20_ordered_header_verification 2
      [headerNumbered 1, headerNumbered 2, headerNumbered 3, headerNumbered 4] [1, 1, 1, 0]
      (by decide)).1 (fakeFailerVerifyHeader 3)).2 (by decide)).1⟩

/-! ## Claims about `WritePreimages` -/

/-- C30 (evaluation at the failing input): on an empty table, with the prefix
"secure-key-" and one preimage, `WritePreimages` puts the preimage under the bare hash
(the batch comes from `tbl.NewBatch()`, not from the prefixer), so a `Get` of the hash
through `PreimageTablePrefixer(tbl)` still finds nothing, and a second call with the same
map writes the preimage again (hit count 1).  The lookup through the prefixer fails in the
same way for every prefix that is not empty. -/
theorem C30_preimages_written_without_prefix :
    (PreimageTablePrefixer samplePreimagePrefix).Get
      (WritePreimages samplePreimagePrefix { entries := [] } [(sampleHashBytes, [1, 2, 3])]).1
      sampleHashBytes = none ∧
    (WritePreimages samplePreimagePrefix { entries := [] } [(sampleHashBytes, [1, 2, 3])]).1.Get
      sampleHashBytes = some [1, 2, 3] ∧
    (WritePreimages samplePreimagePrefix
      (WritePreimages samplePreimagePrefix { entries := [] } [(sampleHashBytes, [1, 2, 3])]).1
      [(sampleHashBytes, [1, 2, 3])]).2 = 1 ∧
    (∀ (preimagePrefix hash preimage : Bytes), preimagePrefix ≠ [] →
      (PreimageTablePrefixer preimagePrefix).Get
        (WritePreimages preimagePrefix { entries := [] } [(hash, preimage)]).1 hash = none) := by
  refine ⟨by decide, by decide, by decide, ?_⟩
  intro preimagePrefix hash preimage hne
  have hkey : ¬ (hash = preimagePrefix ++ hash) := by
    intro h
    have hlen := congrArg List.length h
    rw [List.length_append] at hlen
    have : preimagePrefix.length = 0 := by omega
    exact hne (List.length_eq_zero.mp this)
  simp [WritePreimages, writePreimagesLoop, PreimageTablePrefixer, TablePrefixer.Get,
    MemTable.Get, MemTable.NewBatch, MemBatch.Put, MemBatch.Write, MemTable.Put, hkey]

/-! ## Claims about the RLP encoder -/

/-- C26 (evaluation at the failing input): `makeWriter` returns `writeBool` for the
boolean kind, whatever the makers of composite writers do, and so, whenever the decoder
maker accepts the boolean type, `EncodeToBytes(true)` is the byte `0x01` and
`EncodeToBytes(false)` the byte `0x80`, with a nil error; for a signed integer, a
floating point number, a map, a channel and a function `makeWriter` returns the error
that the type is not RLP-serializable. -/
theorem C26_booleans_are_encoded :
    (∀ compound, makeWriter compound { kind := Kind.Bool } = Except.ok Writer.writeBool) ∧
    (∀ makeDecoder compound, makeDecoder { kind := Kind.Bool } = none →
      EncodeToBytes makeDecoder compound (GoValue.bool true) = Except.ok [0x01] ∧
      EncodeToBytes makeDecoder compound (GoValue.bool false) = Except.ok [0x80]) ∧
    EncodeToBytes acceptingDecoder noCompound (GoValue.bool true) = Except.ok [0x01] ∧
    (∀ compound, ∀ val ∈ [GoValue.int (-1), GoValue.float64 0, GoValue.mapValue,
        GoValue.chanValue, GoValue.funcValue],
      makeWriter compound val.type = Except.error (EncodeError.notSerializable val.type.kind) ∧
      EncodeToBytes acceptingDecoder compound val
        = Except.error (EncodeError.notSerializable val.type.kind)) := by
  refine ⟨fun _ => rfl, ?_, rfl, ?_⟩
  · intro makeDecoder compound h
    constructor
    · simp [EncodeToBytes, encbuf.encode, genTypeInfo, GoValue.type, h, makeWriter, isUint,
        Writer.run, writeBool, encbuf.fresh, encbuf.toBytes, toBytesLoop, encbuf.size, copyAt]
    · simp [EncodeToBytes, encbuf.encode, genTypeInfo, GoValue.type, h, makeWriter, isUint,
        Writer.run, writeBool, encbuf.fresh, encbuf.toBytes, toBytesLoop, encbuf.size, copyAt]
  · intro compound val hval
    simp only [List.mem_cons, List.mem_singleton, List.not_mem_nil, or_false] at hval
    rcases hval with rfl | rfl | rfl | rfl | rfl <;>
      simp [EncodeToBytes, encbuf.encode, genTypeInfo, GoValue.type, makeWriter, isUint,
        acceptingDecoder]

/-- A number of at least 256 has its low byte as first base-256 digit. -/
theorem digits_step (v : Nat) (h : 256 ≤ v) :
    Nat.digits 256 v = v % 256 :: Nat.digits 256 (v / 256) :=
  Nat.digits_def' (by norm_num) (by omega)

/-- A positive number below 256 is its own single base-256 digit. -/
theorem digits_small (v : Nat) (h0 : 0 < v) (h : v < 256) : Nat.digits 256 v = [v] :=
  Nat.digits_of_lt 256 v (by omega) h

/-- The bytes of `putint` are the base-256 digits, most significant first. -/
theorem putintBytes_eq (v : Nat) (h0 : 0 < v) (hw : v < 2 ^ 64) :
    putintBytes v = (Nat.digits 256 v).reverse := by
  unfold putintBytes byte
  simp only [Nat.shiftLeft_eq, Nat.shiftRight_eq_div_pow, one_mul]
  norm_num
  split_ifs with h1 h2 h3 h4 h5 h6 h7
  · rw [digits_small (v) (by omega) (by omega)]
    simp
    omega
  · rw [digits_step (v) (by omega),
      digits_small (v / 256) (by omega) (by omega)]
    simp
    omega
  · rw [digits_step (v) (by omega),
      digits_step (v / 256) (by omega),
      digits_small (v / 256 / 256) (by omega) (by omega)]
    simp
    omega
  · rw [digits_step (v) (by omega),
      digits_step (v / 256) (by omega),
      digits_step (v / 256 / 256) (by omega),
      digits_small (v / 256 / 256 / 256) (by omega) (by omega)]
    simp
    omega
  · rw [digits_step (v) (by omega),
      digits_step (v / 256) (by omega),
      digits_step (v / 256 / 256) (by omega),
      digits_step (v / 256 / 256 / 256) (by omega),
      digits_small (v / 256 / 256 / 256 / 256) (by omega) (by omega)]
    simp
    omega
  · rw [digits_step (v) (by omega),
      digits_step (v / 256) (by omega),
      digits_step (v / 256 / 256) (by omega),
      digits_step (v / 256 / 256 / 256) (by omega),
      digits_step (v / 256 / 256 / 256 / 256) (by omega),
      digits_small (v / 256 / 256 / 256 / 256 / 256) (by omega) (by omega)]
    simp
    omega
  · rw [digits_step (v) (by omega),
      digits_step (v / 256) (by omega),
      digits_step (v / 256 / 256) (by omega),
      digits_step (v / 256 / 256 / 256) (by omega),
      digits_step (v / 256 / 256 / 256 / 256) (by omega),
      digits_step (v / 256 / 256 / 256 / 256 / 256) (by omega),
      digits_small (v / 256 / 256 / 256 / 256 / 256 / 256) (by omega) (by omega)]
    simp
    omega
  · rw [digits_step (v) (by omega),
      digits_step (v / 256) (by omega),
      digits_step (v / 256 / 256) (by omega),
      digits_step (v / 256 / 256 / 256) (by omega),
      digits_step (v / 256 / 256 / 256 / 256) (by omega),
      digits_step (v / 256 / 256 / 256 / 256 / 256) (by omega),
      digits_step (v / 256 / 256 / 256 / 256 / 256 / 256) (by omega),
      digits_small (v / 256 / 256 / 256 / 256 / 256 / 256 / 256) (by omega) (by omega)]
    simp
    omega

/-- The loop of `intsize` adds the base-256 logarithm to the size it starts from. -/
theorem intsizeLoop_eq : ∀ (fuel size i : Nat), i ≤ fuel →
    intsizeLoop fuel size i = size + Nat.log 256 i := by
  intro fuel
  induction fuel with
  | zero =>
    intro size i hi
    have : i = 0 := by omega
    subst this
    simp [intsizeLoop]
  | succ fuel ih =>
    intro size i hi
    rw [intsizeLoop, Nat.shiftRight_eq_div_pow]
    by_cases hsmall : i / 2 ^ 8 = 0
    · have hlt : i < 256 := by omega
      rw [if_pos hsmall, Nat.log_of_lt hlt]
      rfl
    · have hge : 256 ≤ i := by omega
      rw [if_neg hsmall, ih (size + 1) (i / 2 ^ 8) (by omega),
        Nat.log_of_one_lt_of_le (by norm_num) hge]
      norm_num
      omega

/-- `intsize` is the number of base-256 digits. -/
theorem intsize_eq_digits_length (v : Nat) (h0 : 0 < v) :
    intsize v = (Nat.digits 256 v).length := by
  rw [intsize, intsizeLoop_eq v 1 v (Nat.le_refl v),
    Nat.digits_len 256 v (by norm_num) (by omega)]
  omega

/-- The bytes of `putint` are as many as `intsize` says. -/
theorem putintBytes_length (v : Nat) (h0 : 0 < v) (hw : v < 2 ^ 64) :
    (putintBytes v).length = intsize v := by
  rw [putintBytes_eq v h0 hw, intsize_eq_digits_length v h0, List.length_reverse]

/-- A `uint64` has at most eight base-256 digits. -/
theorem digits_length_le_eight (v : Nat) (h0 : 0 < v) (hw : v < 2 ^ 64) :
    (Nat.digits 256 v).length ≤ 8 := by
  rw [← List.length_reverse, ← putintBytes_eq v h0 hw]
  unfold putintBytes
  split_ifs <;> simp

/-- The bytes of `putint` are at most eight. -/
theorem putintBytes_length_le (v : Nat) : (putintBytes v).length ≤ 8 := by
  unfold putintBytes
  split_ifs <;> simp

/-- The bytes of `putint` are at least one. -/
theorem putintBytes_length_pos (v : Nat) : 0 < (putintBytes v).length := by
  unfold putintBytes
  split_ifs <;> simp

/-- On the eight-byte scratch buffer `putint` never panics. -/
theorem putint_scratch (v : Nat) :
    putint (List.replicate 8 0) v
      = some (putintBytes v ++ (List.replicate 8 0).drop (putintBytes v).length,
          (putintBytes v).length) := by
  have hle := putintBytes_length_le v
  have hfit : (putintBytes v).length ≤ (List.replicate 8 0).length := by simpa using hle
  simp only [putint, hfit, if_true]

/-- The header byte followed by the bytes of `putint`, as `writeUint` and
`WriteUint64To` cut them out of the scratch buffer. -/
theorem take_header (v : Nat) (tag : Nat) (htag : tag + 8 < 256) (rest : Bytes) :
    (byte (tag + byte (putintBytes v).length) :: (putintBytes v ++ rest)).take
        ((putintBytes v).length + 1)
      = (tag + (putintBytes v).length) :: putintBytes v := by
  have hle := putintBytes_length_le v
  have hbyte : byte (tag + byte (putintBytes v).length) = tag + (putintBytes v).length := by
    unfold byte
    omega
  rw [hbyte, List.take_succ_cons, List.take_append_of_le_length (Nat.le_refl _),
    List.take_length]

/-- `AppendHead` extends the slice by the tag plus the byte count, followed by the bytes
of `putint`. -/
theorem AppendHead_eq (b : Slice) (pfx v : Nat) (hpfx : pfx + 8 < 256) :
    AppendHead b pfx v = b.extend ((pfx + (putintBytes v).length) :: putintBytes v) := by
  unfold AppendHead putintBytes
  split_ifs
  all_goals
    simp only [List.length_cons, List.length_nil, List.length_singleton]
    congr 2
    unfold byte
    omega

/-- C27 (counterexample): on a slice without spare capacity `AppendUint64` panics (the
slice expression `b[len(b):][:1]` is out of range), where `writeUint` and `WriteUint64To`
produce the byte `0x80`. -/
theorem C27_counterexample :
    AppendUint64 { data := [], cap := 0 } 0 = none ∧
    (writeUint 0 encbuf.fresh).str = [0x80] ∧
    WriteUint64To 0 = some [0x80] := by
  decide

/-- C27 (amended): for every `uint64` `v`, `writeUint` appends, `WriteUint64To` writes
and, on a slice with at least `Uint64Size(v)` bytes of spare capacity, `AppendUint64`
appends the same bytes (with less spare capacity it panics): the byte `0x80` when
`v = 0`, the byte `v` when `0 < v < 128`, and otherwise `0x80 + n` followed by the `n`
bytes of `v` in big endian order without a leading zero byte, where `n = intsize(v)` is
the least number of bytes that can hold `v`; and `Uint64Size(v)` is the length of that
encoding. -/
theorem C27_uint_encoding (v : Nat) (hv : v < uint64Size) :
    (∀ w : encbuf, writeUint v w = { w with str := w.str ++ uintEncoding v }) ∧
    WriteUint64To v = some (uintEncoding v) ∧
    (∀ b : Slice, Uint64Size v ≤ b.cap - b.data.length →
      AppendUint64 b v = some { b with data := b.data ++ uintEncoding v }) ∧
    (∀ b : Slice, b.cap - b.data.length < Uint64Size v → AppendUint64 b v = none) ∧
    Uint64Size v = (uintEncoding v).length ∧
    (128 ≤ v →
      intsize v = (Nat.digits 256 v).length ∧
      v < 256 ^ intsize v ∧ 256 ^ (intsize v - 1) ≤ v ∧
      (Nat.digits 256 v).reverse.head? ≠ some 0) := by
  have hw : v < 2 ^ 64 := hv
  by_cases h0 : v = 0
  · subst h0
    refine ⟨fun w => by simp [writeUint, uintEncoding], by simp [WriteUint64To, uintEncoding],
      ?_, ?_, by simp [Uint64Size, uintEncoding], fun h => absurd h (by omega)⟩
    · intro b hb
      simp [Uint64Size] at hb
      simp [AppendUint64, Slice.extend, uintEncoding]
      omega
    · intro b hb
      simp [Uint64Size] at hb
      simp [AppendUint64, Slice.extend]
      omega
  by_cases hsmall : v < 128
  · have hbyte : byte v = v := by
      unfold byte
      omega
    refine ⟨fun w => by simp [writeUint, uintEncoding, h0, hsmall, hbyte],
      by simp [WriteUint64To, uintEncoding, h0, hsmall, hbyte], ?_, ?_,
      by simp [Uint64Size, uintEncoding, h0, hsmall], fun h => absurd h (by omega)⟩
    · intro b hb
      simp only [Uint64Size, hsmall, if_true] at hb
      simp [AppendUint64, Slice.extend, uintEncoding, h0, hsmall, hbyte]
      omega
    · intro b hb
      simp only [Uint64Size, hsmall, if_true] at hb
      simp [AppendUint64, Slice.extend, h0, hsmall]
      omega
  · have hpos : 0 < v := by omega
    have hbytes := putintBytes_eq v hpos hw
    have hlen := putintBytes_length v hpos hw
    have hdig := intsize_eq_digits_length v hpos
    have henc : uintEncoding v = (0x80 + (putintBytes v).length) :: putintBytes v := by
      simp only [uintEncoding, h0, hsmall, if_false, hbytes, List.length_reverse]
    have hput := putint_scratch v
    have htake := take_header v 0x80 (by norm_num)
      ((List.replicate 8 0).drop (putintBytes v).length)
    refine ⟨?_, ?_, ?_, ?_, ?_, ?_⟩
    · intro w
      simp only [writeUint, h0, hsmall, if_false, hput, htake, henc]
    · simp only [WriteUint64To, h0, hsmall, if_false, hput, htake, henc]
    · intro b hb
      simp only [Uint64Size, hsmall, if_false] at hb
      simp only [AppendUint64, h0, hsmall, if_false, AppendHead_eq b 0x80 v (by norm_num),
        Slice.extend, henc, List.length_cons, hlen]
      rw [if_pos (by omega)]
    · intro b hb
      simp only [Uint64Size, hsmall, if_false] at hb
      simp only [AppendUint64, h0, hsmall, if_false, AppendHead_eq b 0x80 v (by norm_num),
        Slice.extend, List.length_cons, hlen]
      rw [if_neg (by omega)]
    · simp only [Uint64Size, hsmall, if_false, henc, List.length_cons, hlen]
    · intro _
      refine ⟨hdig, ?_, ?_, ?_⟩
      · rw [hdig]
        exact Nat.lt_base_pow_length_digits (by norm_num)
      · rw [hdig]
        have := Nat.base_pow_length_digits_le 256 v (by norm_num) (by omega)
        have hlenpos : 0 < (Nat.digits 256 v).length := by
          rw [← hdig, ← hlen]
          exact putintBytes_length_pos v
        obtain ⟨k, hk⟩ : ∃ k, (Nat.digits 256 v).length = k + 1 := ⟨_, (Nat.succ_pred_eq_of_pos hlenpos).symm⟩
        rw [hk] at this ⊢
        simp only [Nat.add_sub_cancel]
        rw [pow_succ] at this
        omega
      · rw [List.head?_reverse]
        intro hlast
        have hne : Nat.digits 256 v ≠ [] := Nat.digits_ne_nil_iff_ne_zero.mpr h0
        have := Nat.getLast_digit_ne_zero 256 h0
        rw [List.getLast?_eq_getLast _ hne] at hlast
        exact this (Option.some.inj hlast)

/-- C27 at `v = 1024`: the encoding is `0x82 0x04 0x00`, of size 3, by all three entry
points, and `AppendUint64` panics on a slice with two spare bytes. -/
theorem C27_uint_encoding_witness :
    (∀ w : encbuf, writeUint 1024 w = { w with str := w.str ++ uintEncoding 1024 }) ∧
    WriteUint64To 1024 = some (uintEncoding 1024) ∧
    (∀ b : Slice, Uint64Size 1024 ≤ b.cap - b.data.length →
      AppendUint64 b 1024 = some { b with data := b.data ++ uintEncoding 1024 }) ∧
    (∀ b : Slice, b.cap - b.data.length < Uint64Size 1024 → AppendUint64 b 1024 = none) ∧
    Uint64Size 1024 = (uintEncoding 1024).length ∧
    (128 ≤ 1024 →
      intsize 1024 = (Nat.digits 256 1024).length ∧
      1024 < 256 ^ intsize 1024 ∧ 256 ^ (intsize 1024 - 1) ≤ 1024 ∧
      (Nat.digits 256 1024).reverse.head? ≠ some 0) :=
  C27_uint_encoding 1024 (by decide)

/-! ## Derivation paths: helper lemmas -/

/-- A digit of some base is no white space. -/
theorem isSpace_of_digit (c : Char) (h : digitVal c < 37) : isSpace c = false := by
  unfold digitVal at h
  unfold isSpace
  split_ifs at h <;> simp <;> omega

/-- The apostrophe is no white space. -/
theorem isSpace_apostrophe : isSpace apostrophe = false := by decide

/-- A string that neither starts nor ends with white space is left as it is. -/
theorem TrimSpace_eq_self (s : Str)
    (hhead : ∀ c, s.head? = some c → isSpace c = false)
    (hlast : ∀ c, s.getLast? = some c → isSpace c = false) : TrimSpace s = s := by
  unfold TrimSpace
  have h1 : s.dropWhile isSpace = s := by
    cases s with
    | nil => rfl
    | cons a t =>
      have := hhead a rfl
      simp [List.dropWhile, this]
  rw [h1]
  have h2 : s.reverse.dropWhile isSpace = s.reverse := by
    cases hr : s.reverse with
    | nil => rfl
    | cons a t =>
      have hl : s.getLast? = some a := by
        rw [← List.head?_reverse, hr]
        rfl
      have := hlast a hl
      simp [List.dropWhile, this]
  rw [h2, List.reverse_reverse]

/-- The digit loop on a string of digits of base `b` reads all of it. -/
theorem scanDigits_all (b : Nat) (ds : Str) (hds : ∀ c ∈ ds, digitVal c < b) (z count : Nat) :
    scanDigits b ds z count
      = (ds.foldl (fun z ch => z * b + digitVal ch) z, count + ds.length, []) := by
  induction ds generalizing z count with
  | nil => rfl
  | cons c t ih =>
    have hc : ¬ digitVal c ≥ b := by
      have := hds c (List.mem_cons_self _ _)
      omega
    have ht : ∀ c ∈ t, digitVal c < b := fun c hc => hds c (List.mem_cons_of_mem _ hc)
    simp only [scanDigits, hc, if_false, ih ht, List.foldl_cons, List.length_cons]
    congr 2
    omega

/-- A decimal numeral without a leading zero (or the numeral `0`) is read in base 10. -/
theorem SetString_decimal (ds : Str) (hne : ds ≠ []) (hds : ∀ c ∈ ds, digitVal c < 10)
    (hhead : ds.head? ≠ some '0' ∨ ds = ['0']) :
    SetString ds = some (numeralValue 10 ds : Int) := by
  rcases hhead with hhead | rfl
  · cases ds with
    | nil => exact absurd rfl hne
    | cons c t =>
      have hc := hds c (List.mem_cons_self _ _)
      have hminus : c ≠ '-' := by
        rintro rfl
        revert hc
        decide
      have hplus : c ≠ '+' := by
        rintro rfl
        revert hc
        decide
      have hzero : c ≠ '0' := fun h => hhead (by rw [h]; rfl)
      have hscan := scanDigits_all 10 (c :: t) hds 0 0
      simp [SetString, scanSign, natScan, hminus, hplus, hzero, hscan, numeralValue]
  · rfl

/-- A hexadecimal numeral after the prefix `0x` is read in base 16. -/
theorem SetString_hex (ds : Str) (hne : ds ≠ []) (hds : ∀ c ∈ ds, digitVal c < 16) :
    SetString ('0' :: 'x' :: ds) = some (numeralValue 16 ds : Int) := by
  have hscan := scanDigits_all 16 ds hds 0 0
  cases ds with
  | nil => exact absurd rfl hne
  | cons c t =>
    simp [SetString, scanSign, natScan, scanPrefixed, hscan, numeralValue]

/-- A decimal numeral after a minus sign is read as the negative number. -/
theorem SetString_minus (ds : Str) (hne : ds ≠ []) (hds : ∀ c ∈ ds, digitVal c < 10)
    (hhead : ds.head? ≠ some '0' ∨ ds = ['0']) :
    SetString ('-' :: ds) = some (-(numeralValue 10 ds : Int)) := by
  rcases hhead with hhead | rfl
  · cases ds with
    | nil => exact absurd rfl hne
    | cons c t =>
      have hzero : c ≠ '0' := fun h => hhead (by rw [h]; rfl)
      have hscan := scanDigits_all 10 (c :: t) hds 0 0
      simp only [SetString, scanSign, natScan, hzero, hscan, if_true, if_false]
      simp only [List.length_cons, Nat.zero_add, Nat.add_one_ne_zero, if_false, ne_eq,
        not_true_eq_false, true_and, numeralValue]
      split_ifs with h
      · rfl
      · have : List.foldl (fun z ch => z * 10 + digitVal ch) 0 (c :: t) = 0 := by omega
        rw [this]
        rfl
  · rfl

/-- The loop body on a component without the hardened mark. -/
theorem parseComponent_plain (c : Str) (hsuf : HasSuffix (TrimSpace c) = false) :
    parseComponent c
      = match SetString (TrimSpace c) with
        | none => .error (.invalidComponent (TrimSpace c))
        | some n =>
          if n < 0 ∨ n > 0xFFFFFFFF then .error (.outOfRange n 0xFFFFFFFF)
          else .ok n.toNat := by
  cases hs : SetString (TrimSpace c) with
  | none => simp [parseComponent, hsuf, hs]
  | some n =>
    by_cases hr : n < 0 ∨ n > 0xFFFFFFFF
    · simp [parseComponent, hsuf, hs, uint32Size, hr]
    · have hr2 : ¬ (n < 0 ∨ 4294967295 < n) := hr
      obtain ⟨m, rfl⟩ : ∃ m : Nat, n = m := Int.eq_ofNat_of_zero_le (by omega)
      simp only [parseComponent, hsuf, Bool.false_eq_true, if_false, if_true, hs, uint32Size,
        uint64Size]
      norm_num [hr2]
      split_ifs with h
      · rfl
      · congr 1
        omega

/-- The loop body on a component with the hardened mark. -/
theorem parseComponent_hardened (c : Str) (hsuf : HasSuffix (TrimSpace c) = true) :
    parseComponent c
      = match SetString (TrimSpace (TrimSuffix (TrimSpace c))) with
        | none => .error (.invalidComponent (TrimSpace (TrimSuffix (TrimSpace c))))
        | some n =>
          if n < 0 ∨ n > 0x7FFFFFFF then .error (.outOfHardenedRange n 0x7FFFFFFF)
          else .ok (0x80000000 + n.toNat) := by
  cases hs : SetString (TrimSpace (TrimSuffix (TrimSpace c))) with
  | none => simp [parseComponent, hsuf, hs]
  | some n =>
    by_cases hr : n < 0 ∨ n > 0x7FFFFFFF
    · simp [parseComponent, hsuf, hs, uint32Size, hr]
    · have hr2 : ¬ (n < 0 ∨ 2147483647 < n) := hr
      obtain ⟨m, rfl⟩ : ∃ m : Nat, n = m := Int.eq_ofNat_of_zero_le (by omega)
      simp only [parseComponent, hsuf, Bool.false_eq_true, if_false, if_true, hs, uint32Size,
        uint64Size]
      norm_num [hr2]
      split_ifs with h
      · rfl
      · congr 1
        omega

/-- The character that `fmt` writes for a decimal digit is read back as that digit. -/
theorem digitVal_digit (d : Nat) (hd : d < 10) : digitVal (Char.ofNat (48 + d)) = d := by
  interval_cases d <;> rfl

/-- Only the digit zero is written as the character zero. -/
theorem digit_ne_zero (d : Nat) (hd : d < 10) (hpos : 0 < d) : Char.ofNat (48 + d) ≠ '0' := by
  interval_cases d <;> decide

/-- The digit loop of `fmt` writes a decimal numeral for `u` in front of the buffer. -/
theorem fmtDecimalLoop_spec (fuel : Nat) : ∀ (u : Nat) (buf : Str), u ≤ fuel →
    ∃ ds : Str, fmtDecimalLoop fuel u buf = ds ++ buf ∧ ds ≠ [] ∧
      (∀ c ∈ ds, digitVal c < 10) ∧
      (ds.head? ≠ some '0' ∨ ds = ['0']) ∧
      (∀ z, ds.foldl (fun z ch => z * 10 + digitVal ch) z = z * 10 ^ ds.length + u) := by
  induction fuel with
  | zero =>
    intro u buf hu
    have hu0 : u = 0 := by omega
    subst hu0
    exact ⟨['0'], rfl, by simp, by decide, Or.inr rfl, fun z => by simp [digitVal]⟩
  | succ fuel ih =>
    intro u buf hu
    by_cases hbig : u ≥ 10
    · obtain ⟨ds, heq, hne, hdig, hhead, hval⟩ :=
        ih (u / 10) (Char.ofNat (48 + (u - u / 10 * 10)) :: buf) (by omega)
      have hd : u - u / 10 * 10 < 10 := by omega
      refine ⟨ds ++ [Char.ofNat (48 + (u - u / 10 * 10))], ?_, by simp, ?_, ?_, ?_⟩
      · simp only [fmtDecimalLoop, hbig, if_true, heq, List.append_assoc, List.singleton_append]
      · intro c hc
        rcases List.mem_append.mp hc with h | h
        · exact hdig c h
        · rw [List.mem_singleton.mp h, digitVal_digit _ hd]
          exact hd
      · left
        rcases hhead with h | h
        · cases ds with
          | nil => exact absurd rfl hne
          | cons a t => simpa using h
        · exfalso
          have := hval 0
          rw [h] at this
          simp [digitVal] at this
          omega
      · intro z
        rw [List.foldl_append, hval z]
        simp only [List.foldl_cons, List.foldl_nil, List.length_append, List.length_singleton,
          digitVal_digit _ hd, pow_succ]
        have : u / 10 * 10 + (u - u / 10 * 10) = u := by omega
        nlinarith [this]
    · have hd : u < 10 := by omega
      refine ⟨[Char.ofNat (48 + u)], ?_, by simp, ?_, ?_, ?_⟩
      · simp only [fmtDecimalLoop, hbig, if_false, List.singleton_append]
      · intro c hc
        rw [List.mem_singleton.mp hc, digitVal_digit _ hd]
        exact hd
      · by_cases h0 : u = 0
        · right
          rw [h0]
        · left
          simp only [List.head?_cons, ne_eq, Option.some.injEq]
          exact digit_ne_zero u hd (by omega)
      · intro z
        simp [digitVal_digit _ hd]

/-- The `%d` verb writes a decimal numeral for `u` without a leading zero. -/
theorem fmtDecimal_spec (u : Nat) :
    fmtDecimal u ≠ [] ∧ (∀ c ∈ fmtDecimal u, digitVal c < 10) ∧
    ((fmtDecimal u).head? ≠ some '0' ∨ fmtDecimal u = ['0']) ∧
    numeralValue 10 (fmtDecimal u) = u := by
  obtain ⟨ds, heq, hne, hdig, hhead, hval⟩ := fmtDecimalLoop_spec u u [] (Nat.le_refl u)
  have hds : fmtDecimal u = ds := by
    rw [fmtDecimal, heq, List.append_nil]
  rw [hds]
  refine ⟨hne, hdig, hhead, ?_⟩
  rw [numeralValue, hval 0]
  omega

/-- A string of digits is plain. -/
theorem plainChars_digits (ds : Str) (hds : ∀ c ∈ ds, digitVal c < 37) : plainChars ds := by
  intro c hc
  refine ⟨isSpace_of_digit c (hds c hc), ?_, ?_⟩
  · rintro rfl
    exact absurd (hds _ hc) (by decide)
  · rintro rfl
    exact absurd (hds _ hc) (by decide)

/-- A plain string needs no trimming and carries no hardened mark. -/
theorem plainChars_trim (s : Str) (hs : plainChars s) :
    TrimSpace s = s ∧ HasSuffix s = false := by
  constructor
  · apply TrimSpace_eq_self
    · intro c hc
      exact (hs c (List.mem_of_mem_head? hc)).1
    · intro c hc
      exact (hs c (List.mem_of_mem_getLast? hc)).1
  · cases hl : s.getLast? with
    | none => simp [HasSuffix, hl]
    | some c =>
      have := (hs c (List.mem_of_mem_getLast? hl)).2.1
      simp [HasSuffix, hl, this]

/-- A plain string with the hardened mark appended is trimmed back to the plain string. -/
theorem plainChars_hardened (s : Str) (hs : plainChars s) :
    TrimSpace (s ++ [apostrophe]) = s ++ [apostrophe] ∧
    HasSuffix (s ++ [apostrophe]) = true ∧
    TrimSpace (TrimSuffix (s ++ [apostrophe])) = s := by
  have hsuf : HasSuffix (s ++ [apostrophe]) = true := by simp [HasSuffix]
  refine ⟨?_, hsuf, ?_⟩
  · apply TrimSpace_eq_self
    · intro c hc
      have hmem := List.mem_of_mem_head? hc
      rcases List.mem_append.mp hmem with h | h
      · exact (hs c h).1
      · rw [List.mem_singleton.mp h]
        exact isSpace_apostrophe
    · intro c hc
      have hc2 : c = apostrophe := by simpa [List.getLast?_append] using hc.symm
      rw [hc2]
      exact isSpace_apostrophe
  · simp only [TrimSuffix, hsuf, if_true, List.dropLast_concat]
    exact (plainChars_trim s hs).1

/-- A plain numeral for `n` as a component. -/
theorem parseComponent_numeral (s : Str) (n : Int) (hplain : plainChars s)
    (hs : SetString s = some n) :
    parseComponent s
      = if n < 0 ∨ n > 0xFFFFFFFF then .error (.outOfRange n 0xFFFFFFFF)
        else .ok n.toNat := by
  obtain ⟨htrim, hsuf⟩ := plainChars_trim s hplain
  rw [parseComponent_plain s (by rw [htrim]; exact hsuf), htrim, hs]

/-- A hardened numeral for `n` as a component. -/
theorem parseComponent_numeral_hardened (s : Str) (n : Int) (hplain : plainChars s)
    (hs : SetString s = some n) :
    parseComponent (s ++ [apostrophe])
      = if n < 0 ∨ n > 0x7FFFFFFF then .error (.outOfHardenedRange n 0x7FFFFFFF)
        else .ok (0x80000000 + n.toNat) := by
  obtain ⟨htrim, hsuf, hbody⟩ := plainChars_hardened s hplain
  rw [parseComponent_hardened _ (by rw [htrim]; exact hsuf), htrim, hbody, hs]

/-- A component that the loop body accepts is neither empty nor the root mark `m`. -/
theorem parseComponent_ok_first (c : Str) (v : Nat) (h : parseComponent c = .ok v) :
    TrimSpace c ≠ [] ∧ TrimSpace c ≠ ['m'] := by
  constructor
  · intro he
    unfold parseComponent at h
    rw [he] at h
    have h2 : (Except.error (PathError.invalidComponent []) : Except PathError Nat) = .ok v := h
    cases h2
  · intro he
    unfold parseComponent at h
    rw [he] at h
    have h2 : (Except.error (PathError.invalidComponent ['m']) : Except PathError Nat) = .ok v := h
    cases h2

/-- The loop over accepted components appends their values in order. -/
theorem parseComponents_ok (cs : List Str) (vs : List Nat)
    (h : List.Forall₂ (fun c v => parseComponent c = .ok v) cs vs) (result : DerivationPath) :
    parseComponents cs result = (result ++ vs, none) := by
  induction h generalizing result with
  | nil => simp [parseComponents]
  | cons hcv _ ih => simp [parseComponents, hcv, ih]

/-- The loop either fails with the `nil` path or appends one value per component. -/
theorem parseComponents_cases (cs : List Str) (result : DerivationPath) :
    (∃ err, parseComponents cs result = ([], some err)) ∨
    (∃ vs, List.Forall₂ (fun c v => parseComponent c = .ok v) cs vs ∧
      parseComponents cs result = (result ++ vs, none)) := by
  induction cs generalizing result with
  | nil => exact Or.inr ⟨[], List.Forall₂.nil, by simp [parseComponents]⟩
  | cons c t ih =>
    cases hc : parseComponent c with
    | error err => exact Or.inl ⟨err, by simp [parseComponents, hc]⟩
    | ok v =>
      rcases ih (result ++ [v]) with ⟨err, he⟩ | ⟨vs, hvs, he⟩
      · exact Or.inl ⟨err, by simp [parseComponents, hc, he]⟩
      · exact Or.inr ⟨v :: vs, List.Forall₂.cons hc hvs, by simp [parseComponents, hc, he]⟩

/-- The loop fails as soon as one of the components is rejected. -/
theorem parseComponents_rejects (cs : List Str) (c : Str) (hc : c ∈ cs)
    (hbad : ∀ v, parseComponent c ≠ .ok v) (result : DerivationPath) :
    ∃ err, parseComponents cs result = ([], some err) := by
  rcases parseComponents_cases cs result with h | ⟨vs, hvs, -⟩
  · exact h
  · exfalso
    induction hvs with
    | nil => cases hc
    | cons hcv _ ih =>
      rcases List.mem_cons.mp hc with rfl | hmem
      · exact hbad _ hcv
      · exact ih hmem

/-- Splitting a joined list of components that hold no `/` gives the components back. -/
theorem Split_intercalate (cs : List Str) (hne : cs ≠ []) (hslash : ∀ c ∈ cs, '/' ∉ c) :
    Split (['/'].intercalate cs) = cs :=
  List.splitOn_intercalate cs '/' hslash hne

/-- The text `m/` in front of a joined non-empty list is the joined list with `m` first. -/
theorem intercalate_root (cs : List Str) (hne : cs ≠ []) :
    'm' :: '/' :: ['/'].intercalate cs = ['/'].intercalate (['m'] :: cs) := by
  cases cs with
  | nil => exact absurd rfl hne
  | cons c t => simp [List.intercalate, List.intersperse]

/-- An absolute path of accepted components parses to their values. -/
theorem parse_absolute (cs : List Str) (vs : List Nat) (hne : cs ≠ [])
    (hslash : ∀ c ∈ cs, '/' ∉ c)
    (hvalid : List.Forall₂ (fun c v => parseComponent c = .ok v) cs vs) :
    ParseDerivationPath (['/'].intercalate (['m'] :: cs)) = (vs, none) := by
  have hsplit : Split (['/'].intercalate (['m'] :: cs)) = ['m'] :: cs := by
    apply Split_intercalate _ (by simp)
    intro c hc
    rcases List.mem_cons.mp hc with rfl | h
    · decide
    · exact hslash c h
  have hm : TrimSpace ['m'] = ['m'] := by decide
  have hlen : cs.length ≠ 0 := fun h => hne (List.length_eq_zero.mp h)
  simp only [ParseDerivationPath, hsplit, hm]
  simp [hlen, parseComponents_ok cs vs hvalid]

/-- A relative path of accepted components parses to the root path and their values. -/
theorem parse_relative (cs : List Str) (vs : List Nat) (hne : cs ≠ [])
    (hslash : ∀ c ∈ cs, '/' ∉ c)
    (hvalid : List.Forall₂ (fun c v => parseComponent c = .ok v) cs vs) :
    ParseDerivationPath (['/'].intercalate cs) = (DefaultRootDerivationPath ++ vs, none) := by
  have hsplit := Split_intercalate cs hne hslash
  cases hvalid with
  | nil => exact absurd rfl hne
  | cons hcv htl =>
    rename_i c v t vt
    obtain ⟨h1, h2⟩ := parseComponent_ok_first c v hcv
    simp only [ParseDerivationPath, hsplit]
    simp [h1, h2, parseComponents_ok (c :: t) (v :: vt) (List.Forall₂.cons hcv htl)]

/-- C22: for every non-empty list `cs` of components without `/` that the loop body
accepts with the values `vs`, the absolute path `m/` followed by the components joined
with `/` parses to exactly `vs`, one number per component, and the relative path (the
same text without `m/`) parses to `DefaultRootDerivationPath` followed by the result of
the absolute path. -/
theorem C22_relative_versus_absolute (cs : List Str) (vs : List Nat) (hne : cs ≠ [])
    (hslash : ∀ c ∈ cs, '/' ∉ c)
    (hvalid : List.Forall₂ (fun c v => parseComponent c = .ok v) cs vs) :
    ParseDerivationPath ('m' :: '/' :: ['/'].intercalate cs) = (vs, none) ∧
    vs.length = cs.length ∧
    ParseDerivationPath (['/'].intercalate cs)
      = (DefaultRootDerivationPath
          ++ (ParseDerivationPath ('m' :: '/' :: ['/'].intercalate cs)).1, none) := by
  have habs : ParseDerivationPath ('m' :: '/' :: ['/'].intercalate cs) = (vs, none) := by
    rw [intercalate_root cs hne]
    exact parse_absolute cs vs hne hslash hvalid
  refine ⟨habs, hvalid.length_eq.symm, ?_⟩
  rw [habs]
  exact parse_relative cs vs hne hslash hvalid

/-- C22 at the components `44'`, `0x10` and ` 7 `: `m/44'/0x10/ 7 ` parses to three
numbers and `44'/0x10/ 7 ` to the root path followed by them. -/
theorem C22_relative_versus_absolute_witness :
    ParseDerivationPath
        ('m' :: '/' :: ['/'].intercalate ["44'".toList, "0x10".toList, " 7 ".toList])
      = ([0x80000000 + 44, 16, 7], none) ∧
    [0x80000000 + 44, 16, 7].length = ["44'".toList, "0x10".toList, " 7 ".toList].length ∧
    ParseDerivationPath (['/'].intercalate ["44'".toList, "0x10".toList, " 7 ".toList])
      = (DefaultRootDerivationPath
          ++ (ParseDerivationPath
              ('m' :: '/' :: ['/'].intercalate ["44'".toList, "0x10".toList, " 7 ".toList])).1,
          none) :=
  C22_relative_versus_absolute ["44'".toList, "0x10".toList, " 7 ".toList]
    [0x80000000 + 44, 16, 7] (by decide) (by decide)
    (List.Forall₂.cons rfl (List.Forall₂.cons rfl (List.Forall₂.cons rfl List.Forall₂.nil)))

/-- The outcome of `ParseDerivationPath`: an error with the `nil` path, or no error and
a path that is not empty. -/
theorem ParseDerivationPath_cases (s : Str) :
    (∃ err, ParseDerivationPath s = ([], some err)) ∨
    (∃ p, p ≠ [] ∧ ParseDerivationPath s = (p, none)) := by
  unfold ParseDerivationPath
  cases hsplit : Split s with
  | nil => exact Or.inl ⟨_, rfl⟩
  | cons first rest =>
    by_cases h1 : TrimSpace first = []
    · exact Or.inl ⟨.ambiguousPath, by simp [h1]⟩
    · by_cases h2 : TrimSpace first = ['m']
      · cases rest with
        | nil => exact Or.inl ⟨.emptyPath, by simp [h1, h2]⟩
        | cons c t =>
          rcases parseComponents_cases (c :: t) [] with ⟨err, he⟩ | ⟨vs, hvs, he⟩
          · exact Or.inl ⟨err, by simp [h1, h2, he]⟩
          · refine Or.inr ⟨vs, ?_, by simp [h1, h2, he]⟩
            intro hnil
            rw [hnil] at hvs
            cases hvs
      · rcases parseComponents_cases (first :: rest) DefaultRootDerivationPath with
          ⟨err, he⟩ | ⟨vs, hvs, he⟩
        · exact Or.inl ⟨err, by simp [h1, h2, he]⟩
        · refine Or.inr ⟨DefaultRootDerivationPath ++ vs, ?_, by simp [h1, h2, he]⟩
          simp [DefaultRootDerivationPath]

/-- A path with a rejected component after the first one is rejected. -/
theorem ParseDerivationPath_rejects (s first c : Str) (rest : List Str)
    (hsplit : Split s = first :: rest) (hc : c ∈ rest)
    (hbad : ∀ v, parseComponent c ≠ .ok v) :
    ∃ err, ParseDerivationPath s = ([], some err) := by
  unfold ParseDerivationPath
  rw [hsplit]
  by_cases h1 : TrimSpace first = []
  · exact ⟨.ambiguousPath, by simp [h1]⟩
  · have hlen : rest.length ≠ 0 := by
      intro h
      rw [List.length_eq_zero.mp h] at hc
      cases hc
    by_cases h2 : TrimSpace first = ['m']
    · obtain ⟨err, he⟩ := parseComponents_rejects rest c hc hbad []
      exact ⟨err, by simp [h1, h2, hlen, he]⟩
    · obtain ⟨err, he⟩ := parseComponents_rejects (first :: rest) c
        (List.mem_cons_of_mem _ hc) hbad DefaultRootDerivationPath
      exact ⟨err, by simp [h1, h2, he]⟩

/-- C24: `ParseDerivationPath` returns an error for the empty string, for `m` alone, for
`m/`, for `/44'/6060'/0'/0`, for every path that starts with `/` and more generally for
every path `s` whose first component is empty or white space, and for every path with a
component that is empty or white space; whenever it returns an error the path is `nil`,
and whenever it returns no error the path is not empty. -/
theorem C24_malformed_paths_rejected (s : Str) :
    ParseDerivationPath [] = ([], some .ambiguousPath) ∧
    ParseDerivationPath "m".toList = ([], some .emptyPath) ∧
    ParseDerivationPath "m/".toList = ([], some (.invalidComponent [])) ∧
    ParseDerivationPath "/44'/6060'/0'/0".toList = ([], some .ambiguousPath) ∧
    ParseDerivationPath ('/' :: s) = ([], some .ambiguousPath) ∧
    ((∀ first ∈ (Split s).head?, TrimSpace first = []) →
      ParseDerivationPath s = ([], some .ambiguousPath)) ∧
    ((∃ c ∈ Split s, TrimSpace c = []) → ∃ err, ParseDerivationPath s = ([], some err)) ∧
    ((ParseDerivationPath s).2 ≠ none → (ParseDerivationPath s).1 = []) ∧
    ((ParseDerivationPath s).2 = none → (ParseDerivationPath s).1 ≠ []) := by
  have hfirst : ∀ t : Str, (∀ first ∈ (Split t).head?, TrimSpace first = []) →
      ParseDerivationPath t = ([], some .ambiguousPath) := by
    intro t ht
    have hne : Split t ≠ [] := List.splitOnP_ne_nil _ _
    cases hsplit : Split t with
    | nil => exact absurd hsplit hne
    | cons first rest =>
      have h1 : TrimSpace first = [] := ht first (by rw [hsplit]; rfl)
      simp [ParseDerivationPath, hsplit, h1]
  refine ⟨rfl, rfl, rfl, rfl, ?_, hfirst s, ?_, ?_, ?_⟩
  · apply hfirst
    intro first hf
    have hsplit : Split ('/' :: s) = [] :: Split s := by
      simp [Split, List.splitOn, List.splitOnP_cons]
    rw [hsplit] at hf
    cases hf
    rfl
  · rintro ⟨c, hc, hempty⟩
    have hbad : ∀ v, parseComponent c ≠ .ok v :=
      fun v hv => (parseComponent_ok_first c v hv).1 hempty
    cases hsplit : Split s with
    | nil => rw [hsplit] at hc; cases hc
    | cons first rest =>
      rw [hsplit] at hc
      rcases List.mem_cons.mp hc with rfl | hmem
      · exact ⟨_, hfirst s (by intro f hf; rw [hsplit] at hf; cases hf; exact hempty)⟩
      · exact ParseDerivationPath_rejects s first c rest hsplit hmem hbad
  · intro herr
    rcases ParseDerivationPath_cases s with ⟨err, he⟩ | ⟨p, _, he⟩
    · rw [he]
    · rw [he] at herr
      exact absurd rfl herr
  · intro hok
    rcases ParseDerivationPath_cases s with ⟨err, he⟩ | ⟨p, hp, he⟩
    · rw [he] at hok
      cases hok
    · rw [he]
      exact hp

/-- A loop that appends `/` and the text of each component. -/
theorem String_foldl (f : Str → Nat → Str)
    (hf : ∀ result c, f result c = result ++ '/' :: componentText c)
    (p : DerivationPath) (acc : Str) :
    p.foldl f acc = acc ++ (p.map (fun c => '/' :: componentText c)).flatten := by
  induction p generalizing acc with
  | nil => simp
  | cons c t ih =>
    rw [List.foldl_cons, ih, hf]
    simp

/-- Joining with `/` puts a `/` in front of every element but the first. -/
theorem intercalate_cons (a : Str) (l : List Str) :
    ['/'].intercalate (a :: l) = a ++ (l.map (fun c => '/' :: c)).flatten := by
  induction l generalizing a with
  | nil => simp [List.intercalate]
  | cons b t ih =>
    have := ih b
    simp only [List.intercalate, List.intersperse, List.flatten_cons, List.map_cons] at this ⊢
    rw [this]
    simp

/-- One step of the loop of `String`, for any value `k` of the hardened bit. -/
theorem String_step (k : Nat) (result : Str) (c : Nat) :
    (let hardened := decide (c ≥ k)
     let component := if hardened then c - k else c
     let result := result ++ ['/'] ++ fmtDecimal component
     if hardened then result ++ [apostrophe] else result)
      = result ++ '/' :: (if c ≥ k then fmtDecimal (c - k) ++ [apostrophe] else fmtDecimal c) := by
  by_cases h : c ≥ k
  · simp [h]
  · simp [h]

/-- The text of a path is `m` and the texts of its components, joined with `/`. -/
theorem String_eq (p : DerivationPath) :
    p.String = ['/'].intercalate (['m'] :: p.map componentText) := by
  rw [DerivationPath.String, String_foldl _ (fun result c => String_step 0x80000000 result c) p,
    intercalate_cons, List.map_map]
  rfl

/-- The text of a component is parsed back to the component. -/
theorem parseComponent_componentText (c : Nat) (hc : c < uint32Size) :
    parseComponent (componentText c) = .ok c ∧ '/' ∉ componentText c := by
  unfold uint32Size at hc
  by_cases h : c ≥ 0x80000000
  · obtain ⟨hne, hds, hhead, hval⟩ := fmtDecimal_spec (c - 0x80000000)
    have hpl := plainChars_digits _ (fun ch hm => by have := hds ch hm; omega)
    have hset := SetString_decimal _ hne hds hhead
    rw [hval] at hset
    constructor
    · simp only [componentText, h, if_true]
      rw [parseComponent_numeral_hardened _ _ hpl hset, if_neg (by omega), Int.toNat_ofNat]
      exact congrArg Except.ok (by omega)
    · simp only [componentText, h, if_true, List.mem_append, List.mem_singleton, not_or]
      exact ⟨fun hm => (hpl _ hm).2.2 rfl, by decide⟩
  · obtain ⟨hne, hds, hhead, hval⟩ := fmtDecimal_spec c
    have hpl := plainChars_digits _ (fun ch hm => by have := hds ch hm; omega)
    have hset := SetString_decimal _ hne hds hhead
    rw [hval] at hset
    constructor
    · simp only [componentText, h, if_false]
      rw [parseComponent_numeral _ _ hpl hset, if_neg (by omega), Int.toNat_ofNat]
    · simp only [componentText, h, if_false]
      exact fun hm => (hpl _ hm).2.2 rfl

/-- The text of a non-empty path of `uint32` components is parsed back to the path. -/
theorem parse_String (p : DerivationPath) (hne : p ≠ []) (h32 : ∀ c ∈ p, c < uint32Size) :
    ParseDerivationPath p.String = (p, none) := by
  rw [String_eq]
  apply parse_absolute (p.map componentText) p (by simpa using hne)
  · intro c hc
    obtain ⟨x, hx, rfl⟩ := List.mem_map.mp hc
    exact (parseComponent_componentText x (h32 x hx)).2
  · rw [List.forall₂_map_left_iff, List.forall₂_same]
    intro x hx
    exact (parseComponent_componentText x (h32 x hx)).1

/-- The JSON model reads back what it wrote. -/
theorem sampleJson_round_trip (s : Str) : sampleJsonUnmarshal (sampleJsonMarshal s) = some s := by
  simp [sampleJsonUnmarshal, sampleJsonMarshal, List.getLast?_append, Function.comp_def]

/-- C29: for every non-empty path `p` of `uint32` components, `ParseDerivationPath`
applied to `p.String()` returns `p` and no error; and whenever `json.Unmarshal` reads
back the string that `json.Marshal` wrote, `UnmarshalJSON` applied to `MarshalJSON(p)`
sets the receiver to `p` and returns no error. -/
theorem C29_string_parse_round_trip (p : DerivationPath) (hne : p ≠ [])
    (h32 : ∀ c ∈ p, c < uint32Size) :
    ParseDerivationPath p.String = (p, none) ∧
    ∀ (jsonMarshal : Str → Bytes) (jsonUnmarshal : Bytes → Option Str) (old : DerivationPath),
      (∀ s, jsonUnmarshal (jsonMarshal s) = some s) →
      DerivationPath.UnmarshalJSON jsonUnmarshal old (DerivationPath.MarshalJSON jsonMarshal p)
        = (p, none) := by
  refine ⟨parse_String p hne h32, ?_⟩
  intro jsonMarshal jsonUnmarshal old hjson
  simp only [DerivationPath.UnmarshalJSON, DerivationPath.MarshalJSON, hjson,
    parse_String p hne h32, Option.map_none']

/-- C29 at the path `m/44'/6060'/0'/0/4294967295`: the text is parsed back, also through
a JSON model that writes the code points of the string between two quotes. -/
theorem C29_string_parse_round_trip_witness :
    ParseDerivationPath
        (DerivationPath.String [0x80000000 + 44, 0x80000000 + 6060, 0x80000000, 0, 7])
      = ([0x80000000 + 44, 0x80000000 + 6060, 0x80000000, 0, 7], none) ∧
    DerivationPath.UnmarshalJSON sampleJsonUnmarshal []
        (DerivationPath.MarshalJSON sampleJsonMarshal
          [0x80000000 + 44, 0x80000000 + 6060, 0x80000000, 0, 7])
      = ([0x80000000 + 44, 0x80000000 + 6060, 0x80000000, 0, 7], none) :=
  have h := C29_string_parse_round_trip [0x80000000 + 44, 0x80000000 + 6060, 0x80000000, 0, 7]
    (by decide) (by decide)
  ⟨h.1, h.2 sampleJsonMarshal sampleJsonUnmarshal [] sampleJson_round_trip⟩

/-! ## List headers under nesting: helper lemmas -/

/-- The header of the specification has the size that `headsize` computes. -/
theorem listHeader_length (n : Nat) : (listHeader n).length = headsize n := by
  unfold listHeader headsize
  by_cases h : n < 56
  · simp [h]
  · simp only [h, if_false, List.length_cons, List.length_reverse]
    rw [intsize_eq_digits_length n (by omega)]
    omega

/-- `puthead` writes the header of the specification in front of a buffer with room. -/
theorem puthead_eq (buf : Bytes) (size : Nat) (hsize : size < 2 ^ 64)
    (hroom : headsize size ≤ buf.length) :
    puthead buf 0xC0 0xF7 size = some (listHeader size ++ buf.drop (headsize size), headsize size) := by
  unfold headsize at hroom ⊢
  unfold puthead listHeader
  by_cases h : size < 56
  · simp only [h, if_true] at hroom ⊢
    cases buf with
    | nil => simp at hroom
    | cons a rest =>
      have hb : byte (0xC0 + byte size) = 0xC0 + size := by
        unfold byte
        omega
      simp [hb]
  · simp only [h, if_false] at hroom ⊢
    have hpos : 0 < size := by omega
    have hlen := putintBytes_length size hpos hsize
    have hbytes := putintBytes_eq size hpos hsize
    have hdig := intsize_eq_digits_length size hpos
    have hle := putintBytes_length_le size
    cases buf with
    | nil => simp at hroom
    | cons a rest =>
      have hfit : (putintBytes size).length ≤ rest.length := by
        simp only [List.length_cons] at hroom
        omega
      have hb : byte (0xF7 + byte (putintBytes size).length) = 0xF7 + (putintBytes size).length := by
        unfold byte
        omega
      simp only [putint, hfit, if_true, hb]
      rw [hbytes, List.length_reverse, hdig]
      simp only [List.cons_append, Nat.add_comm 1, List.drop_succ_cons]

/-- The length of the encoding: the string data and the headers. -/
theorem Calls.encoding_length (c : Calls) :
    c.encoding.length = c.strData.length + c.headerSize := by
  induction c with
  | done => rfl
  | write b rest ih =>
    simp only [Calls.encoding, Calls.strData, Calls.headerSize, List.length_append, ih]
    omega
  | list inner rest ih1 ih2 =>
    simp only [Calls.encoding, Calls.strData, Calls.headerSize, List.length_append, ih1, ih2,
      listHeader_length]
    omega

/-- The buffer after a sequence of calls: the string data and the headers are appended
and the header sizes are added up. -/
theorem Calls.run_eq (c : Calls) : ∀ w : encbuf,
    c.run w = { str := w.str ++ c.strData, lheads := w.lheads ++ c.heads w.str.length,
                lhsize := w.lhsize + c.headerSize } := by
  induction c with
  | done =>
    intro w
    simp [Calls.run, Calls.strData, Calls.heads, Calls.headerSize]
  | write b rest ih =>
    intro w
    simp [Calls.run, Calls.strData, Calls.heads, Calls.headerSize, ih, encbuf.Write]
  | list inner rest ih1 ih2 =>
    intro w
    have hlen := Calls.encoding_length inner
    simp only [Calls.run, encbuf.list, ih1]
    have hget : (w.lheads ++ [(⟨w.str.length, w.lhsize⟩ : listhead)]
        ++ inner.heads w.str.length)[w.lheads.length]?
          = some ⟨w.str.length, w.lhsize⟩ := by
      rw [List.append_assoc, List.getElem?_append_right (Nat.le_refl _)]
      simp
    have hset : (w.lheads ++ [(⟨w.str.length, w.lhsize⟩ : listhead)]
        ++ inner.heads w.str.length).set w.lheads.length
          ⟨w.str.length, inner.encoding.length⟩
        = w.lheads ++ [(⟨w.str.length, inner.encoding.length⟩ : listhead)]
          ++ inner.heads w.str.length := by
      rw [List.append_assoc, List.set_append_right _ _ (Nat.le_refl _)]
      simp
    have hsize : (w.str ++ inner.strData).length + (w.lhsize + inner.headerSize)
        - w.str.length - w.lhsize = inner.encoding.length := by
      rw [hlen, List.length_append]
      omega
    simp only [encbuf.listEnd, hget, encbuf.size, hsize, hset]
    by_cases h : inner.encoding.length < 56
    · simp only [h, if_true, ih2, Calls.strData, Calls.heads, Calls.headerSize, headsize]
      simp [Nat.add_assoc, Nat.add_comm, Nat.add_left_comm]
    · simp only [h, if_false, ih2, Calls.strData, Calls.heads, Calls.headerSize, headsize]
      simp [Nat.add_assoc, Nat.add_comm, Nat.add_left_comm]

/-- The loop of `toBytes` on an output buffer `done ++ room` with `done` already written:
with headers at ascending offsets inside the string data and enough room, it does not
panic and writes into the room the rendering of the headers, up to the string data that
follows the last header. -/
theorem toBytesLoop_eq (str : Bytes) : ∀ (heads : List listhead) (done room : Bytes)
    (strpos : Nat),
    (∀ h ∈ heads, strpos ≤ h.offset ∧ h.offset ≤ str.length ∧ h.size < 2 ^ 64) →
    heads.Pairwise (fun a b => a.offset ≤ b.offset) →
    strpos ≤ str.length →
    (renderHeads str heads strpos).length ≤ room.length →
    ∃ (written : Bytes) (strpos' : Nat),
      toBytesLoop str heads (done ++ room) done.length strpos
        = some (done ++ written ++ room.drop written.length,
            done.length + written.length, strpos') ∧
      strpos' ≤ str.length ∧
      written ++ str.drop strpos' = renderHeads str heads strpos := by
  intro heads
  induction heads with
  | nil =>
    intro done room strpos _ _ hstrpos _
    exact ⟨[], strpos, by simp [toBytesLoop], hstrpos, by simp [renderHeads]⟩
  | cons h t ih =>
    intro done room strpos hheads hsorted hstrpos hroom
    obtain ⟨h1, h2, h3⟩ := hheads h (List.mem_cons_self _ _)
    obtain ⟨hht, hsorted'⟩ := List.pairwise_cons.mp hsorted
    have hsrc : ((str.drop strpos).take (h.offset - strpos)).length = h.offset - strpos := by
      rw [List.length_take, List.length_drop]
      omega
    simp only [renderHeads, List.length_append, hsrc, listHeader_length] at hroom
    have hput := puthead_eq (room.drop (h.offset - strpos)) h.size h3
      (by rw [List.length_drop]; omega)
    have hcopy : copyAt (done ++ room) done.length ((str.drop strpos).take (h.offset - strpos))
        = done ++ (str.drop strpos).take (h.offset - strpos)
            ++ room.drop (h.offset - strpos) := by
      unfold copyAt
      rw [hsrc, List.take_left', List.length_append, Nat.add_sub_cancel_left,
        List.take_of_length_le (by rw [hsrc]; omega), List.drop_append]
      rfl
    have hmin : min ((done ++ room).length - done.length)
        ((str.drop strpos).take (h.offset - strpos)).length = h.offset - strpos := by
      rw [hsrc, List.length_append]
      omega
    have hdrop : (done ++ (str.drop strpos).take (h.offset - strpos)
        ++ room.drop (h.offset - strpos)).drop (done.length + (h.offset - strpos))
          = room.drop (h.offset - strpos) := by
      rw [List.drop_left']
      rw [List.length_append, hsrc]
    have htake : (done ++ (str.drop strpos).take (h.offset - strpos)
        ++ room.drop (h.offset - strpos)).take (done.length + (h.offset - strpos))
          = done ++ (str.drop strpos).take (h.offset - strpos) := by
      rw [List.take_left']
      rw [List.length_append, hsrc]
    obtain ⟨written, strpos', hloop, hs', hw⟩ := ih
      (done ++ (str.drop strpos).take (h.offset - strpos) ++ listHeader h.size)
      (room.drop (h.offset - strpos + headsize h.size))
      h.offset
      (fun b hb => ⟨hht b hb, (hheads b (List.mem_cons_of_mem _ hb)).2⟩)
      hsorted' h2
      (by rw [List.length_drop]; omega)
    refine ⟨(str.drop strpos).take (h.offset - strpos) ++ listHeader h.size ++ written,
      strpos', ?_, hs', ?_⟩
    · have hcond : strpos ≤ h.offset ∧ h.offset ≤ str.length ∧ done.length ≤ (done ++ room).length := by
        refine ⟨h1, h2, ?_⟩
        rw [List.length_append]
        omega
      simp only [toBytesLoop, hcond, and_self, if_true, hcopy, hmin, hdrop, htake, hput]
      have hsp : strpos + (h.offset - strpos) = h.offset := by omega
      simp only [hsp, List.drop_drop]
      have hassoc : done ++ (str.drop strpos).take (h.offset - strpos)
          ++ (listHeader h.size ++ room.drop (h.offset - strpos + headsize h.size))
          = (done ++ (str.drop strpos).take (h.offset - strpos) ++ listHeader h.size)
            ++ room.drop (h.offset - strpos + headsize h.size) := by
        simp only [List.append_assoc]
      have hpos : done.length + (h.offset - strpos) + headsize h.size
          = (done ++ (str.drop strpos).take (h.offset - strpos) ++ listHeader h.size).length := by
        simp only [List.length_append, hsrc, listHeader_length]
      rw [hassoc, hpos, hloop]
      simp only [List.length_append, hsrc, listHeader_length, List.append_assoc, List.drop_drop,
        Nat.add_assoc, Nat.add_comm, Nat.add_left_comm]
    · simp only [renderHeads, List.append_assoc, hw]

/-- The headers of a sequence of calls lie inside its string data and carry at most the
length of its encoding. -/
theorem Calls.heads_bounds (c : Calls) : ∀ (offset : Nat), ∀ h ∈ c.heads offset,
    offset ≤ h.offset ∧ h.offset ≤ offset + c.strData.length ∧ h.size ≤ c.encoding.length := by
  induction c with
  | done =>
    intro offset h hmem
    cases hmem
  | write b rest ih =>
    intro offset h hmem
    obtain ⟨h1, h2, h3⟩ := ih (offset + b.length) h hmem
    simp only [Calls.strData, Calls.encoding, List.length_append]
    omega
  | list inner rest ih1 ih2 =>
    intro offset h hmem
    simp only [Calls.strData, Calls.encoding, List.length_append]
    rcases List.mem_cons.mp hmem with rfl | hmem
    · simp only
      omega
    · rcases List.mem_append.mp hmem with hm | hm
      · obtain ⟨h1, h2, h3⟩ := ih1 offset h hm
        omega
      · obtain ⟨h1, h2, h3⟩ := ih2 (offset + inner.strData.length) h hm
        omega

/-- The headers of a sequence of calls come at ascending offsets. -/
theorem Calls.heads_sorted (c : Calls) : ∀ (offset : Nat),
    (c.heads offset).Pairwise (fun a b => a.offset ≤ b.offset) := by
  induction c with
  | done =>
    intro offset
    exact List.Pairwise.nil
  | write b rest ih =>
    intro offset
    exact ih (offset + b.length)
  | list inner rest ih1 ih2 =>
    intro offset
    simp only [Calls.heads]
    refine List.pairwise_cons.mpr ⟨?_, List.pairwise_append.mpr ⟨ih1 _, ih2 _, ?_⟩⟩
    · intro b hb
      rcases List.mem_append.mp hb with hm | hm
      · exact (Calls.heads_bounds inner offset b hm).1
      · have := (Calls.heads_bounds rest _ b hm).1
        simp only
        omega
    · intro a ha b hb
      have h1 := (Calls.heads_bounds inner offset a ha).2.1
      have h2 := (Calls.heads_bounds rest _ b hb).1
      omega

/-- The rendering may start later when the skipped string data is written first. -/
theorem renderHeads_shift (str : Bytes) (heads : List listhead) (a b : Nat) (hab : a ≤ b)
    (hheads : ∀ h ∈ heads, b ≤ h.offset) :
    renderHeads str heads a = (str.drop a).take (b - a) ++ renderHeads str heads b := by
  have hsplit : ∀ n, b ≤ n → (str.drop a).take (n - a)
      = (str.drop a).take (b - a) ++ (str.drop b).take (n - b) := by
    intro n hn
    have h1 : n - a = (b - a) + (n - b) := by omega
    have h2 : b = a + (b - a) := by omega
    rw [h1, List.take_add, List.drop_drop]
    congr 3
    omega
  cases heads with
  | nil =>
    simp only [renderHeads]
    have h2 : b = a + (b - a) := by omega
    conv_lhs => rw [← List.take_append_drop (b - a) (str.drop a)]
    rw [List.drop_drop]
    congr 2
    omega
  | cons h t =>
    have := hheads h (List.mem_cons_self _ _)
    simp only [renderHeads, hsplit h.offset this, List.append_assoc]

/-- The rendering of the headers of a sequence of calls whose string data stands at the
offset `pre.length` is the encoding of the sequence. -/
theorem Calls.renderHeads_eq (c : Calls) : ∀ (str pre post : Bytes) (rest : List listhead),
    str = pre ++ c.strData ++ post →
    (∀ h ∈ rest, pre.length + c.strData.length ≤ h.offset) →
    renderHeads str (c.heads pre.length ++ rest) pre.length
      = c.encoding ++ renderHeads str rest (pre.length + c.strData.length) := by
  induction c with
  | done =>
    intro str pre post rest _ _
    simp [Calls.heads, Calls.encoding, Calls.strData]
  | write b r ih =>
    intro str pre post rest hstr hrest
    simp only [Calls.strData, List.length_append] at hrest
    have hstr' : str = (pre ++ b) ++ r.strData ++ post := by
      simp [hstr, Calls.strData]
    have hih := ih str (pre ++ b) post rest hstr' (by
      intro h hh
      have := hrest h hh
      simp only [List.length_append]
      omega)
    simp only [List.length_append] at hih
    have hshift := renderHeads_shift str (r.heads (pre.length + b.length) ++ rest)
      pre.length (pre.length + b.length) (by omega)
      (by
        intro h hh
        rcases List.mem_append.mp hh with hm | hm
        · exact (Calls.heads_bounds r _ h hm).1
        · have := hrest h hm
          omega)
    have hb : (str.drop pre.length).take (pre.length + b.length - pre.length) = b := by
      rw [hstr]
      simp [Calls.strData]
    simp only [Calls.heads, Calls.encoding, Calls.strData, List.length_append]
    rw [hshift, hb, hih, List.append_assoc, Nat.add_assoc]
  | list inner r ih1 ih2 =>
    intro str pre post rest hstr hrest
    simp only [Calls.strData, List.length_append] at hrest
    have hstr1 : str = pre ++ inner.strData ++ (r.strData ++ post) := by
      simp [hstr, Calls.strData]
    have hstr2 : str = (pre ++ inner.strData) ++ r.strData ++ post := by
      simp [hstr, Calls.strData]
    have h1 := ih1 str pre (r.strData ++ post)
      (r.heads (pre.length + inner.strData.length) ++ rest) hstr1 (by
        intro h hh
        rcases List.mem_append.mp hh with hm | hm
        · exact (Calls.heads_bounds r _ h hm).1
        · have := hrest h hm
          omega)
    have h2 := ih2 str (pre ++ inner.strData) post rest hstr2 (by
      intro h hh
      have := hrest h hh
      simp only [List.length_append]
      omega)
    simp only [List.length_append] at h2
    simp only [Calls.heads, Calls.encoding, Calls.strData, List.length_append, List.cons_append,
      renderHeads, Nat.sub_self, List.take_zero, List.nil_append, List.append_eq,
      List.append_assoc]
    rw [h1, h2, Nat.add_assoc]

/-- The last `copy` of `toBytes` fills the room that is left. -/
theorem copyAt_end (done room src : Bytes) (h : room.length = src.length) :
    copyAt (done ++ room) done.length src = done ++ src := by
  unfold copyAt
  rw [List.take_left', List.length_append, Nat.add_sub_cancel_left, h, List.take_length,
    List.drop_of_length_le (by rw [List.length_append, h]), List.append_nil]
  rfl

/-- C28: for every well-bracketed sequence of `Write`, `list()` and `listEnd()` calls on
a fresh `encbuf` whose encoding is shorter than `2 ^ 63` bytes, `toBytes` does not panic
and returns the encoding of the specification, in which every list is its header
followed by its content and the header carries the exact length of the encoded content,
nested headers included; and the length of the returned bytes is `size()`. -/
theorem C28_list_headers_under_nesting (c : Calls) (hsize : c.encoding.length < 2 ^ 63) :
    (c.run encbuf.fresh).toBytes = some c.encoding ∧
    c.encoding.length = (c.run encbuf.fresh).size := by
  have hrun : c.run encbuf.fresh
      = { str := c.strData, lheads := c.heads 0, lhsize := c.headerSize } := by
    rw [Calls.run_eq]
    simp [encbuf.fresh]
  have hlen := Calls.encoding_length c
  have hrender := Calls.renderHeads_eq c c.strData [] [] [] (by simp) (by simp)
  simp only [List.length_nil, List.append_nil, Nat.zero_add, renderHeads, List.drop_length]
    at hrender
  have hsz : (c.run encbuf.fresh).size = c.encoding.length := by
    rw [hrun, encbuf.size, hlen]
  refine ⟨?_, hsz.symm⟩
  obtain ⟨written, strpos', hloop, hs', hw⟩ := toBytesLoop_eq c.strData (c.heads 0) []
    (List.replicate c.encoding.length 0) 0
    (by
      intro h hh
      obtain ⟨h1, h2, h3⟩ := Calls.heads_bounds c 0 h hh
      refine ⟨h1, by omega, ?_⟩
      have : (2 : Nat) ^ 63 < 2 ^ 64 := by norm_num
      omega)
    (Calls.heads_sorted c 0) (Nat.zero_le _)
    (by rw [hrender, List.length_replicate])
  rw [hrender] at hw
  have hwl : written.length + (c.strData.length - strpos') = c.encoding.length := by
    rw [← hw, List.length_append, List.length_drop]
  simp only [List.nil_append, List.length_nil, Nat.zero_add] at hloop
  simp only [encbuf.toBytes, hsz]
  rw [hrun]
  simp only [hloop]
  have hol : (written ++ (List.replicate c.encoding.length 0).drop written.length).length
      = c.encoding.length := by
    rw [List.length_append, List.length_drop, List.length_replicate]
    omega
  have hcond : written.length ≤ (written
      ++ (List.replicate c.encoding.length 0).drop written.length).length
      ∧ strpos' ≤ c.strData.length := ⟨by rw [hol]; omega, hs'⟩
  simp only [hcond, and_self, if_true, Option.some.injEq]
  rw [copyAt_end _ _ _ (by rw [List.length_drop, List.length_drop, List.length_replicate]; omega),
    hw]

/-- C28 at a list of sixty bytes and a nested list of three bytes, followed by one more
byte: the outer header is `0xF8 64`, the inner header is `0xC3`, and the 67 bytes are
the `size()` of the buffer. -/
theorem C28_list_headers_under_nesting_witness :
    ((sampleCalls.run encbuf.fresh).toBytes = some sampleCalls.encoding ∧
      sampleCalls.encoding.length = (sampleCalls.run encbuf.fresh).size) ∧
    (sampleCalls.run encbuf.fresh).toBytes
      = some ([0xF8, 64] ++ List.replicate 60 7 ++ [0xC3, 1, 2, 3] ++ [9]) ∧
    (sampleCalls.run encbuf.fresh).size = 67 :=
  ⟨C28_list_headers_under_nesting sampleCalls
      (by rw [Calls.encoding_length]; decide),
    by decide, by decide⟩

/-- The digit loop leaves input unread when the input holds a character that is no digit
of the base. -/
theorem scanDigits_unread (b : Nat) (s : Str) (h : ∃ c ∈ s, digitVal c ≥ b) (z count : Nat) :
    (scanDigits b s z count).2.2 ≠ [] := by
  induction s generalizing z count with
  | nil =>
    obtain ⟨c, hc, _⟩ := h
    cases hc
  | cons a t ih =>
    by_cases ha : digitVal a ≥ b
    · simp [scanDigits, ha]
    · obtain ⟨c, hc, hcb⟩ := h
      rcases List.mem_cons.mp hc with rfl | hmem
      · exact absurd hcb ha
      · simp only [scanDigits, ha, if_false]
        exact ih ⟨c, hmem, hcb⟩ _ _

/-- White space is no digit of any base, no sign and no base prefix. -/
theorem digitVal_space (c : Char) (h : isSpace c = true) :
    digitVal c = 37 ∧ c ≠ '-' ∧ c ≠ '+' ∧ c ≠ '0' ∧ c ≠ 'x' ∧ c ≠ 'X' ∧ c ≠ 'b' ∧ c ≠ 'B' := by
  refine ⟨?_, ?_, ?_, ?_, ?_, ?_, ?_, ?_⟩
  · by_contra hne
    have hlt : digitVal c < 37 := by
      unfold digitVal at hne ⊢
      split_ifs at hne ⊢ <;> omega
    rw [isSpace_of_digit c hlt] at h
    cases h
  all_goals
    rintro rfl
    revert h
    decide

/-- The number scanner leaves input unread when the input holds white space. -/
theorem natScan_unread (c : Char) (hsp : isSpace c = true) (r : Str) (hr : c ∈ r)
    (res : Nat × Str) (hres : natScan r = some res) : res.2 ≠ [] := by
  obtain ⟨hval, -, -, h0, hx, hX, hb, hB⟩ := digitVal_space c hsp
  have hscan : ∀ (b : Nat) (t : Str), b ≤ 37 → c ∈ t →
      (scanDigits b t 0 0).2.2 ≠ [] :=
    fun b t hb ht => scanDigits_unread b t ⟨c, ht, by omega⟩ 0 0
  cases r with
  | nil => cases hr
  | cons ch rest =>
    unfold natScan at hres
    by_cases hch : ch = '0'
    · have hrest : c ∈ rest := by
        rcases List.mem_cons.mp hr with h | h
        · exact absurd (h.trans hch) h0
        · exact h
      cases rest with
      | nil => cases hrest
      | cons ch2 rest2 =>
        simp only [hch, if_true] at hres
        by_cases h16 : ch2 = 'x' ∨ ch2 = 'X'
        · have hr2 : c ∈ rest2 := by
            rcases List.mem_cons.mp hrest with h | h
            · rcases h16 with h' | h'
              · exact absurd (h.trans h') hx
              · exact absurd (h.trans h') hX
            · exact h
          simp only [h16, if_true, scanPrefixed] at hres
          cases rest2 with
          | nil => cases hr2
          | cons a t =>
            have := hscan 16 (a :: t) (by omega) hr2
            simp only at hres
            split_ifs at hres
            cases hres
            exact this
        · by_cases h2 : ch2 = 'b' ∨ ch2 = 'B'
          · have hr2 : c ∈ rest2 := by
              rcases List.mem_cons.mp hrest with h | h
              · rcases h2 with h' | h'
                · exact absurd (h.trans h') hb
                · exact absurd (h.trans h') hB
              · exact h
            simp only [h16, h2, if_true, if_false, scanPrefixed] at hres
            cases rest2 with
            | nil => cases hr2
            | cons a t =>
              have := hscan 2 (a :: t) (by omega) hr2
              simp only at hres
              split_ifs at hres
              cases hres
              exact this
          · have := hscan 8 (ch2 :: rest2) (by omega) hrest
            simp only [h16, h2, if_false] at hres
            split_ifs at hres <;> cases hres <;> exact this
    · have := hscan 10 (ch :: rest) (by omega) hr
      simp only [hch, if_false] at hres
      split_ifs at hres
      cases hres
      exact this

/-- A string that holds white space is no number for `SetString`. -/
theorem SetString_space (s : Str) (h : ∃ c ∈ s, isSpace c = true) : SetString s = none := by
  obtain ⟨c, hc, hsp⟩ := h
  obtain ⟨-, hm, hp, -, -, -, -, -⟩ := digitVal_space c hsp
  have fin : ∀ (neg : Bool) (r : Str), c ∈ r →
      (match natScan r with
        | none => (none : Option Int)
        | some (abs, unread) =>
          if unread ≠ [] then none
          else some (if neg ∧ 0 < abs then -(abs : Int) else (abs : Int))) = none := by
    intro neg r hr
    cases hn : natScan r with
    | none => rfl
    | some res =>
      obtain ⟨abs, unread⟩ := res
      have hu : unread ≠ [] := natScan_unread c hsp r hr (abs, unread) hn
      simp only [hu, ne_eq, not_false_eq_true, if_true]
  cases s with
  | nil => cases hc
  | cons ch rest =>
    unfold SetString
    by_cases h1 : ch = '-'
    · have hr : c ∈ rest := by
        rcases List.mem_cons.mp hc with h | h
        · exact absurd (h.trans h1) hm
        · exact h
      have hsign : scanSign (ch :: rest) = some (true, rest) := by simp [scanSign, h1]
      rw [hsign]
      exact fin true rest hr
    · by_cases h2 : ch = '+'
      · have hr : c ∈ rest := by
          rcases List.mem_cons.mp hc with h | h
          · exact absurd (h.trans h2) hp
          · exact h
        have hsign : scanSign (ch :: rest) = some (false, rest) := by simp [scanSign, h1, h2]
        rw [hsign]
        exact fin false rest hr
      · have hsign : scanSign (ch :: rest) = some (false, ch :: rest) := by
          simp [scanSign, h1, h2]
        rw [hsign]
        exact fin false (ch :: rest) hc

/-- A number with white space between its digits is an invalid component. -/
theorem parseComponent_inner_space (a b : Str) (ws : Char) (ha : a ≠ []) (hb : b ≠ [])
    (hdig : ∀ ch ∈ a ++ b, digitVal ch < 37) (hws : isSpace ws = true) :
    parseComponent (a ++ ws :: b) = .error (.invalidComponent (a ++ ws :: b)) ∧
    '/' ∉ a ++ ws :: b := by
  have hpl := plainChars_digits (a ++ b) hdig
  have hhead : ∀ c, (a ++ ws :: b).head? = some c → isSpace c = false := by
    intro c hc
    cases a with
    | nil => exact absurd rfl ha
    | cons x t =>
      simp only [List.cons_append, List.head?_cons, Option.some.injEq] at hc
      rw [← hc]
      exact (hpl x (by simp)).1
  have hlastb : ∀ c, (a ++ ws :: b).getLast? = some c → c ∈ b := by
    intro c hc
    have hne : ws :: b ≠ [] := by simp
    rw [List.getLast?_append_of_ne_nil _ hne] at hc
    cases b with
    | nil => exact absurd rfl hb
    | cons y t =>
      rw [List.getLast?_cons_cons] at hc
      exact List.mem_of_mem_getLast? hc
  have hlast : ∀ c, (a ++ ws :: b).getLast? = some c → isSpace c = false :=
    fun c hc => (hpl c (List.mem_append_right _ (hlastb c hc))).1
  have htrim := TrimSpace_eq_self (a ++ ws :: b) hhead hlast
  have hsuf : HasSuffix (a ++ ws :: b) = false := by
    cases hl : (a ++ ws :: b).getLast? with
    | none => simp [HasSuffix, hl]
    | some c =>
      have := (hpl c (List.mem_append_right _ (hlastb c hl))).2.1
      simp [HasSuffix, hl, this]
  have hset : SetString (a ++ ws :: b) = none :=
    SetString_space _ ⟨ws, by simp, hws⟩
  constructor
  · rw [parseComponent_plain _ (by rw [htrim]; exact hsuf), htrim, hset]
  · intro hmem
    rcases List.mem_append.mp hmem with h | h
    · exact (hpl _ (List.mem_append_left _ h)).2.2 rfl
    · rcases List.mem_cons.mp h with h | h
      · rw [← h] at hws
        revert hws
        decide
      · exact (hpl _ (List.mem_append_right _ h)).2.2 rfl

/-- An absolute path with one component. -/
theorem Split_single (x : Str) (hx : '/' ∉ x) : Split ('m' :: '/' :: x) = [['m'], x] := by
  have h := intercalate_root [x] (by simp)
  have hx' : ['/'].intercalate [x] = x := by simp [List.intercalate]
  rw [hx'] at h
  rw [h]
  apply Split_intercalate _ (by simp)
  intro c hc
  rcases List.mem_cons.mp hc with rfl | hc
  · decide
  · rw [List.mem_singleton.mp hc]
    exact hx

/-- C25: white space inside a number is not ignored. `m/44` parses to the path `[44]`
but `m/4 4` is rejected as an invalid component, and so are `m/4\t4` and `m/0x 2C`
next to `m/0x2C`; in general an absolute path whose component is two non-empty strings
of digits with one white space character between them is rejected. White space around
the components and in front of the hardened mark is ignored, as in the test input that
parses like `m/44'/6060'/0'/0`. -/
theorem C25_inner_whitespace_is_not_ignored :
    ParseDerivationPath "m/44".toList = ([44], none) ∧
    ParseDerivationPath "m/4 4".toList = ([], some (.invalidComponent "4 4".toList)) ∧
    ParseDerivationPath "m/4\t4".toList = ([], some (.invalidComponent "4\t4".toList)) ∧
    ParseDerivationPath "m/0x2C".toList = ([44], none) ∧
    ParseDerivationPath "m/0x 2C".toList = ([], some (.invalidComponent "0x 2C".toList)) ∧
    ParseDerivationPath "\tm  /   44\t\t\t'\n/\n   6060\t\n\n\t'   /\n0 ' /\t\t\t0".toList
      = ParseDerivationPath "m/44'/6060'/0'/0".toList ∧
    ParseDerivationPath "m/44'/6060'/0'/0".toList = (DefaultRootDerivationPath, none) ∧
    (∀ (a b : Str) (ws : Char), a ≠ [] → b ≠ [] → (∀ ch ∈ a ++ b, digitVal ch < 37) →
      isSpace ws = true →
      ParseDerivationPath ('m' :: '/' :: (a ++ ws :: b))
        = ([], some (.invalidComponent (a ++ ws :: b)))) := by
  refine ⟨by decide, by decide, by decide, by decide, by decide, by decide, by decide, ?_⟩
  intro a b ws ha hb hdig hws
  obtain ⟨herr, hslash⟩ := parseComponent_inner_space a b ws ha hb hdig hws
  have hm : TrimSpace ['m'] = ['m'] := by decide
  simp only [ParseDerivationPath, Split_single _ hslash, hm]
  simp [parseComponents, herr]

/-! ## The component range for any grammar of `SetString` -/

/-- The loop body on a component without the hardened mark, for any `SetString`. -/
theorem parseComponentWith_plain (setString : Str → Option Int) (c : Str)
    (hsuf : HasSuffix (TrimSpace c) = false) :
    parseComponentWith setString c
      = match setString (TrimSpace c) with
        | none => .error (.invalidComponent (TrimSpace c))
        | some n =>
          if n < 0 ∨ n > 0xFFFFFFFF then .error (.outOfRange n 0xFFFFFFFF)
          else .ok n.toNat := by
  cases hs : setString (TrimSpace c) with
  | none => simp [parseComponentWith, hsuf, hs]
  | some n =>
    by_cases hr : n < 0 ∨ n > 0xFFFFFFFF
    · simp [parseComponentWith, hsuf, hs, uint32Size, hr]
    · have hr2 : ¬ (n < 0 ∨ 4294967295 < n) := hr
      obtain ⟨m, rfl⟩ : ∃ m : Nat, n = m := Int.eq_ofNat_of_zero_le (by omega)
      simp only [parseComponentWith, hsuf, Bool.false_eq_true, if_false, if_true, hs, uint32Size,
        uint64Size]
      norm_num [hr2]
      split_ifs with h
      · rfl
      · congr 1
        omega

/-- The loop body on a component with the hardened mark, for any `SetString`. -/
theorem parseComponentWith_hardened (setString : Str → Option Int) (c : Str)
    (hsuf : HasSuffix (TrimSpace c) = true) :
    parseComponentWith setString c
      = match setString (TrimSpace (TrimSuffix (TrimSpace c))) with
        | none => .error (.invalidComponent (TrimSpace (TrimSuffix (TrimSpace c))))
        | some n =>
          if n < 0 ∨ n > 0x7FFFFFFF then .error (.outOfHardenedRange n 0x7FFFFFFF)
          else .ok (0x80000000 + n.toNat) := by
  cases hs : setString (TrimSpace (TrimSuffix (TrimSpace c))) with
  | none => simp [parseComponentWith, hsuf, hs]
  | some n =>
    by_cases hr : n < 0 ∨ n > 0x7FFFFFFF
    · simp [parseComponentWith, hsuf, hs, uint32Size, hr]
    · have hr2 : ¬ (n < 0 ∨ 2147483647 < n) := hr
      obtain ⟨m, rfl⟩ : ∃ m : Nat, n = m := Int.eq_ofNat_of_zero_le (by omega)
      simp only [parseComponentWith, hsuf, Bool.false_eq_true, if_false, if_true, hs, uint32Size,
        uint64Size]
      norm_num [hr2]
      split_ifs with h
      · rfl
      · congr 1
        omega

/-- The loop either fails with the `nil` path or appends one value per component, for
any `SetString`. -/
theorem parseComponentsWith_cases (setString : Str → Option Int) (cs : List Str)
    (result : DerivationPath) :
    (∃ err, parseComponentsWith setString cs result = ([], some err)) ∨
    (∃ vs, List.Forall₂ (fun c v => parseComponentWith setString c = .ok v) cs vs ∧
      parseComponentsWith setString cs result = (result ++ vs, none)) := by
  induction cs generalizing result with
  | nil => exact Or.inr ⟨[], List.Forall₂.nil, by simp [parseComponentsWith]⟩
  | cons c t ih =>
    cases hc : parseComponentWith setString c with
    | error err => exact Or.inl ⟨err, by simp [parseComponentsWith, hc]⟩
    | ok v =>
      rcases ih (result ++ [v]) with ⟨err, he⟩ | ⟨vs, hvs, he⟩
      · exact Or.inl ⟨err, by simp [parseComponentsWith, hc, he]⟩
      · exact Or.inr ⟨v :: vs, List.Forall₂.cons hc hvs, by simp [parseComponentsWith, hc, he]⟩

/-- The loop fails as soon as one of the components is rejected, for any `SetString`. -/
theorem parseComponentsWith_rejects (setString : Str → Option Int) (cs : List Str)
    (c : Str) (hc : c ∈ cs)
    (hbad : ∀ v, parseComponentWith setString c ≠ .ok v) (result : DerivationPath) :
    ∃ err, parseComponentsWith setString cs result = ([], some err) := by
  rcases parseComponentsWith_cases setString cs result with h | ⟨vs, hvs, -⟩
  · exact h
  · exfalso
    induction hvs with
    | nil => cases hc
    | cons hcv _ ih =>
      rcases List.mem_cons.mp hc with rfl | hmem
      · exact hbad _ hcv
      · exact ih hmem

/-- With the grammar written out above for `SetString`, the loop body is
`parseComponent`. -/
theorem parseComponentWith_SetString (c : Str) :
    parseComponentWith SetString c = parseComponent c := rfl

/-- With the grammar written out above for `SetString`, the loop is `parseComponents`. -/
theorem parseComponentsWith_SetString (cs : List Str) : ∀ result : DerivationPath,
    parseComponentsWith SetString cs result = parseComponents cs result := by
  induction cs with
  | nil =>
    intro result
    rfl
  | cons c t ih =>
    intro result
    simp only [parseComponentsWith, parseComponents, parseComponentWith_SetString]
    cases parseComponent c with
    | error err => rfl
    | ok v => exact ih _

/-- With the grammar written out above for `SetString`, the parser is
`ParseDerivationPath`. -/
theorem ParseDerivationPathWith_SetString (s : Str) :
    ParseDerivationPathWith SetString s = ParseDerivationPath s := by
  unfold ParseDerivationPathWith ParseDerivationPath
  cases Split s with
  | nil => rfl
  | cons first rest =>
    by_cases h1 : TrimSpace first = []
    · simp [h1]
    · by_cases h2 : TrimSpace first = ['m']
      · simp [h1, h2, parseComponentsWith_SetString]
      · simp [h1, h2, parseComponentsWith_SetString]

/-- A path with a rejected component is rejected, for any `SetString`: the component may
be any one after the first, or the first one unless that is the root mark `m`. -/
theorem ParseDerivationPathWith_rejects (setString : Str → Option Int) (s first c : Str)
    (rest : List Str) (hsplit : Split s = first :: rest)
    (hc : c ∈ rest ∨ (c = first ∧ TrimSpace first ≠ ['m']))
    (hbad : ∀ v, parseComponentWith setString c ≠ .ok v) :
    ∃ err, ParseDerivationPathWith setString s = ([], some err) := by
  unfold ParseDerivationPathWith
  rw [hsplit]
  by_cases h1 : TrimSpace first = []
  · exact ⟨.ambiguousPath, by simp [h1]⟩
  · by_cases h2 : TrimSpace first = ['m']
    · have hmem : c ∈ rest := by
        rcases hc with h | ⟨-, h⟩
        · exact h
        · exact absurd h2 h
      have hlen : rest.length ≠ 0 := by
        intro h
        rw [List.length_eq_zero.mp h] at hmem
        cases hmem
      obtain ⟨err, he⟩ := parseComponentsWith_rejects setString rest c hmem hbad []
      exact ⟨err, by simp [h1, h2, hlen, he]⟩
    · have hmem : c ∈ first :: rest := by
        rcases hc with h | ⟨h, -⟩
        · exact List.mem_cons_of_mem _ h
        · rw [h]
          exact List.mem_cons_self _ _
      obtain ⟨err, he⟩ := parseComponentsWith_rejects setString (first :: rest) c hmem hbad
        DefaultRootDerivationPath
      exact ⟨err, by simp [h1, h2, he]⟩

/-- A numeral with a leading zero and octal digits is read in base 8. -/
theorem SetString_octal (ds : Str) (hne : ds ≠ []) (hds : ∀ c ∈ ds, digitVal c < 8) :
    SetString ('0' :: ds) = some (numeralValue 8 ds : Int) := by
  have hscan := scanDigits_all 8 ds hds 0 0
  cases ds with
  | nil => exact absurd rfl hne
  | cons c t =>
    have hc := hds c (List.mem_cons_self _ _)
    have hx : c ≠ 'x' := by
      rintro rfl
      revert hc
      decide
    have hX : c ≠ 'X' := by
      rintro rfl
      revert hc
      decide
    have hb : c ≠ 'b' := by
      rintro rfl
      revert hc
      decide
    have hB : c ≠ 'B' := by
      rintro rfl
      revert hc
      decide
    simp [SetString, scanSign, natScan, hx, hX, hb, hB, hscan, numeralValue]

/-- A numeral with a leading zero and a digit 8 or 9 is no number for `SetString`. -/
theorem SetString_octal_invalid (ds : Str) (hds : ∀ c ∈ ds, digitVal c < 10)
    (hbig : ∃ c ∈ ds, 8 ≤ digitVal c) : SetString ('0' :: ds) = none := by
  have hunread := scanDigits_unread 8 ds hbig 0 0
  cases ds with
  | nil =>
    obtain ⟨c, hc, -⟩ := hbig
    cases hc
  | cons c t =>
    have hc := hds c (List.mem_cons_self _ _)
    have hx : c ≠ 'x' := by
      rintro rfl
      revert hc
      decide
    have hX : c ≠ 'X' := by
      rintro rfl
      revert hc
      decide
    have hb : c ≠ 'b' := by
      rintro rfl
      revert hc
      decide
    have hB : c ≠ 'B' := by
      rintro rfl
      revert hc
      decide
    simp only [SetString, scanSign, natScan, hx, hX, hb, hB, or_self, if_false,
      show ('0' : Char) ≠ '-' by decide, show ('0' : Char) ≠ '+' by decide, if_true]
    split_ifs <;> simp [hunread]

/-- C23 (counterexample): the plain component `08` is the decimal numeral of 8, which is
within `0 .. 0xFFFFFFFF`, yet it is rejected as an invalid component, alone and in the
path `m/08`; the plain component `010` is the decimal numeral of 10, yet it is accepted
with the value 8, and `m/010'` yields `0x80000000 + 8`. -/
theorem C23_counterexample :
    numeralValue 10 "08".toList = 8 ∧
    parseComponent "08".toList = .error (.invalidComponent "08".toList) ∧
    ParseDerivationPath "m/08".toList = ([], some (.invalidComponent "08".toList)) ∧
    ParseDerivationPath "m/08'".toList = ([], some (.invalidComponent "08".toList)) ∧
    numeralValue 10 "010".toList = 10 ∧
    parseComponent "010".toList = .ok 8 ∧
    ParseDerivationPath "m/010".toList = ([8], none) ∧
    ParseDerivationPath "m/010'".toList = ([0x80000000 + 8], none) :=
  ⟨by decide, rfl, by decide, by decide, by decide, rfl, by decide, by decide⟩

/-- C23 (amended): for whatever number `n` the library's `SetString(·, 0)` reads from a
component, a component with the hardened mark is accepted with the value `v` exactly
when `0 ≤ n ≤ 0x7FFFFFFF` and `v = 0x80000000 + n`, and a component without the mark
exactly when `0 ≤ n ≤ 0xFFFFFFFF` and `v = n`; every accepted value is below `2 ^ 32`;
and a path with a rejected component (any one after the first, or the first one unless
it is the root mark `m`) is rejected as a whole with the `nil` path.  With the grammar of
`SetString` written out, a decimal numeral `ds` without a leading zero and a hexadecimal
numeral `0x ds` are read with their usual value and accepted exactly in these ranges, a
negative numeral is rejected, a numeral `0 ds` with a leading zero is read in base 8, or
is invalid when it has a digit 8 or 9, and the absolute paths with the single component
`2147483648'` or `-1'` are rejected. -/
theorem C23_component_range (setString : Str → Option Int) (c : Str) (v : Nat) (ds : Str) :
    (HasSuffix (TrimSpace c) = true →
      (parseComponentWith setString c = .ok v ↔
        ∃ n : Int, setString (TrimSpace (TrimSuffix (TrimSpace c))) = some n ∧
          0 ≤ n ∧ n ≤ 0x7FFFFFFF ∧ (v : Int) = 0x80000000 + n)) ∧
    (HasSuffix (TrimSpace c) = false →
      (parseComponentWith setString c = .ok v ↔
        ∃ n : Int, setString (TrimSpace c) = some n ∧ 0 ≤ n ∧ n ≤ 0xFFFFFFFF ∧ (v : Int) = n)) ∧
    (parseComponentWith setString c = .ok v → v < uint32Size) ∧
    (∀ (s first : Str) (rest : List Str), Split s = first :: rest →
      (c ∈ rest ∨ (c = first ∧ TrimSpace first ≠ ['m'])) →
      (∀ w, parseComponentWith setString c ≠ .ok w) →
      ∃ err, ParseDerivationPathWith setString s = ([], some err)) ∧
    parseComponentWith SetString c = parseComponent c ∧
    (∀ s, ParseDerivationPathWith SetString s = ParseDerivationPath s) ∧
    (ds ≠ [] → (∀ ch ∈ ds, digitVal ch < 10) → (ds.head? ≠ some '0' ∨ ds = ['0']) →
      parseComponent ds
        = (if numeralValue 10 ds ≤ 0xFFFFFFFF then .ok (numeralValue 10 ds)
           else .error (.outOfRange (numeralValue 10 ds) 0xFFFFFFFF)) ∧
      parseComponent (ds ++ [apostrophe])
        = (if numeralValue 10 ds ≤ 0x7FFFFFFF then .ok (0x80000000 + numeralValue 10 ds)
           else .error (.outOfHardenedRange (numeralValue 10 ds) 0x7FFFFFFF)) ∧
      (0 < numeralValue 10 ds →
        parseComponent ('-' :: ds) = .error (.outOfRange (-(numeralValue 10 ds : Int)) 0xFFFFFFFF) ∧
        parseComponent ('-' :: ds ++ [apostrophe])
          = .error (.outOfHardenedRange (-(numeralValue 10 ds : Int)) 0x7FFFFFFF))) ∧
    (ds ≠ [] → (∀ ch ∈ ds, digitVal ch < 16) →
      parseComponent ('0' :: 'x' :: ds)
        = (if numeralValue 16 ds ≤ 0xFFFFFFFF then .ok (numeralValue 16 ds)
           else .error (.outOfRange (numeralValue 16 ds) 0xFFFFFFFF)) ∧
      parseComponent ('0' :: 'x' :: ds ++ [apostrophe])
        = (if numeralValue 16 ds ≤ 0x7FFFFFFF then .ok (0x80000000 + numeralValue 16 ds)
           else .error (.outOfHardenedRange (numeralValue 16 ds) 0x7FFFFFFF))) ∧
    (ds ≠ [] → (∀ ch ∈ ds, digitVal ch < 8) →
      parseComponent ('0' :: ds)
        = (if numeralValue 8 ds ≤ 0xFFFFFFFF then .ok (numeralValue 8 ds)
           else .error (.outOfRange (numeralValue 8 ds) 0xFFFFFFFF)) ∧
      parseComponent ('0' :: ds ++ [apostrophe])
        = (if numeralValue 8 ds ≤ 0x7FFFFFFF then .ok (0x80000000 + numeralValue 8 ds)
           else .error (.outOfHardenedRange (numeralValue 8 ds) 0x7FFFFFFF))) ∧
    ((∀ ch ∈ ds, digitVal ch < 10) → (∃ ch ∈ ds, 8 ≤ digitVal ch) →
      parseComponent ('0' :: ds) = .error (.invalidComponent ('0' :: ds)) ∧
      parseComponent ('0' :: ds ++ [apostrophe]) = .error (.invalidComponent ('0' :: ds))) ∧
    ParseDerivationPath "m/2147483648'".toList
      = ([], some (.outOfHardenedRange 2147483648 0x7FFFFFFF)) ∧
    ParseDerivationPath "m/-1'".toList = ([], some (.outOfHardenedRange (-1) 0x7FFFFFFF)) ∧
    ParseDerivationPath "m/2147483647'".toList = ([0xFFFFFFFF], none) ∧
    ParseDerivationPath "m/4294967295".toList = ([0xFFFFFFFF], none) ∧
    ParseDerivationPath "m/4294967296".toList = ([], some (.outOfRange 4294967296 0xFFFFFFFF)) ∧
    ParseDerivationPath "m/0xFFFFFFFF".toList = ([0xFFFFFFFF], none) ∧
    ParseDerivationPath "m/0x100000000".toList
      = ([], some (.outOfRange 4294967296 0xFFFFFFFF)) := by
  have hhard : HasSuffix (TrimSpace c) = true →
      (parseComponentWith setString c = .ok v ↔
        ∃ n : Int, setString (TrimSpace (TrimSuffix (TrimSpace c))) = some n ∧
          0 ≤ n ∧ n ≤ 0x7FFFFFFF ∧ (v : Int) = 0x80000000 + n) := by
    intro hsuf
    rw [parseComponentWith_hardened setString c hsuf]
    cases hs : setString (TrimSpace (TrimSuffix (TrimSpace c))) with
    | none => simp
    | some n =>
      by_cases hr : n < 0 ∨ n > 0x7FFFFFFF
      · simp only [hr, if_true, Option.some.injEq]
        constructor
        · intro h
          cases h
        · rintro ⟨m, rfl, h0, h1, -⟩
          omega
      · simp only [hr, if_false, Option.some.injEq]
        have hn : (n.toNat : Int) = n := Int.toNat_of_nonneg (by omega)
        constructor
        · intro h
          have hv := Except.ok.inj h
          exact ⟨n, rfl, by omega, by omega, by omega⟩
        · rintro ⟨m, rfl, h0, h1, h2⟩
          congr 1
          omega
  have hplain : HasSuffix (TrimSpace c) = false →
      (parseComponentWith setString c = .ok v ↔
        ∃ n : Int, setString (TrimSpace c) = some n ∧ 0 ≤ n ∧ n ≤ 0xFFFFFFFF ∧ (v : Int) = n) := by
    intro hsuf
    rw [parseComponentWith_plain setString c hsuf]
    cases hs : setString (TrimSpace c) with
    | none => simp
    | some n =>
      by_cases hr : n < 0 ∨ n > 0xFFFFFFFF
      · simp only [hr, if_true, Option.some.injEq]
        constructor
        · intro h
          cases h
        · rintro ⟨m, rfl, h0, h1, -⟩
          omega
      · simp only [hr, if_false, Option.some.injEq]
        have hn : (n.toNat : Int) = n := Int.toNat_of_nonneg (by omega)
        constructor
        · intro h
          have hv := Except.ok.inj h
          exact ⟨n, rfl, by omega, by omega, by omega⟩
        · rintro ⟨m, rfl, h0, h1, h2⟩
          congr 1
          omega
  refine ⟨hhard, hplain, ?_, ?_, rfl, ParseDerivationPathWith_SetString, ?_, ?_, ?_, ?_,
    by decide, by decide, by decide, by decide, by decide, by decide, by decide⟩
  · intro hv
    unfold uint32Size
    cases hsuf : HasSuffix (TrimSpace c) with
    | true =>
      obtain ⟨n, _, h0, h1, h2⟩ := (hhard hsuf).mp hv
      omega
    | false =>
      obtain ⟨n, _, h0, h1, h2⟩ := (hplain hsuf).mp hv
      omega
  · intro s first rest hsplit hc hbad
    exact ParseDerivationPathWith_rejects setString s first c rest hsplit hc hbad
  · intro hne hds hhead
    have hpl : plainChars ds := plainChars_digits ds (fun ch h => by have := hds ch h; omega)
    have hset := SetString_decimal ds hne hds hhead
    have hminus := SetString_minus ds hne hds hhead
    have hplm : plainChars ('-' :: ds) := by
      intro ch h
      rcases List.mem_cons.mp h with rfl | h
      · decide
      · exact hpl ch h
    refine ⟨?_, ?_, ?_⟩
    · rw [parseComponent_numeral ds _ hpl hset]
      split_ifs <;> first | rfl | omega
    · rw [parseComponent_numeral_hardened ds _ hpl hset]
      split_ifs <;> first | rfl | omega
    · intro hpos
      constructor
      · rw [parseComponent_numeral _ _ hplm hminus, if_pos (by omega)]
      · rw [parseComponent_numeral_hardened _ _ hplm hminus, if_pos (by omega)]
  · intro hne hds
    have hpl : plainChars ('0' :: 'x' :: ds) := by
      intro ch h
      rcases List.mem_cons.mp h with rfl | h
      · decide
      · rcases List.mem_cons.mp h with rfl | h
        · decide
        · exact plainChars_digits ds (fun ch h => by have := hds ch h; omega) ch h
    have hset := SetString_hex ds hne hds
    constructor
    · rw [parseComponent_numeral _ _ hpl hset]
      split_ifs <;> first | rfl | omega
    · rw [parseComponent_numeral_hardened _ _ hpl hset]
      split_ifs <;> first | rfl | omega
  · intro hne hds
    have hpl : plainChars ('0' :: ds) := by
      intro ch h
      rcases List.mem_cons.mp h with rfl | h
      · decide
      · exact plainChars_digits ds (fun ch h => by have := hds ch h; omega) ch h
    have hset := SetString_octal ds hne hds
    constructor
    · rw [parseComponent_numeral _ _ hpl hset]
      split_ifs <;> first | rfl | omega
    · rw [parseComponent_numeral_hardened _ _ hpl hset]
      split_ifs <;> first | rfl | omega
  · intro hds hbig
    have hpl : plainChars ('0' :: ds) := by
      intro ch h
      rcases List.mem_cons.mp h with rfl | h
      · decide
      · exact plainChars_digits ds (fun ch h => by have := hds ch h; omega) ch h
    have hset := SetString_octal_invalid ds hds hbig
    obtain ⟨htrim, hsuf⟩ := plainChars_trim _ hpl
    obtain ⟨htrim', hsuf', hbody⟩ := plainChars_hardened _ hpl
    constructor
    · rw [parseComponent_plain _ (by rw [htrim]; exact hsuf), htrim, hset]
    · rw [parseComponent_hardened _ (by rw [htrim']; exact hsuf'), htrim', hbody, hset]

/-- C23 at the components `44'` and `0x2C`, with the grammar of `SetString` written out:
`44'` is accepted with the value `0x80000000 + 44`, which is below `2 ^ 32`, the
relative path `-1/5`, whose first component is rejected, is rejected as a whole, and
`0x2C` is accepted with the value 44. -/
theorem C23_component_range_witness :
    parseComponentWith SetString "44'".toList = .ok (0x80000000 + 44) ∧
    0x80000000 + 44 < uint32Size ∧
    (∃ err, ParseDerivationPathWith SetString "-1/5".toList = ([], some err)) ∧
    parseComponent "0x2C".toList = .ok 44 :=
  ⟨((C23_component_range SetString "44'".toList (0x80000000 + 44) "2C".toList).1
      (by decide)).mpr ⟨44, rfl, by decide, by decide, by decide⟩,
    (C23_component_range SetString "44'".toList (0x80000000 + 44) "2C".toList).2.2.1
      (((C23_component_range SetString "44'".toList (0x80000000 + 44) "2C".toList).1
        (by decide)).mpr ⟨44, rfl, by decide, by decide, by decide⟩),
    (C23_component_range SetString "-1".toList 0 "2C".toList).2.2.2.1 "-1/5".toList
      "-1".toList ["5".toList] rfl (Or.inr ⟨rfl, by decide⟩)
      (fun w h => by
        have h2 : (Except.error (PathError.outOfRange (-1) 0xFFFFFFFF) : Except PathError Nat)
            = .ok w := h
        cases h2),
    ((C23_component_range SetString "44'".toList 0 "2C".toList).2.2.2.2.2.2.2.1
      (by decide) (by decide)).1.trans rfl⟩

end GendChain
